import Mathlib

/-!
# prime-cubes: a shallow embedding of the two search engines

The repository has two C programs, `primes_sequential.c` (trial-division
primality, nested sequential loops) and `primes_parallel.c` (sieve table,
OpenMP work-shared loops).  Both search for tuples `(a, b, c, d)` whose 27
combinations `a + b*i + c*j + d*k` with `i, j, k ∈ {0,1,2}` are all prime.

C `int` is modelled as `Int` kept in the signed 32-bit range by `wrap32`,
`long long` as `Int` kept in the signed 64-bit range by `wrap64`.  Loops are
functions with an explicit fuel argument; running out of fuel is `none`.

In each engine `main` is the whole function, run on the arguments
`argv[1], argv[2], ...`: the argument loop `parse_args` followed by
`main_after_args`, the part from the range validation on, which takes the
values the argument loop left in the variables.  The properties of the search
are stated on `main_after_args`, for all values of these variables.
-/

/-! ## Machine integers -/

/-- Two's-complement reduction of an integer to the signed 32-bit range. -/
def wrap32 (x : Int) : Int := (x + 2147483648) % 4294967296 - 2147483648

/-- Two's-complement reduction of an integer to the signed 64-bit range. -/
def wrap64 (x : Int) : Int :=
  (x + 9223372036854775808) % 18446744073709551616 - 9223372036854775808

/-- The value is representable as a C `int`. -/
def InInt32 (x : Int) : Prop := -2147483648 ≤ x ∧ x ≤ 2147483647

instance (x : Int) : Decidable (InInt32 x) := by
  unfold InInt32; exact inferInstance

/-! ## Declarations shared verbatim by both source files -/

/-- The struct `Params` of both programs: four C `int` fields. -/
structure Params where
  a : Int
  b : Int
  c : Int
  d : Int
deriving DecidableEq, Repr

/-- The table `CUBE_CHECK_ORDER[27][3]`, identical in both source files. -/
def CUBE_CHECK_ORDER : List (Int × Int × Int) :=
  [ (0,0,0), (1,0,0), (0,1,0), (0,0,1),
    (1,1,0), (1,0,1), (0,1,1),
    (1,1,1), (2,0,0), (0,2,0), (0,0,2),
    (2,1,0), (2,0,1), (1,2,0), (0,2,1),
    (1,0,2), (0,1,2),
    (2,2,0), (2,0,2), (0,2,2),
    (1,1,2), (1,2,1), (2,1,1),
    (2,2,1), (2,1,2), (1,2,2),
    (2,2,2) ]

/-- The expression `a + (long long)b * i + (long long)c * j + (long long)d * k`
of `check_cube`, every `long long` operation reduced to 64 bits. -/
def cube_value (p : Params) (t : Int × Int × Int) : Int :=
  wrap64 (wrap64 (wrap64 (p.a + wrap64 (p.b * t.1)) + wrap64 (p.c * t.2.1))
    + wrap64 (p.d * t.2.2))

/-- The `for (idx = 0; idx < 27; idx++)` loop of `check_cube` over the rows
still to visit.  The second component logs the arguments passed to `is_prime`,
in call order. -/
def check_cube_loop (is_prime : Int → Bool) (p : Params) :
    List (Int × Int × Int) → Bool × List Int
  | [] => (true, [])
  | t :: ts =>
    if !is_prime (cube_value p t) then (false, [cube_value p t])
    else
      let r := check_cube_loop is_prime p ts
      (r.1, cube_value p t :: r.2)

/-- The body of `check_cube`, which is the same text in both programs apart
from the `is_prime` it calls.  Returns the result together with the log of
the arguments passed to `is_prime`. -/
def check_cube_run (is_prime : Int → Bool) (p : Params) : Bool × List Int :=
  if p.a ≤ 0 ∨ p.b ≤ 0 ∨ p.c ≤ 0 ∨ p.d ≤ 0 then (false, [])
  else if ¬ (p.b ≤ p.c ∧ p.c ≤ p.d) then (false, [])
  else if !is_prime p.a then (false, [p.a])
  else
    let r := check_cube_loop is_prime p CUBE_CHECK_ORDER
    (r.1, p.a :: r.2)

/-! ## The sequential engine (`primes_sequential.c`) -/

namespace Sequential

/-- The table `PRIMES_ARRAY` of the source. -/
def PRIMES_ARRAY : List Int :=
  [ 2, 3, 5, 7, 11, 13, 17, 19, 23, 29,
    31, 37, 41, 43, 47, 53, 59, 61, 67, 71,
    73, 79, 83, 89, 97, 101, 103, 107, 109, 113,
    127, 131, 137, 139, 149, 151, 157, 163, 167, 173,
    179, 181, 191, 193, 197, 199, 211, 223, 227, 229,
    233, 239, 241, 251, 257, 263, 269, 271, 277, 281,
    283, 293, 307, 311, 313, 317, 331, 337, 347, 349,
    353, 359, 367, 373, 379, 383, 389, 397, 401, 409,
    419, 421, 431, 433, 439, 443, 449, 457, 461, 463,
    467, 479, 487, 491, 499, 503, 509, 521, 523, 541,
    547, 557, 563, 569, 571, 577, 587, 593, 599, 601,
    607, 613, 617, 619, 631, 641, 643, 647, 653, 659,
    661, 673, 677, 683, 691, 701, 709, 719, 727, 733,
    739, 743, 751, 757, 761, 769, 773, 787, 797, 809,
    811, 821, 823, 827, 829, 839, 853, 857, 859, 863,
    877, 881, 883, 887, 907, 911, 919, 929, 937, 941,
    947, 953, 967, 971, 977, 983, 991, 997 ]

/-- The constant `PRIMES_COUNT = sizeof(PRIMES_ARRAY) / sizeof(PRIMES_ARRAY[0])`. -/
def PRIMES_COUNT : Nat := PRIMES_ARRAY.length

/-- The linear search `for (i = 0; i < PRIMES_COUNT; i++)` of `is_prime`,
over the entries of the array still to visit. -/
def array_lookup (n : Int) : List Int → Bool
  | [] => false
  | q :: qs => if q = n then true else if q > n then false else array_lookup n qs

/-- The wheel loop `for (long long i = 5; i * i <= n; i += 6)` of `is_prime`.
`none` means the fuel ran out before the loop returned. -/
def wheel_loop (n : Int) : Nat → Int → Option Bool
  | 0, _ => none
  | fuel + 1, i =>
    if wrap64 (i * i) ≤ n then
      if Int.tmod n i = 0 ∨ Int.tmod n (wrap64 (i + 2)) = 0 then some false
      else wheel_loop n fuel (wrap64 (i + 6))
    else some true

/-- The function `is_prime` of the sequential engine, with the fuel of its
wheel loop explicit. -/
def is_prime_fuel (fuel : Nat) (n : Int) : Option Bool :=
  if n < 2 then some false
  else if n = 2 ∨ n = 3 then some true
  else if Int.tmod n 2 = 0 ∨ Int.tmod n 3 = 0 then some false
  else if n ≤ 997 then some (array_lookup n PRIMES_ARRAY)
  else wheel_loop n fuel 5

/-- The function `is_prime` of the sequential engine.  The wheel loop is given
`n` units of fuel; `is_prime_fuel_enough` shows that this never runs out for
`n < 2^62`, so that the fallback value is not reached there. -/
def is_prime (n : Int) : Bool :=
  match is_prime_fuel n.toNat n with
  | some r => r
  | none => false

/-- The function `check_cube` of the sequential engine. -/
def check_cube (p : Params) : Bool := (check_cube_run is_prime p).1

/-- Trial division of `k` by every `d` in `[2, 32)` below `k`: a kernel-friendly
primality test for `k < 1024`. -/
def small_prime_test (k : Nat) : Bool :=
  decide (2 ≤ k ∧ ∀ d, d < 32 → 2 ≤ d → d < k → k % d ≠ 0)

end Sequential


/-! ## The parallel engine (`primes_parallel.c`): primality table -/

namespace Parallel

/-- The macro `MAX_PRIME_CHECK`. -/
def MAX_PRIME_CHECK : Nat := 70000

/-- The two file-scope variables `prime_hash_set[MAX_PRIME_CHECK + 1]` and
`hash_set_initialized`. -/
structure PrimeTable where
  prime_hash_set : List Bool
  hash_set_initialized : Bool

/-- The state at program start: static storage is zero-initialised. -/
def PrimeTable.startup : PrimeTable :=
  { prime_hash_set := List.replicate (MAX_PRIME_CHECK + 1) false,
    hash_set_initialized := false }

/-- The loop `for (int i = 0; i <= MAX_PRIME_CHECK; i++) prime_hash_set[i] = true;`
with bound `N`.  The counters of the three sieve loops stay below
`N + N`, far inside the range of `int`, and are kept as natural numbers. -/
def fill_loop (N : Nat) : Nat → Nat → List Bool → Option (List Bool)
  | 0, _, _ => none
  | fuel + 1, i, t =>
    if i ≤ N then fill_loop N fuel (i + 1) (t.set i true) else some t

/-- The loop `for (int j = i * i; j <= MAX_PRIME_CHECK; j += i) prime_hash_set[j] = false;`
with bound `N`, from the current `j`. -/
def mark_loop (N i : Nat) : Nat → Nat → List Bool → Option (List Bool)
  | 0, _, _ => none
  | fuel + 1, j, t =>
    if j ≤ N then mark_loop N i fuel (j + i) (t.set j false) else some t

/-- The loop `for (int i = 2; i * i <= MAX_PRIME_CHECK; i++)` of the sieve with
bound `N`, from the current `i`; `inner` is the fuel handed to each run of the
marking loop. -/
def sieve_loop (N inner : Nat) : Nat → Nat → List Bool → Option (List Bool)
  | 0, _, _ => none
  | fuel + 1, i, t =>
    if i * i ≤ N then
      if t.getD i false then
        match mark_loop N i inner (i * i) t with
        | none => none
        | some t' => sieve_loop N inner fuel (i + 1) t'
      else sieve_loop N inner fuel (i + 1) t
    else some t

/-- The function `init_prime_hash_set`; every loop gets `fuel` units of fuel. -/
def init_prime_hash_set (fuel : Nat) (T : PrimeTable) : Option PrimeTable :=
  if T.hash_set_initialized then some T
  else
    match fill_loop MAX_PRIME_CHECK fuel 0 T.prime_hash_set with
    | none => none
    | some t1 =>
      match sieve_loop MAX_PRIME_CHECK fuel fuel 2 ((t1.set 1 false).set 0 false) with
      | none => none
      | some t2 => some { prime_hash_set := t2, hash_set_initialized := true }

/-- The body of `is_prime` of the parallel engine: a bounds check, then the
table read `prime_hash_set[n]`.  The second component logs the indices at
which `prime_hash_set` is read. -/
def is_prime_run (T : PrimeTable) (n : Int) : Bool × List Int :=
  if n < 0 ∨ n > (MAX_PRIME_CHECK : Int) then (false, [])
  else (T.prime_hash_set.getD n.toNat false, [n])

/-- The function `is_prime` of the parallel engine. -/
def is_prime (T : PrimeTable) (n : Int) : Bool := (is_prime_run T n).1

/-- The function `check_cube` of the parallel engine. -/
def check_cube (T : PrimeTable) (p : Params) : Bool := (check_cube_run (is_prime T) p).1

/-- The invariant of the sieve's outer loop at counter `i`: a cell is still
set exactly when its index `m ≥ 2` has no divisor `d` in `[2, i)` with
`d * d ≤ m`. -/
def SieveInv (N i : Nat) (t : List Bool) : Prop :=
  t.length = N + 1 ∧
    ∀ m, m ≤ N → (t.getD m false = true ↔
      2 ≤ m ∧ ∀ d, 2 ≤ d → d < i → d ∣ m → m < d * d)

/-- The table `T` is what `init_prime_hash_set` leaves when run on the
start-up state. -/
def Initialized (T : PrimeTable) : Prop :=
  ∃ fuel, init_prime_hash_set fuel PrimeTable.startup = some T

/-- The table in place once `main` has called `init_prime_hash_set`
(`table_after_init_initialized` shows that the call returns). -/
def table_after_init : PrimeTable :=
  (init_prime_hash_set (MAX_PRIME_CHECK + 2) PrimeTable.startup).getD PrimeTable.startup

end Parallel

/-! ## The search: declarations shared by both `main` functions -/

/-- One element of `argv`: its text, and the values that the C library
functions `atoi` and `atoll` return for it. -/
structure Arg where
  text : String
  atoi : Int
  atoll : Int

/-- The eight range variables of `main`, as parsed from the command line. -/
structure Ranges where
  a_min : Int
  a_max : Int
  b_min : Int
  b_max : Int
  c_min : Int
  c_max : Int
  d_min : Int
  d_max : Int
deriving DecidableEq, Repr

/-- The range validation of `main`, the same text in both programs: the exit
code when `main` returns early, `none` when it goes on to the search. -/
def range_error (r : Ranges) : Option Int :=
  if r.a_min > r.a_max ∨ r.b_min > r.b_max ∨ r.c_min > r.c_max ∨ r.d_min > r.d_max then some 1
  else if r.a_min < 1 ∨ r.b_min < 1 ∨ r.c_min < 1 ∨ r.d_min < 1 then some 1
  else none

/-- The variable `total_combinations` of `main`, the same text in both
programs: the four widths are computed in `int`, the product in `long long`. -/
def total_combinations (r : Ranges) : Int :=
  wrap64 (wrap64 (wrap64 (wrap32 (wrap32 (r.a_max - r.a_min) + 1)
      * wrap32 (wrap32 (r.b_max - r.b_min) + 1))
    * wrap32 (wrap32 (r.c_max - r.c_min) + 1))
    * wrap32 (wrap32 (r.d_max - r.d_min) + 1))

/-- The C loop `for (int x = lo; x <= hi; x++) body`, from the current `x`.
The increment of the `int` counter wraps around; `none` means that the fuel
ran out (or that the body did). -/
def for_loop {σ : Type} (hi : Int) (body : Int → σ → Option σ) : Nat → Int → σ → Option σ
  | 0, _, _ => none
  | fuel + 1, x, s =>
    if x ≤ hi then
      match body x s with
      | none => none
      | some s' => for_loop hi body fuel (wrap32 (x + 1)) s'
    else some s

/-- Carrying out a list of loop iterations one after the other. -/
def run_list {α σ : Type} (body : α → σ → Option σ) : List α → σ → Option σ
  | [], s => some s
  | x :: xs, s =>
    match body x s with
    | none => none
    | some s' => run_list body xs s'

namespace Sequential

/-- The variables of the sequential `main` that the search loop updates:
`checked` (`long long`), `found` (`int`), the tuples of the
`Found cube of primes` lines printed so far, and a log of the arguments
`check_cube` was called with.  The progress lines, which print clock readings,
are left out. -/
structure State where
  checked : Int
  found : Int
  printed : List Params
  evaluated : List Params

/-- The state before the search loop: `checked = 0`, `found = 0`. -/
def State.start : State := { checked := 0, found := 0, printed := [], evaluated := [] }

/-- The body of the innermost loop of the sequential search. -/
def step (p : Params) (s : State) : State :=
  let s1 : State := { s with checked := wrap64 (s.checked + 1), evaluated := s.evaluated ++ [p] }
  if check_cube p then
    { s1 with printed := s1.printed ++ [p], found := wrap32 (s1.found + 1) }
  else s1

/-- The four nested `for` loops of the sequential `main`; every loop gets
`fuel` units of fuel. -/
def search (fuel : Nat) (r : Ranges) (s : State) : Option State :=
  for_loop r.a_max (fun a s =>
    for_loop r.b_max (fun b s =>
      for_loop r.c_max (fun c s =>
        for_loop r.d_max (fun d s => some (step { a := a, b := b, c := c, d := d } s))
          fuel r.d_min s)
        fuel r.c_min s)
      fuel r.b_min s)
    fuel r.a_min s

/-- The part of the sequential `main` after the argument loop, from the range
validation on, run on the parsed ranges: `Except.error code` is an early
`return code`, `Except.ok s` is `return 0` after the search left the state
`s`. -/
def main_after_args (fuel : Nat) (r : Ranges) : Option (Except Int State) :=
  match range_error r with
  | some code => some (Except.error code)
  | none =>
    match search fuel r State.start with
    | none => none
    | some s => some (Except.ok s)

/-- The variables of the sequential `main` that the argument loop sets. -/
structure Options where
  ranges : Ranges
  show_progress : Bool

/-- The initial values of these variables: every range `1 20`, progress
reporting on. -/
def Options.defaults : Options :=
  { ranges := Ranges.mk 1 20 1 20 1 20 1 20, show_progress := true }

/-- The argument loop `for (int i = 1; i < argc; i++)` of the sequential
`main`, run on `argv[i], argv[i+1], ...`: `Except.error code` is
`return code` from inside the loop (`--help` returns 0), `Except.ok o` the
values of the variables when the loop ends.  A range option is recognised only
when two more arguments follow it (`i + 2 < argc`); any other argument is
skipped. -/
def parse_args : List Arg → Options → Except Int Options
  | [], o => Except.ok o
  | x :: rest, o =>
    if x.text = "--help" then Except.error 0
    else if x.text = "--no-progress" then parse_args rest { o with show_progress := false }
    else
      match rest with
      | v :: w :: rest2 =>
        if x.text = "--a-range" then
          parse_args rest2 { o with ranges := { o.ranges with a_min := v.atoi, a_max := w.atoi } }
        else if x.text = "--b-range" then
          parse_args rest2 { o with ranges := { o.ranges with b_min := v.atoi, b_max := w.atoi } }
        else if x.text = "--c-range" then
          parse_args rest2 { o with ranges := { o.ranges with c_min := v.atoi, c_max := w.atoi } }
        else if x.text = "--d-range" then
          parse_args rest2 { o with ranges := { o.ranges with d_min := v.atoi, d_max := w.atoi } }
        else parse_args (v :: w :: rest2) o
      | [v] => parse_args [v] o
      | [] => Except.ok o

/-- The function `main` of the sequential engine on the arguments
`argv[1], argv[2], ...`: the argument loop, then the validation and the
search. -/
def main (fuel : Nat) (args : List Arg) : Option (Except Int State) :=
  match parse_args args Options.defaults with
  | Except.error code => some (Except.error code)
  | Except.ok o => main_after_args fuel o.ranges

end Sequential

namespace Parallel

/-- The struct `ResultSet`.  The heap buffer `results` is a list of cells, a
cell that was never written being `none`. -/
structure ResultSet where
  results : List (Option Params)
  count : Int
  capacity : Int

/-- The call `realloc(results, sizeof(Params) * n)`: the first cells are kept,
new cells are unwritten. -/
def realloc (buf : List (Option Params)) (n : Int) : List (Option Params) :=
  buf.take n.toNat ++ List.replicate (n.toNat - buf.length) none

/-- The block under `#pragma omp critical` that records a match, the same text
in both modes. -/
def ResultSet.append (rs : ResultSet) (p : Params) : ResultSet :=
  let rs1 : ResultSet :=
    if rs.count = rs.capacity then
      { rs with capacity := wrap32 (rs.capacity * 2),
                results := realloc rs.results (wrap32 (rs.capacity * 2)) }
    else rs
  { rs1 with results := rs1.results.set rs1.count.toNat (some p),
             count := wrap32 (rs1.count + 1) }

/-- The variables of the parallel `main` shared by the workers: `result_set`,
`found` (`int`, summed by the reduction), `global_checked` (`long long`), the
`checked` figures of the progress lines printed so far, and a log of the
arguments `check_cube` was called with. -/
structure State where
  result_set : ResultSet
  found : Int
  global_checked : Int
  progress : List Int
  evaluated : List Params

/-- The state before the search: `count = 0`, `capacity = 1000`, `found = 0`,
`global_checked = 0`. -/
def State.start : State :=
  { result_set := { results := List.replicate 1000 none, count := 0, capacity := 1000 },
    found := 0, global_checked := 0, progress := [], evaluated := [] }

/-- The body of the innermost loop in both modes, apart from `local_checked++`. -/
def visit (T : PrimeTable) (p : Params) (s : State) : State :=
  let s1 : State := { s with evaluated := s.evaluated ++ [p] }
  if check_cube T p then
    { s1 with result_set := s1.result_set.append p, found := wrap32 (s1.found + 1) }
  else s1

/-- The variable `batch_start_pos` of the instrumented mode. -/
def batch_start_pos (r : Ranges) (a b : Int) : Int :=
  wrap64 (wrap64 (wrap64 (wrap64 (wrap32 (a - r.a_min) * wrap32 (wrap32 (r.b_max - r.b_min) + 1))
        + wrap32 (b - r.b_min))
      * wrap32 (wrap32 (r.c_max - r.c_min) + 1))
    * wrap32 (wrap32 (r.d_max - r.d_min) + 1))

/-- One iteration `(a, b)` of the collapsed loop of the instrumented mode: the
two inner C loops over `c` and `d` with the counter `local_checked`, the
atomic update of `global_checked`, and the progress line when the slice
crosses a multiple of `log_interval`. -/
def slice (T : PrimeTable) (fuel : Nat) (r : Ranges) (log_interval : Int) (ab : Int × Int)
    (s : State) : Option State :=
  match
    for_loop r.c_max (fun c sl =>
      for_loop r.d_max (fun d sl =>
          some (visit T { a := ab.1, b := ab.2, c := c, d := d } sl.1, wrap64 (sl.2 + 1)))
        fuel r.d_min sl)
      fuel r.c_min (s, (0 : Int)) with
  | none => none
  | some (s1, local_checked) =>
    let s2 : State := { s1 with global_checked := wrap64 (s1.global_checked + local_checked) }
    if Int.tdiv (batch_start_pos r ab.1 ab.2) log_interval
        ≠ Int.tdiv (wrap64 (batch_start_pos r ab.1 ab.2 + local_checked)) log_interval then
      some { s2 with progress := s2.progress ++ [s2.global_checked] }
    else some s2

/-- The instrumented mode (`show_progress`): the loop over `(a, b)` is
work-shared by OpenMP (`collapse(2)`), every iteration being handed to one
thread; `sched` lists the iterations in the order in which they are carried
out.  The updates of the shared variables are serialised by the `critical` and
`atomic` constructs. -/
def instrumented (T : PrimeTable) (fuel : Nat) (r : Ranges) (log_interval : Int)
    (sched : List (Int × Int)) (s : State) : Option State :=
  run_list (slice T fuel r log_interval) sched s

/-- The maximum-throughput mode: all four loops are work-shared
(`collapse(4)`); `sched` lists the iterations in the order in which they are
carried out.  Afterwards `global_checked = total_combinations`. -/
def max_throughput (T : PrimeTable) (r : Ranges) (sched : List Params) (s : State) : State :=
  { (sched.foldl (fun s p => visit T p s) s) with global_checked := total_combinations r }

/-- The part of the parallel `main` after the argument loop, from the range
validation on, run on the parsed options: `Except.error code` is an early
`return code`, `Except.ok s` is `return 0` after the search left the state
`s`.  `sched2` and `sched4` are the orders in which the iterations of the
work-shared loop of either mode are carried out. -/
def main_after_args (fuel : Nat) (r : Ranges) (log_interval : Int) (show_progress : Bool)
    (sched2 : List (Int × Int)) (sched4 : List Params) : Option (Except Int State) :=
  match range_error r with
  | some code => some (Except.error code)
  | none =>
    match init_prime_hash_set fuel PrimeTable.startup with
    | none => none
    | some T =>
      if show_progress then
        match instrumented T fuel r log_interval sched2 State.start with
        | none => none
        | some s => some (Except.ok s)
      else some (Except.ok (max_throughput T r sched4 State.start))

/-- The variables of the parallel `main` that the argument loop sets. -/
structure Options where
  ranges : Ranges
  workers : Int
  log_interval : Int
  show_progress : Bool

/-- The initial values of these variables: every range `1 20`, `workers = 0`,
`log_interval = 1000000`, progress reporting on. -/
def Options.defaults : Options :=
  { ranges := Ranges.mk 1 20 1 20 1 20 1 20, workers := 0, log_interval := 1000000,
    show_progress := true }

/-- The argument loop `for (int i = 1; i < argc; i++)` of the parallel `main`,
run on `argv[i], argv[i+1], ...`: `Except.error code` is `return code` from
inside the loop (`--help` returns 0; a `--log-interval` or `--workers` value
below 1 returns 1), `Except.ok o` the values of the variables when the loop
ends.  `--log-interval` and `--workers` are recognised only when one more
argument follows (`i + 1 < argc`), a range option only when two more follow
(`i + 2 < argc`); any other argument is skipped. -/
def parse_args : List Arg → Options → Except Int Options
  | [], o => Except.ok o
  | x :: rest, o =>
    if x.text = "--help" then Except.error 0
    else if x.text = "--no-progress" then parse_args rest { o with show_progress := false }
    else
      match rest with
      | [] => Except.ok o
      | v :: rest1 =>
        if x.text = "--log-interval" then
          if v.atoll < 1 then Except.error 1
          else parse_args rest1 { o with log_interval := v.atoll }
        else if x.text = "--workers" then
          if v.atoi < 1 then Except.error 1
          else parse_args rest1 { o with workers := v.atoi }
        else
          match rest1 with
          | [] => parse_args [v] o
          | w :: rest2 =>
            if x.text = "--a-range" then
              parse_args rest2
                { o with ranges := { o.ranges with a_min := v.atoi, a_max := w.atoi } }
            else if x.text = "--b-range" then
              parse_args rest2
                { o with ranges := { o.ranges with b_min := v.atoi, b_max := w.atoi } }
            else if x.text = "--c-range" then
              parse_args rest2
                { o with ranges := { o.ranges with c_min := v.atoi, c_max := w.atoi } }
            else if x.text = "--d-range" then
              parse_args rest2
                { o with ranges := { o.ranges with d_min := v.atoi, d_max := w.atoi } }
            else parse_args (v :: w :: rest2) o

/-- The function `main` of the parallel engine on the arguments
`argv[1], argv[2], ...`: the argument loop, then the validation and the
search.  `omp_set_num_threads(workers)` only bears on the schedule, which is
arbitrary here. -/
def main (fuel : Nat) (args : List Arg) (sched2 : List (Int × Int)) (sched4 : List Params) :
    Option (Except Int State) :=
  match parse_args args Options.defaults with
  | Except.error code => some (Except.error code)
  | Except.ok o => main_after_args fuel o.ranges o.log_interval o.show_progress sched2 sched4

/-- The loop `for (int i = 0; i < result_set.count; i++)` that prints the
results: the cells `results[0 .. count)` in order; a cell outside the buffer
reads as unwritten. -/
def dump (rs : ResultSet) : List (Option Params) :=
  (List.range rs.count.toNat).map fun i => rs.results.getD i none

/-- The result set holds exactly the tuples of `l`, in order: its capacity is
`1000 * 2^k`, its count is the length of `l`, and the buffer starts with the
tuples of `l`. -/
def ResultSet.Holds (rs : ResultSet) (l : List Params) : Prop :=
  ∃ (k : Nat) (rest : List (Option Params)), k ≤ 21 ∧ rs.capacity = 1000 * 2 ^ k ∧
    rs.count = l.length ∧ rs.results = l.map some ++ rest ∧
    l.length + rest.length = 1000 * 2 ^ k

end Parallel

/-! ## Reference notions used to state the properties -/

/-- The integers `lo, lo + 1, ...`, `n` of them. -/
def int_range_from : Int → Nat → List Int
  | _, 0 => []
  | lo, n + 1 => lo :: int_range_from (lo + 1) n

/-- The integers of the closed interval `[lo, hi]`, ascending. -/
def int_range (lo hi : Int) : List Int := int_range_from lo (hi - lo + 1).toNat

/-- The iteration space of the loops over `a` and `b`, in loop order. -/
def Ranges.slices (r : Ranges) : List (Int × Int) :=
  (int_range r.a_min r.a_max).flatMap fun a =>
    (int_range r.b_min r.b_max).map fun b => (a, b)

/-- The tuples of one `(a, b)` slice, in loop order. -/
def Ranges.slice_tuples (r : Ranges) (ab : Int × Int) : List Params :=
  (int_range r.c_min r.c_max).flatMap fun c =>
    (int_range r.d_min r.d_max).map fun d => { a := ab.1, b := ab.2, c := c, d := d }

/-- The Cartesian product of the four ranges, in loop order. -/
def Ranges.tuples (r : Ranges) : List Params :=
  r.slices.flatMap r.slice_tuples

/-- The exact number of tuples of the Cartesian product. -/
def Ranges.count (r : Ranges) : Int :=
  (r.a_max - r.a_min + 1) * (r.b_max - r.b_min + 1) * (r.c_max - r.c_min + 1)
    * (r.d_max - r.d_min + 1)

/-- Every range has `1 ≤ min ≤ max`: the ranges the validation lets through. -/
def Ranges.Valid (r : Ranges) : Prop :=
  (1 ≤ r.a_min ∧ r.a_min ≤ r.a_max) ∧ (1 ≤ r.b_min ∧ r.b_min ≤ r.b_max) ∧
    (1 ≤ r.c_min ∧ r.c_min ≤ r.c_max) ∧ (1 ≤ r.d_min ∧ r.d_min ≤ r.d_max)

/-- Some range has `min > max` or `min < 1`: the ranges the validation
refuses. -/
def Ranges.Invalid (r : Ranges) : Prop :=
  (r.a_min > r.a_max ∨ r.b_min > r.b_max ∨ r.c_min > r.c_max ∨ r.d_min > r.d_max) ∨
    (r.a_min < 1 ∨ r.b_min < 1 ∨ r.c_min < 1 ∨ r.d_min < 1)

/-- Every bound is representable as a C `int`. -/
def Ranges.InRange (r : Ranges) : Prop :=
  InInt32 r.a_min ∧ InInt32 r.a_max ∧ InInt32 r.b_min ∧ InInt32 r.b_max ∧
    InInt32 r.c_min ∧ InInt32 r.c_max ∧ InInt32 r.d_min ∧ InInt32 r.d_max

/-- No `for` loop of the search has the bound `INT_MAX`. -/
def Ranges.BelowIntMax (r : Ranges) : Prop :=
  r.a_max < 2147483647 ∧ r.b_max < 2147483647 ∧ r.c_max < 2147483647 ∧ r.d_max < 2147483647

/-- The fuel `fuel` exceeds the number of iterations of each of the four loops. -/
def Ranges.FuelEnough (r : Ranges) (fuel : Nat) : Prop :=
  r.a_max - r.a_min + 1 < fuel ∧ r.b_max - r.b_min + 1 < fuel ∧
    r.c_max - r.c_min + 1 < fuel ∧ r.d_max - r.d_min + 1 < fuel


/-- The 27 exact integers `a + b*i + c*j + d*k`, `i, j, k ∈ {0,1,2}`, are all
prime. -/
def AllCombinationsPrime (p : Params) : Prop :=
  ∀ i j k : Int, (i = 0 ∨ i = 1 ∨ i = 2) → (j = 0 ∨ j = 1 ∨ j = 2) → (k = 0 ∨ k = 1 ∨ k = 2) →
    Nat.Prime (p.a + p.b * i + p.c * j + p.d * k).toNat

/-- The guards of `check_cube`: all four components positive and `b ≤ c ≤ d`. -/
def Canonical (p : Params) : Prop :=
  1 ≤ p.a ∧ 1 ≤ p.b ∧ 1 ≤ p.c ∧ 1 ≤ p.d ∧ p.b ≤ p.c ∧ p.c ≤ p.d

/-- Every field of the tuple is representable as a C `int`. -/
def Params.InRange (p : Params) : Prop :=
  InInt32 p.a ∧ InInt32 p.b ∧ InInt32 p.c ∧ InInt32 p.d

/-! ## Shorthands for concrete ranges -/

/-- The ranges whose Cartesian product is the single tuple `p`
(`--a-range a a --b-range b b --c-range c c --d-range d d`). -/
def Ranges.single (p : Params) : Ranges :=
  { a_min := p.a, a_max := p.a, b_min := p.b, b_max := p.b,
    c_min := p.c, c_max := p.c, d_min := p.d, d_max := p.d }

/-- The ranges with all four intervals equal to `[lo, hi]`. -/
def Ranges.uniform (lo hi : Int) : Ranges :=
  { a_min := lo, a_max := hi, b_min := lo, b_max := hi,
    c_min := lo, c_max := hi, d_min := lo, d_max := hi }

/-! ## Reference notions for the progress lines, the row order and sorting -/

/-- The weight `i + j + k` of a row of `CUBE_CHECK_ORDER`. -/
def row_weight (t : Int × Int × Int) : Int := t.1 + t.2.1 + t.2.2

/-- The number of tuples of one `(a, b)` slice. -/
def Ranges.slice_size (r : Ranges) : Int :=
  (r.c_max - r.c_min + 1) * (r.d_max - r.d_min + 1)

/-- The test of the instrumented mode that decides whether the slice `(a, b)`
prints a progress line, for a slice that ended with the given value of
`local_checked`:
`batch_start_pos / log_interval != (batch_start_pos + local_checked) / log_interval`. -/
def Parallel.reports (r : Ranges) (log_interval local_checked : Int) (ab : Int × Int) : Bool :=
  decide (Int.tdiv (Parallel.batch_start_pos r ab.1 ab.2) log_interval
    ≠ Int.tdiv (wrap64 (Parallel.batch_start_pos r ab.1 ab.2 + local_checked)) log_interval)

/-- The ascending sort of three integers. -/
def sort3 (b c d : Int) : Int × Int × Int :=
  (min b (min c d), b + c + d - min b (min c d) - max b (max c d), max b (max c d))

/-- The set of the values `a + b*i + c*j + d*k`, `i, j, k ∈ {0,1,2}`, of a tuple. -/
def combination_values (p : Params) : Set Int :=
  { v | ∃ i j k : Int, (i = 0 ∨ i = 1 ∨ i = 2) ∧ (j = 0 ∨ j = 1 ∨ j = 2) ∧
      (k = 0 ∨ k = 1 ∨ k = 2) ∧ v = p.a + p.b * i + p.c * j + p.d * k }

/-- The position of the slice `(a, b)` in loop order. -/
def Ranges.slice_index (r : Ranges) (ab : Int × Int) : Nat :=
  ((ab.1 - r.a_min) * (r.b_max - r.b_min + 1) + (ab.2 - r.b_min)).toNat

/-- Among `n` consecutive slices of `S` combinations each, the number of
slices `k` over which the quotient of the position by `L` changes. -/
def crossings (n S L : Nat) : Nat :=
  ((List.range n).filter (fun k => decide (k * S / L ≠ (k + 1) * S / L))).length
/-! ## Facts about machine integers -/

theorem wrap64_eq_self {x : Int} (h1 : -9223372036854775808 ≤ x)
    (h2 : x ≤ 9223372036854775807) : wrap64 x = x := by
  unfold wrap64; omega

theorem wrap32_eq_self {x : Int} (h1 : -2147483648 ≤ x)
    (h2 : x ≤ 2147483647) : wrap32 x = x := by
  unfold wrap32; omega

theorem wrap32_range (x : Int) : InInt32 (wrap32 x) := by
  unfold wrap32 InInt32; omega

/-! ## Trial division is primality -/

namespace Sequential

/-- A number with no divisor `d` in `[2, k)` where `m < k * k` is prime. -/
theorem prime_of_no_small_divisor {m k : Nat} (hm : 2 ≤ m) (hk : m < k * k)
    (h : ∀ d, 2 ≤ d → d < k → ¬ d ∣ m) : Nat.Prime m := by
  by_contra hnp
  have hsq : m.minFac ^ 2 ≤ m := Nat.minFac_sq_le_self (by omega) hnp
  have hge : 2 ≤ m.minFac := (Nat.minFac_prime (by omega)).two_le
  have hlt : m.minFac < k := by
    by_contra hcon
    have hkm : k ≤ m.minFac := by omega
    have : k * k ≤ m.minFac ^ 2 := by
      rw [pow_two]; exact Nat.mul_le_mul hkm hkm
    omega
  exact h _ hge hlt (Nat.minFac_dvd m)

/-- A number with a divisor strictly between 1 and itself is not prime. -/
theorem not_prime_of_proper_divisor {m d : Nat} (h1 : 1 < d) (h2 : d < m)
    (h : d ∣ m) : ¬ Nat.Prime m := by
  intro hp
  rcases (Nat.dvd_prime hp).1 h with h' | h' <;> omega

/-- The wheel loop decides primality of `m`, given that `m` is coprime to 6,
that `k ≡ 5 (mod 6)` and that nothing in `[2, k)` divides `m`; the fuel bound
`m + 5 ≤ fuel + k` is enough for it to return. -/
theorem wheel_loop_spec (m : Nat) (hm : m < 2 ^ 62) (h2 : m % 2 ≠ 0) (h3 : m % 3 ≠ 0) :
    ∀ (fuel k : Nat), k % 6 = 5 → k ≤ m → k ≤ 2147483653 → m + 5 ≤ fuel + k →
      (∀ d, 2 ≤ d → d < k → ¬ d ∣ m) →
      wheel_loop (m : Int) fuel (k : Int) = some (decide (Nat.Prime m)) := by
  intro fuel
  induction fuel with
  | zero => intro k _ hkm _ hf _; omega
  | succ fuel ih =>
    intro k hk6 hkm hkb hf hinv
    have hkk : k * k ≤ 2147483653 * 2147483653 := Nat.mul_le_mul hkb hkb
    have hw1 : wrap64 ((k : Int) * (k : Int)) = ((k * k : Nat) : Int) := by
      rw [wrap64_eq_self] <;> push_cast <;> nlinarith
    have hw2 : wrap64 ((k : Int) + 2) = ((k + 2 : Nat) : Int) := by
      rw [wrap64_eq_self] <;> push_cast <;> omega
    have hw3 : wrap64 ((k : Int) + 6) = ((k + 6 : Nat) : Int) := by
      rw [wrap64_eq_self] <;> push_cast <;> omega
    have hm1 : Int.tmod (m : Int) (k : Int) = ((m % k : Nat) : Int) :=
      (Int.ofNat_tmod m k).symm
    have hm2 : Int.tmod (m : Int) ((k + 2 : Nat) : Int) = ((m % (k + 2) : Nat) : Int) :=
      (Int.ofNat_tmod m (k + 2)).symm
    unfold wheel_loop
    rw [hw1, hw2, hw3, hm1, hm2]
    by_cases hsq : k * k ≤ m
    · have hsq' : ((k * k : Nat) : Int) ≤ (m : Int) := by exact_mod_cast hsq
      rw [if_pos hsq']
      have hk5 : 5 ≤ k := by omega
      have hlin : 5 * k ≤ k * k := Nat.mul_le_mul_right k hk5
      have hk31 : k < 2147483648 := by
        by_contra hcon
        have : 2147483648 * 2147483648 ≤ k * k :=
          Nat.mul_le_mul (by omega) (by omega)
        omega
      by_cases hdiv : m % k = 0 ∨ m % (k + 2) = 0
      · have hdiv' : ((m % k : Nat) : Int) = 0 ∨ ((m % (k + 2) : Nat) : Int) = 0 := by
          rcases hdiv with h | h
          · left; exact_mod_cast h
          · right; exact_mod_cast h
        rw [if_pos hdiv']
        have hnp : ¬ Nat.Prime m := by
          rcases hdiv with h | h
          · exact not_prime_of_proper_divisor (by omega) (by omega) (Nat.dvd_of_mod_eq_zero h)
          · exact not_prime_of_proper_divisor (by omega) (by omega) (Nat.dvd_of_mod_eq_zero h)
        simp [hnp]
      · have hdiv' : ¬ (((m % k : Nat) : Int) = 0 ∨ ((m % (k + 2) : Nat) : Int) = 0) := by
          intro h
          apply hdiv
          rcases h with h | h
          · left; exact_mod_cast h
          · right; exact_mod_cast h
        rw [if_neg hdiv']
        apply ih (k + 6) (by omega) (by omega) (by omega) (by omega)
        intro d hd2 hdk hdm
        by_cases hlt : d < k
        · exact hinv d hd2 hlt hdm
        · have hcases : d = k ∨ d = k + 2 ∨ d % 2 = 0 ∨ d % 3 = 0 := by omega
          rcases hcases with h | h | h | h
          · subst h; exact hdiv (Or.inl (Nat.mod_eq_zero_of_dvd hdm))
          · subst h; exact hdiv (Or.inr (Nat.mod_eq_zero_of_dvd hdm))
          · have : 2 ∣ m := Nat.dvd_trans (Nat.dvd_of_mod_eq_zero h) hdm
            omega
          · have : 3 ∣ m := Nat.dvd_trans (Nat.dvd_of_mod_eq_zero h) hdm
            omega
    · have hsq' : ¬ ((k * k : Nat) : Int) ≤ (m : Int) := by
        intro h; apply hsq; exact_mod_cast h
      rw [if_neg hsq']
      have hp : Nat.Prime m := prime_of_no_small_divisor (by omega) (by omega) hinv
      simp [hp]

theorem small_prime_test_iff {k : Nat} (hk : k < 1024) :
    small_prime_test k = true ↔ Nat.Prime k := by
  unfold small_prime_test
  rw [decide_eq_true_iff]
  constructor
  · rintro ⟨h2, h⟩
    by_cases hlt : k < 32
    · apply prime_of_no_small_divisor h2 (k := k)
      · nlinarith
      · intro d hd2 hdk hdvd
        exact h d (by omega) hd2 hdk (Nat.mod_eq_zero_of_dvd hdvd)
    · apply prime_of_no_small_divisor h2 (k := 32)
      · omega
      · intro d hd2 hdk hdvd
        exact h d hdk hd2 (by omega) (Nat.mod_eq_zero_of_dvd hdvd)
  · intro hp
    refine ⟨hp.two_le, ?_⟩
    intro d _ hd2 hdk hmod
    exact not_prime_of_proper_divisor (by omega) hdk (Nat.dvd_of_mod_eq_zero hmod) hp

/-- On a strictly increasing list the linear search with early exit is
membership. -/
theorem array_lookup_eq_mem (n : Int) :
    ∀ l : List Int, l.Pairwise (fun x y => x < y) → array_lookup n l = decide (n ∈ l) := by
  intro l
  induction l with
  | nil => intro _; simp [array_lookup]
  | cons q qs ih =>
    intro hs
    rw [List.pairwise_cons] at hs
    unfold array_lookup
    by_cases h1 : q = n
    · simp [h1]
    · rw [if_neg h1]
      by_cases h2 : q > n
      · rw [if_pos h2]
        have hnot : n ∉ q :: qs := by
          intro hmem
          rcases List.mem_cons.1 hmem with h | h
          · exact h1 h.symm
          · have := hs.1 n h
            omega
        simp [hnot]
      · rw [if_neg h2, ih hs.2]
        have hne : ¬ n = q := fun h => h1 h.symm
        simp [hne]

set_option maxRecDepth 100000 in
theorem PRIMES_ARRAY_increasing : PRIMES_ARRAY.Pairwise (fun x y => x < y) := by
  decide!

set_option maxRecDepth 100000 in
theorem PRIMES_ARRAY_sound : ∀ q ∈ PRIMES_ARRAY, small_prime_test q.toNat = true ∧ 0 ≤ q := by
  decide!

set_option maxRecDepth 100000 in
theorem PRIMES_ARRAY_complete :
    ∀ k : Nat, k < 998 → small_prime_test k = true → (k : Int) ∈ PRIMES_ARRAY := by
  decide!

/-- The table lookup answers primality for every `k` in `[0, 997]`. -/
theorem array_lookup_spec {k : Nat} (hk : k < 998) :
    array_lookup (k : Int) PRIMES_ARRAY = decide (Nat.Prime k) := by
  rw [array_lookup_eq_mem _ _ PRIMES_ARRAY_increasing]
  by_cases hp : Nat.Prime k
  · have := PRIMES_ARRAY_complete k hk ((small_prime_test_iff (by omega)).2 hp)
    simp [this, hp]
  · have hnot : (k : Int) ∉ PRIMES_ARRAY := by
      intro hmem
      have := (PRIMES_ARRAY_sound _ hmem).1
      rw [Int.toNat_ofNat] at this
      exact hp ((small_prime_test_iff (by omega)).1 this)
    simp [hnot, hp]

/-- The sequential `is_prime` with explicit fuel returns, and returns the
primality of `n`, for every `n < 2^62` once the fuel is at least `n`. -/
theorem is_prime_fuel_spec (n : Int) (hn : n < 2 ^ 62) (fuel : Nat) (hf : n.toNat ≤ fuel) :
    is_prime_fuel fuel n = some (decide (Nat.Prime n.toNat)) := by
  unfold is_prime_fuel
  by_cases h2 : n < 2
  · rw [if_pos h2]
    have hnp : ¬ Nat.Prime n.toNat := by
      intro hp
      have := hp.two_le
      omega
    simp [hnp]
  · rw [if_neg h2]
    obtain ⟨m, rfl⟩ := Int.eq_ofNat_of_zero_le (by omega : 0 ≤ n)
    have hm2 : 2 ≤ m := by omega
    have hmb : m < 2 ^ 62 := by exact_mod_cast hn
    rw [Int.toNat_ofNat] at hf ⊢
    by_cases h23 : (m : Int) = 2 ∨ (m : Int) = 3
    · rw [if_pos h23]
      have hp : Nat.Prime m := by
        rcases h23 with h | h
        · have : m = 2 := by exact_mod_cast h
          subst this; exact Nat.prime_two
        · have : m = 3 := by exact_mod_cast h
          subst this; exact Nat.prime_three
      simp [hp]
    · rw [if_neg h23]
      have hne : m ≠ 2 ∧ m ≠ 3 := by
        constructor
        · intro h; exact h23 (Or.inl (by exact_mod_cast h))
        · intro h; exact h23 (Or.inr (by exact_mod_cast h))
      have ht2 : Int.tmod (m : Int) 2 = ((m % 2 : Nat) : Int) := (Int.ofNat_tmod m 2).symm
      have ht3 : Int.tmod (m : Int) 3 = ((m % 3 : Nat) : Int) := (Int.ofNat_tmod m 3).symm
      rw [ht2, ht3]
      by_cases hdiv : m % 2 = 0 ∨ m % 3 = 0
      · have hdiv' : ((m % 2 : Nat) : Int) = 0 ∨ ((m % 3 : Nat) : Int) = 0 := by
          rcases hdiv with h | h
          · left; exact_mod_cast h
          · right; exact_mod_cast h
        rw [if_pos hdiv']
        have hnp : ¬ Nat.Prime m := by
          rcases hdiv with h | h
          · exact not_prime_of_proper_divisor (d := 2) (by omega) (by omega)
              (Nat.dvd_of_mod_eq_zero h)
          · exact not_prime_of_proper_divisor (d := 3) (by omega) (by omega)
              (Nat.dvd_of_mod_eq_zero h)
        simp [hnp]
      · have hdiv' : ¬ (((m % 2 : Nat) : Int) = 0 ∨ ((m % 3 : Nat) : Int) = 0) := by
          intro h
          apply hdiv
          rcases h with h | h
          · left; exact_mod_cast h
          · right; exact_mod_cast h
        rw [if_neg hdiv']
        by_cases hsmall : (m : Int) ≤ 997
        · rw [if_pos hsmall]
          have hk : m < 998 := by omega
          rw [array_lookup_spec hk]
        · rw [if_neg hsmall]
          have h5 : ((5 : Nat) : Int) = 5 := rfl
          rw [← h5]
          apply wheel_loop_spec m hmb (by omega) (by omega) fuel 5 (by omega) (by omega)
            (by omega) (by omega)
          intro d hd2 hd5 hdvd
          have hcases : d = 2 ∨ d = 3 ∨ d = 4 := by omega
          rcases hcases with h | h | h <;> subst h <;> omega

/-- The sequential `is_prime` is primality of `n` for every `n < 2^62`. -/
theorem seq_is_prime_spec (n : Int) (hn : n < 2 ^ 62) :
    is_prime n = decide (Nat.Prime n.toNat) := by
  unfold is_prime
  rw [is_prime_fuel_spec n hn n.toNat (le_refl _)]

end Sequential

/-! ## The sieve table is primality on `[0, N]` -/

namespace Parallel

theorem getD_set_eq (t : List Bool) (i m : Nat) (b : Bool) (h : i < t.length) :
    (t.set i b).getD m false = if m = i then b else t.getD m false := by
  rw [List.getD_eq_getElem?_getD, List.getD_eq_getElem?_getD, List.getElem?_set]
  by_cases hm : m = i
  · subst hm; simp [h]
  · have : ¬ i = m := fun h' => hm h'.symm
    simp [hm, this]

/-- The filling loop returns, keeps the length and sets every cell from `i` on. -/
theorem fill_loop_spec (N : Nat) :
    ∀ (fuel i : Nat) (t : List Bool), N + 2 ≤ fuel + i → i ≤ N + 1 → t.length = N + 1 →
      ∃ t', fill_loop N fuel i t = some t' ∧ t'.length = N + 1 ∧
        ∀ m, m ≤ N → t'.getD m false = if m < i then t.getD m false else true := by
  intro fuel
  induction fuel with
  | zero => intro i t h1 h2 _; omega
  | succ fuel ih =>
    intro i t h1 h2 hlen
    unfold fill_loop
    by_cases hi : i ≤ N
    · rw [if_pos hi]
      obtain ⟨t', h', hlen', hget⟩ :=
        ih (i + 1) (t.set i true) (by omega) (by omega) (by simp [hlen])
      refine ⟨t', h', hlen', ?_⟩
      intro m hm
      rw [hget m hm, getD_set_eq t i m true (by omega)]
      by_cases hmi : m = i
      · subst hmi; simp
      · by_cases hlt : m < i
        · have : m < i + 1 := by omega
          simp [hmi, hlt, this]
        · have : ¬ m < i + 1 := by omega
          simp [hlt, this]
    · rw [if_neg hi]
      refine ⟨t, rfl, hlen, ?_⟩
      intro m hm
      have : m < i := by omega
      simp [this]

/-- The marking loop returns, keeps the length and clears exactly the cells
`j, j + i, j + 2*i, ...` up to `N`. -/
theorem mark_loop_spec (N i : Nat) (hi : 1 ≤ i) :
    ∀ (fuel j : Nat) (t : List Bool), 1 ≤ fuel → N + 2 ≤ fuel + j → t.length = N + 1 →
      ∃ t', mark_loop N i fuel j t = some t' ∧ t'.length = N + 1 ∧
        ∀ m, m ≤ N → t'.getD m false =
          if j ≤ m ∧ i ∣ (m - j) then false else t.getD m false := by
  intro fuel
  induction fuel with
  | zero => intro j t h1 _ _; omega
  | succ fuel ih =>
    intro j t _ h2 hlen
    unfold mark_loop
    by_cases hj : j ≤ N
    · rw [if_pos hj]
      obtain ⟨t', h', hlen', hget⟩ :=
        ih (j + i) (t.set j false) (by omega) (by omega) (by simp [hlen])
      refine ⟨t', h', hlen', ?_⟩
      intro m hm
      rw [hget m hm, getD_set_eq t j m false (by omega)]
      by_cases hmj : m = j
      · subst hmj; simp
      · by_cases hc : j + i ≤ m ∧ i ∣ (m - (j + i))
        · have hc' : j ≤ m ∧ i ∣ (m - j) := by
            refine ⟨by omega, ?_⟩
            have : m - j = (m - (j + i)) + i := by omega
            rw [this]
            exact Nat.dvd_add hc.2 (Nat.dvd_refl i)
          simp [hc, hc']
        · have hc' : ¬ (j ≤ m ∧ i ∣ (m - j)) := by
            rintro ⟨hjm, hdvd⟩
            apply hc
            have hpos : 0 < m - j := by omega
            have hle : i ≤ m - j := Nat.le_of_dvd hpos hdvd
            refine ⟨by omega, ?_⟩
            have : m - (j + i) = (m - j) - i := by omega
            rw [this]
            exact Nat.dvd_sub' hdvd (Nat.dvd_refl i)
          simp [hc, hc', hmj]
    · rw [if_neg hj]
      refine ⟨t, rfl, hlen, ?_⟩
      intro m hm
      have : ¬ (j ≤ m ∧ i ∣ (m - j)) := by omega
      simp [this]

theorem SieveInv_skip {N i : Nat} {t : List Bool} (hi : 2 ≤ i) (hiN : i ≤ N)
    (hinv : SieveInv N i t) (hcell : ¬ t.getD i false = true) : SieveInv N (i + 1) t := by
  refine ⟨hinv.1, ?_⟩
  intro m hm
  rw [hinv.2 m hm]
  constructor
  · rintro ⟨h2, h⟩
    refine ⟨h2, ?_⟩
    intro d hd2 hdi hdvd
    by_cases hlt : d < i
    · exact h d hd2 hlt hdvd
    · have hdi' : d = i := by omega
      subst hdi'
      -- the cell of `d` is cleared, so `d` has a small divisor `e`
      have hcomp : ¬ (2 ≤ d ∧ ∀ e, 2 ≤ e → e < d → e ∣ d → d < e * e) := by
        intro hc
        exact hcell ((hinv.2 d hiN).2 hc)
      by_contra hcon
      apply hcomp
      refine ⟨hi, ?_⟩
      intro e he2 hed hedvd
      by_contra hcon2
      have hem : e ∣ m := Nat.dvd_trans hedvd hdvd
      have := h e he2 hed hem
      have hdm : d ≤ m := Nat.le_of_dvd (by omega) hdvd
      omega
  · rintro ⟨h2, h⟩
    exact ⟨h2, fun d hd2 hdi hdvd => h d hd2 (by omega) hdvd⟩

theorem SieveInv_mark {N i : Nat} {t t' : List Bool} (hi : 2 ≤ i)
    (hinv : SieveInv N i t) (hlen : t'.length = N + 1)
    (hget : ∀ m, m ≤ N → t'.getD m false =
      if i * i ≤ m ∧ i ∣ (m - i * i) then false else t.getD m false) :
    SieveInv N (i + 1) t' := by
  refine ⟨hlen, ?_⟩
  intro m hm
  rw [hget m hm]
  have hiff : (i * i ≤ m ∧ i ∣ (m - i * i)) ↔ (i * i ≤ m ∧ i ∣ m) := by
    constructor
    · rintro ⟨h1, h2⟩
      refine ⟨h1, ?_⟩
      have : m = (m - i * i) + i * i := by omega
      rw [this]
      exact Nat.dvd_add h2 (Nat.dvd_mul_right i i)
    · rintro ⟨h1, h2⟩
      exact ⟨h1, Nat.dvd_sub' h2 (Nat.dvd_mul_right i i)⟩
  by_cases hc : i * i ≤ m ∧ i ∣ (m - i * i)
  · rw [if_pos hc]
    have hc' := hiff.1 hc
    constructor
    · intro h; exact absurd h (by simp)
    · rintro ⟨_, h⟩
      have := h i hi (by omega) hc'.2
      omega
  · rw [if_neg hc, hinv.2 m hm]
    have hc' : ¬ (i * i ≤ m ∧ i ∣ m) := fun h => hc (hiff.2 h)
    constructor
    · rintro ⟨h2, h⟩
      refine ⟨h2, ?_⟩
      intro d hd2 hdi hdvd
      by_cases hlt : d < i
      · exact h d hd2 hlt hdvd
      · have hdi' : d = i := by omega
        subst hdi'
        by_contra hcon
        exact hc' ⟨by omega, hdvd⟩
    · rintro ⟨h2, h⟩
      exact ⟨h2, fun d hd2 hdi hdvd => h d hd2 (by omega) hdvd⟩

theorem SieveInv_final {N i : Nat} {t : List Bool} (hi : N < i * i)
    (hinv : SieveInv N i t) :
    ∀ m, m ≤ N → (t.getD m false = true ↔ Nat.Prime m) := by
  intro m hm
  rw [hinv.2 m hm]
  constructor
  · rintro ⟨h2, h⟩
    by_contra hnp
    have hsq : m.minFac ^ 2 ≤ m := Nat.minFac_sq_le_self (by omega) hnp
    have hge : 2 ≤ m.minFac := (Nat.minFac_prime (by omega)).two_le
    rw [pow_two] at hsq
    have hlt : m.minFac < i := by
      by_contra hcon
      have : i * i ≤ m.minFac * m.minFac := Nat.mul_le_mul (by omega) (by omega)
      omega
    have := h _ hge hlt (Nat.minFac_dvd m)
    omega
  · intro hp
    refine ⟨hp.two_le, ?_⟩
    intro d hd2 _ hdvd
    rcases (Nat.dvd_prime hp).1 hdvd with h | h
    · omega
    · subst h
      have : d * 2 ≤ d * d := Nat.mul_le_mul_left d hd2
      omega

/-- The outer sieve loop returns and leaves a table that answers primality
on `[0, N]`. -/
theorem sieve_loop_spec (N inner : Nat) (hinner : N + 2 ≤ inner) :
    ∀ (fuel i : Nat) (t : List Bool), 1 ≤ fuel → N + 2 ≤ fuel + i → 2 ≤ i →
      SieveInv N i t →
      ∃ t', sieve_loop N inner fuel i t = some t' ∧ t'.length = N + 1 ∧
        ∀ m, m ≤ N → (t'.getD m false = true ↔ Nat.Prime m) := by
  intro fuel
  induction fuel with
  | zero => intro i t h1 _ _ _; omega
  | succ fuel ih =>
    intro i t _ h2 hi hinv
    unfold sieve_loop
    by_cases hsq : i * i ≤ N
    · rw [if_pos hsq]
      have hii : i * 2 ≤ i * i := Nat.mul_le_mul_left i hi
      have hiN : i ≤ N := by omega
      by_cases hcell : t.getD i false = true
      · rw [if_pos hcell]
        obtain ⟨t', h', hlen', hget⟩ :=
          mark_loop_spec N i (by omega) inner (i * i) t (by omega) (by omega) hinv.1
        rw [h']
        exact ih (i + 1) t' (by omega) (by omega) (by omega)
          (SieveInv_mark hi hinv hlen' hget)
      · rw [if_neg hcell]
        exact ih (i + 1) t (by omega) (by omega) (by omega)
          (SieveInv_skip hi hiN hinv hcell)
    · rw [if_neg hsq]
      exact ⟨t, rfl, hinv.1, SieveInv_final (by omega) hinv⟩

/-- With at least `MAX_PRIME_CHECK + 2` units of fuel, `init_prime_hash_set`
returns on the start-up state, and the table it leaves has
`MAX_PRIME_CHECK + 1` cells, cell `m` holding the primality of `m`. -/
theorem init_prime_hash_set_spec (fuel : Nat) (hf : MAX_PRIME_CHECK + 2 ≤ fuel) :
    ∃ T, init_prime_hash_set fuel PrimeTable.startup = some T ∧
      T.hash_set_initialized = true ∧
      T.prime_hash_set.length = MAX_PRIME_CHECK + 1 ∧
      ∀ m, m ≤ MAX_PRIME_CHECK → (T.prime_hash_set.getD m false = true ↔ Nat.Prime m) := by
  have hN : MAX_PRIME_CHECK = 70000 := rfl
  obtain ⟨t1, h1, hlen1, hget1⟩ :=
    fill_loop_spec MAX_PRIME_CHECK fuel 0 PrimeTable.startup.prime_hash_set
      (by omega) (by omega) (by simp [PrimeTable.startup])
  have hlen2 : ((t1.set 1 false).set 0 false).length = MAX_PRIME_CHECK + 1 := by
    simp [hlen1]
  have hinv : SieveInv MAX_PRIME_CHECK 2 ((t1.set 1 false).set 0 false) := by
    refine ⟨hlen2, ?_⟩
    intro m hm
    rw [getD_set_eq _ 0 m false (by simp [hlen1]),
      getD_set_eq _ 1 m false (by omega), hget1 m hm]
    by_cases h0 : m = 0
    · subst h0; simp
    · by_cases h1' : m = 1
      · subst h1'; simp
      · have h2 : 2 ≤ m := by omega
        simp only [h0, h1', if_false, Nat.not_lt_zero, true_iff]
        exact ⟨h2, fun d hd2 hd _ => by omega⟩
  obtain ⟨t2, h2, hlen3, hget3⟩ :=
    sieve_loop_spec MAX_PRIME_CHECK fuel hf fuel 2 _ (by omega) (by omega) (le_refl 2) hinv
  refine ⟨{ prime_hash_set := t2, hash_set_initialized := true }, ?_, rfl, hlen3, hget3⟩
  unfold init_prime_hash_set
  have hflag : PrimeTable.startup.hash_set_initialized = false := rfl
  simp only [hflag, h1, h2]
  rfl

theorem fill_loop_mono (N : Nat) :
    ∀ (fuel fuel' i : Nat) (t r : List Bool), fuel ≤ fuel' →
      fill_loop N fuel i t = some r → fill_loop N fuel' i t = some r := by
  intro fuel
  induction fuel with
  | zero => intro fuel' i t r _ h; simp [fill_loop] at h
  | succ fuel ih =>
    intro fuel' i t r hle h
    obtain ⟨g, rfl⟩ : ∃ g, fuel' = g + 1 := ⟨fuel' - 1, by omega⟩
    unfold fill_loop at h ⊢
    by_cases hi : i ≤ N
    · rw [if_pos hi] at h ⊢
      exact ih g _ _ _ (by omega) h
    · rw [if_neg hi] at h ⊢
      exact h

theorem mark_loop_mono (N i : Nat) :
    ∀ (fuel fuel' j : Nat) (t r : List Bool), fuel ≤ fuel' →
      mark_loop N i fuel j t = some r → mark_loop N i fuel' j t = some r := by
  intro fuel
  induction fuel with
  | zero => intro fuel' j t r _ h; simp [mark_loop] at h
  | succ fuel ih =>
    intro fuel' j t r hle h
    obtain ⟨g, rfl⟩ : ∃ g, fuel' = g + 1 := ⟨fuel' - 1, by omega⟩
    unfold mark_loop at h ⊢
    by_cases hj : j ≤ N
    · rw [if_pos hj] at h ⊢
      exact ih g _ _ _ (by omega) h
    · rw [if_neg hj] at h ⊢
      exact h

theorem sieve_loop_mono (N inner inner' : Nat) (hinner : inner ≤ inner') :
    ∀ (fuel fuel' i : Nat) (t r : List Bool), fuel ≤ fuel' →
      sieve_loop N inner fuel i t = some r → sieve_loop N inner' fuel' i t = some r := by
  intro fuel
  induction fuel with
  | zero => intro fuel' i t r _ h; simp [sieve_loop] at h
  | succ fuel ih =>
    intro fuel' i t r hle h
    obtain ⟨g, rfl⟩ : ∃ g, fuel' = g + 1 := ⟨fuel' - 1, by omega⟩
    unfold sieve_loop at h ⊢
    by_cases hsq : i * i ≤ N
    · rw [if_pos hsq] at h ⊢
      by_cases hcell : t.getD i false = true
      · rw [if_pos hcell] at h ⊢
        cases hm : mark_loop N i inner (i * i) t with
        | none => rw [hm] at h; simp at h
        | some t' =>
          rw [hm] at h
          rw [mark_loop_mono N i inner inner' (i * i) t t' hinner hm]
          exact ih g _ _ _ (by omega) h
      · rw [if_neg hcell] at h ⊢
        exact ih g _ _ _ (by omega) h
    · rw [if_neg hsq] at h ⊢
      exact h

/-- More fuel does not change what `init_prime_hash_set` returns. -/
theorem init_prime_hash_set_mono (fuel fuel' : Nat) (hle : fuel ≤ fuel')
    (T R : PrimeTable) (h : init_prime_hash_set fuel T = some R) :
    init_prime_hash_set fuel' T = some R := by
  unfold init_prime_hash_set at h ⊢
  by_cases hflag : T.hash_set_initialized = true
  · rw [if_pos hflag] at h ⊢
    exact h
  · rw [if_neg hflag] at h ⊢
    cases h1 : fill_loop MAX_PRIME_CHECK fuel 0 T.prime_hash_set with
    | none => rw [h1] at h; simp at h
    | some t1 =>
      rw [h1] at h
      rw [fill_loop_mono _ fuel fuel' 0 _ t1 hle h1]
      dsimp only at h ⊢
      cases h2 : sieve_loop MAX_PRIME_CHECK fuel fuel 2 ((t1.set 1 false).set 0 false) with
      | none => rw [h2] at h; simp at h
      | some t2 =>
        rw [h2] at h
        rw [sieve_loop_mono _ fuel fuel' hle fuel fuel' 2 _ t2 hle h2]
        exact h

/-- A table left by `init_prime_hash_set` has `MAX_PRIME_CHECK + 1` cells, and
cell `m` holds the primality of `m`. -/
theorem Initialized.table {T : PrimeTable} (h : Initialized T) :
    T.prime_hash_set.length = MAX_PRIME_CHECK + 1 ∧
      ∀ m, m ≤ MAX_PRIME_CHECK → (T.prime_hash_set.getD m false = true ↔ Nat.Prime m) := by
  obtain ⟨fuel, hfuel⟩ := h
  have hbig := init_prime_hash_set_mono fuel (fuel + (MAX_PRIME_CHECK + 2)) (by omega) _ _ hfuel
  obtain ⟨T', h', _, hlen, hget⟩ :=
    init_prime_hash_set_spec (fuel + (MAX_PRIME_CHECK + 2)) (by omega)
  rw [hbig] at h'
  cases h'
  exact ⟨hlen, hget⟩

/-- Some table is left by `init_prime_hash_set`. -/
theorem Initialized.exists : ∃ T, Initialized T := by
  obtain ⟨T, h, _⟩ := init_prime_hash_set_spec (MAX_PRIME_CHECK + 2) (le_refl _)
  exact ⟨T, _, h⟩

/-- The result of the parallel `is_prime`: false outside the bounds, the table
cell inside. -/
theorem is_prime_eq (T : PrimeTable) (n : Int) :
    is_prime T n = (if n < 0 ∨ n > (MAX_PRIME_CHECK : Int) then false
      else T.prime_hash_set.getD n.toNat false) := by
  unfold is_prime is_prime_run
  split <;> rfl

/-- The table reads of the parallel `is_prime`: none outside the bounds, the
single read at `n` inside. -/
theorem is_prime_run_log (T : PrimeTable) (n : Int) :
    (is_prime_run T n).2 = (if n < 0 ∨ n > (MAX_PRIME_CHECK : Int) then [] else [n]) := by
  unfold is_prime_run
  split <;> rfl

/-- After initialisation the parallel `is_prime` is true exactly on the primes
of `[0, MAX_PRIME_CHECK]`. -/
theorem par_is_prime_spec {T : PrimeTable} (h : Initialized T) (n : Int) :
    is_prime T n = decide (0 ≤ n ∧ n ≤ 70000 ∧ Nat.Prime n.toNat) := by
  have hN : (MAX_PRIME_CHECK : Int) = 70000 := rfl
  rw [is_prime_eq, hN]
  by_cases hout : n < 0 ∨ n > 70000
  · rw [if_pos hout]
    have : ¬ (0 ≤ n ∧ n ≤ 70000 ∧ Nat.Prime n.toNat) := by omega
    simp [this]
  · rw [if_neg hout]
    have hm : n.toNat ≤ MAX_PRIME_CHECK := by
      have : MAX_PRIME_CHECK = 70000 := rfl
      omega
    have := (h.table).2 n.toNat hm
    by_cases hp : Nat.Prime n.toNat
    · have h1 : 0 ≤ n ∧ n ≤ 70000 ∧ Nat.Prime n.toNat := ⟨by omega, by omega, hp⟩
      rw [this.2 hp]
      simp [h1]
    · have h1 : ¬ (0 ≤ n ∧ n ≤ 70000 ∧ Nat.Prime n.toNat) := fun hc => hp hc.2.2
      have h2 : ¬ T.prime_hash_set.getD n.toNat false = true := fun hc => hp (this.1 hc)
      simp only [Bool.not_eq_true] at h2
      rw [h2]
      simp [h1]

end Parallel

/-! ## The cube predicate -/

theorem Parallel.table_after_init_initialized : Parallel.Initialized Parallel.table_after_init := by
  obtain ⟨T, h, _⟩ := Parallel.init_prime_hash_set_spec (Parallel.MAX_PRIME_CHECK + 2) (le_refl _)
  have heq : Parallel.table_after_init = T := by
    unfold Parallel.table_after_init
    rw [h]
    rfl
  rw [heq]
  exact ⟨_, h⟩

/-- The rows of `CUBE_CHECK_ORDER` are exactly the triples over `{0,1,2}`. -/
theorem mem_CUBE_CHECK_ORDER (i j k : Int) :
    (i, j, k) ∈ CUBE_CHECK_ORDER ↔
      (i = 0 ∨ i = 1 ∨ i = 2) ∧ (j = 0 ∨ j = 1 ∨ j = 2) ∧ (k = 0 ∨ k = 1 ∨ k = 2) := by
  constructor
  · intro h
    have hall : ∀ t ∈ CUBE_CHECK_ORDER,
        (t.1 = 0 ∨ t.1 = 1 ∨ t.1 = 2) ∧ (t.2.1 = 0 ∨ t.2.1 = 1 ∨ t.2.1 = 2) ∧
          (t.2.2 = 0 ∨ t.2.2 = 1 ∨ t.2.2 = 2) := by decide
    exact hall _ h
  · rintro ⟨hi, hj, hk⟩
    rcases hi with rfl | rfl | rfl <;> rcases hj with rfl | rfl | rfl <;>
      rcases hk with rfl | rfl | rfl <;> decide

theorem CUBE_CHECK_ORDER_length : CUBE_CHECK_ORDER.length = 27 := rfl

theorem CUBE_CHECK_ORDER_nodup : CUBE_CHECK_ORDER.Nodup := by decide

/-- For 32-bit fields and a row over `{0,1,2}` the 64-bit computation of the
combination is exact. -/
theorem cube_value_exact (p : Params) (hp : p.InRange) (i j k : Int)
    (hi : i = 0 ∨ i = 1 ∨ i = 2) (hj : j = 0 ∨ j = 1 ∨ j = 2) (hk : k = 0 ∨ k = 1 ∨ k = 2) :
    cube_value p (i, j, k) = p.a + p.b * i + p.c * j + p.d * k := by
  obtain ⟨⟨ha1, ha2⟩, ⟨hb1, hb2⟩, ⟨hc1, hc2⟩, ⟨hd1, hd2⟩⟩ := hp
  unfold cube_value
  rcases hi with rfl | rfl | rfl <;> rcases hj with rfl | rfl | rfl <;>
    rcases hk with rfl | rfl | rfl <;>
    simp only [wrap64] <;> omega

/-- The loop over the rows answers true exactly when `is_prime` holds of the
value of every row. -/
theorem check_cube_loop_true (isp : Int → Bool) (p : Params) :
    ∀ l : List (Int × Int × Int),
      (check_cube_loop isp p l).1 = true ↔ ∀ t ∈ l, isp (cube_value p t) = true := by
  intro l
  induction l with
  | nil => simp [check_cube_loop]
  | cons t ts ih =>
    unfold check_cube_loop
    by_cases h : isp (cube_value p t) = true
    · simp [h, ih]
    · simp [h]

/-- The result of `check_cube`: the guards hold, `a` passes `is_prime`, and so
does the value of every row. -/
theorem check_cube_run_true (isp : Int → Bool) (p : Params) :
    (check_cube_run isp p).1 = true ↔
      Canonical p ∧ isp p.a = true ∧ ∀ t ∈ CUBE_CHECK_ORDER, isp (cube_value p t) = true := by
  unfold check_cube_run Canonical
  by_cases h1 : p.a ≤ 0 ∨ p.b ≤ 0 ∨ p.c ≤ 0 ∨ p.d ≤ 0
  · rw [if_pos h1]
    constructor
    · intro h; simp at h
    · rintro ⟨hc, _⟩; omega
  · rw [if_neg h1]
    by_cases h2 : ¬ (p.b ≤ p.c ∧ p.c ≤ p.d)
    · rw [if_pos h2]
      constructor
      · intro h; simp at h
      · rintro ⟨hc, _⟩; omega
    · rw [if_neg h2]
      have hcan : 1 ≤ p.a ∧ 1 ≤ p.b ∧ 1 ≤ p.c ∧ 1 ≤ p.d ∧ p.b ≤ p.c ∧ p.c ≤ p.d := by omega
      by_cases h3 : isp p.a = true
      · simp only [h3, Bool.not_true, Bool.false_eq_true, if_false, check_cube_loop_true]
        exact ⟨fun h => ⟨hcan, trivial, h⟩, fun h => h.2.2⟩
      · simp [h3]

/-- A true `check_cube` implies the guards, whatever `is_prime` is used. -/
theorem check_cube_run_canonical (isp : Int → Bool) (p : Params)
    (h : (check_cube_run isp p).1 = true) : Canonical p :=
  ((check_cube_run_true isp p).1 h).1

/-- Two tuples that pass the guards, share `a` and have `(b, c, d)` equal up to
order are the same tuple. -/
theorem canonical_perm_eq (p q : Params) (hp : Canonical p) (hq : Canonical q)
    (ha : p.a = q.a) (hperm : List.Perm [p.b, p.c, p.d] [q.b, q.c, q.d]) : p = q := by
  obtain ⟨_, _, _, _, hp1, hp2⟩ := hp
  obtain ⟨_, _, _, _, hq1, hq2⟩ := hq
  have hs1 : List.Sorted (fun x y : Int => x ≤ y) [p.b, p.c, p.d] := by
    simp [List.Sorted]; omega
  have hs2 : List.Sorted (fun x y : Int => x ≤ y) [q.b, q.c, q.d] := by
    simp [List.Sorted]; omega
  have heq := List.eq_of_perm_of_sorted hperm hs1 hs2
  simp only [List.cons.injEq, and_true] at heq
  obtain ⟨hb, hc, hd⟩ := heq
  cases p; cases q
  simp_all

/-- The sequential `check_cube` on 32-bit fields: the guards hold and all 27
exact combinations are prime. -/
theorem Sequential.check_cube_spec (p : Params) (hp : p.InRange) :
    Sequential.check_cube p = true ↔ Canonical p ∧ AllCombinationsPrime p := by
  unfold Sequential.check_cube
  rw [check_cube_run_true]
  have hval : ∀ i j k : Int, (i = 0 ∨ i = 1 ∨ i = 2) → (j = 0 ∨ j = 1 ∨ j = 2) →
      (k = 0 ∨ k = 1 ∨ k = 2) →
      Sequential.is_prime (cube_value p (i, j, k)) =
        decide (Nat.Prime (p.a + p.b * i + p.c * j + p.d * k).toNat) := by
    intro i j k hi hj hk
    rw [cube_value_exact p hp i j k hi hj hk]
    apply Sequential.seq_is_prime_spec
    obtain ⟨⟨_, ha2⟩, ⟨_, hb2⟩, ⟨_, hc2⟩, ⟨_, hd2⟩⟩ := hp
    rcases hi with rfl | rfl | rfl <;> rcases hj with rfl | rfl | rfl <;>
      rcases hk with rfl | rfl | rfl <;> norm_num <;> omega
  constructor
  · rintro ⟨hcan, _, hall⟩
    refine ⟨hcan, ?_⟩
    intro i j k hi hj hk
    have h1 := hall (i, j, k) ((mem_CUBE_CHECK_ORDER i j k).2 ⟨hi, hj, hk⟩)
    rw [hval i j k hi hj hk] at h1
    exact of_decide_eq_true h1
  · rintro ⟨hcan, hall⟩
    refine ⟨hcan, ?_, ?_⟩
    · have h0 := hall 0 0 0 (Or.inl rfl) (Or.inl rfl) (Or.inl rfl)
      simp only [mul_zero, add_zero] at h0
      rw [Sequential.seq_is_prime_spec p.a (by have := hp.1.2; norm_num; omega)]
      exact decide_eq_true h0
    · rintro ⟨i, j, k⟩ ht
      obtain ⟨hi, hj, hk⟩ := (mem_CUBE_CHECK_ORDER i j k).1 ht
      rw [hval i j k hi hj hk]
      exact decide_eq_true (hall i j k hi hj hk)

/-! ## Loops -/

theorem wrap64_add_wrap64 (x y : Int) : wrap64 (wrap64 x + y) = wrap64 (x + y) := by
  unfold wrap64; omega

theorem wrap32_add_wrap32 (x y : Int) : wrap32 (wrap32 x + y) = wrap32 (x + y) := by
  unfold wrap32; omega

theorem mem_int_range_from (x : Int) :
    ∀ (n : Nat) (lo : Int), x ∈ int_range_from lo n ↔ lo ≤ x ∧ x < lo + n := by
  intro n
  induction n with
  | zero => intro lo; simp only [int_range_from, List.not_mem_nil, false_iff]; push_cast; omega
  | succ n ih =>
    intro lo
    simp only [int_range_from, List.mem_cons, ih]
    push_cast
    omega

theorem length_int_range_from : ∀ (n : Nat) (lo : Int), (int_range_from lo n).length = n := by
  intro n
  induction n with
  | zero => intro lo; rfl
  | succ n ih => intro lo; simp [int_range_from, ih]

theorem nodup_int_range_from : ∀ (n : Nat) (lo : Int), (int_range_from lo n).Nodup := by
  intro n
  induction n with
  | zero => intro lo; simp [int_range_from]
  | succ n ih =>
    intro lo
    simp only [int_range_from, List.nodup_cons, mem_int_range_from]
    exact ⟨by omega, ih _⟩

theorem mem_int_range (x lo hi : Int) : x ∈ int_range lo hi ↔ lo ≤ x ∧ x ≤ hi := by
  unfold int_range
  rw [mem_int_range_from]
  omega

theorem length_int_range (lo hi : Int) (h : lo ≤ hi + 1) :
    ((int_range lo hi).length : Int) = hi - lo + 1 := by
  unfold int_range
  rw [length_int_range_from]
  omega

theorem nodup_int_range (lo hi : Int) : (int_range lo hi).Nodup :=
  nodup_int_range_from _ _

theorem int_range_cons (lo hi : Int) (h : lo ≤ hi) :
    int_range lo hi = lo :: int_range (lo + 1) hi := by
  unfold int_range
  obtain ⟨n, hn⟩ : ∃ n : Nat, (hi - lo + 1).toNat = n + 1 :=
    ⟨(hi - lo + 1).toNat - 1, by omega⟩
  have h2 : (hi - (lo + 1) + 1).toNat = n := by omega
  rw [hn, h2]
  rfl

theorem int_range_empty (lo hi : Int) (h : hi < lo) : int_range lo hi = [] := by
  unfold int_range
  have : (hi - lo + 1).toNat = 0 := by omega
  rw [this]
  rfl

/-- A `for` loop whose bound is below `INT_MAX` carries out the iterations of
`[lo, hi]` in order when the fuel exceeds their number, and runs out of fuel
otherwise. -/
theorem for_loop_eq {σ : Type} (hi : Int) (hhi : hi < 2147483647) (body : Int → σ → Option σ) :
    ∀ (fuel : Nat) (lo : Int) (s : σ), -2147483648 ≤ lo → lo ≤ hi + 1 →
      for_loop hi body fuel lo s =
        if hi - lo + 1 < fuel then run_list body (int_range lo hi) s else none := by
  intro fuel
  induction fuel with
  | zero =>
    intro lo s _ h2
    have : ¬ (hi - lo + 1 < ((0 : Nat) : Int)) := by push_cast; omega
    rw [if_neg this]
    rfl
  | succ fuel ih =>
    intro lo s h1 h2
    unfold for_loop
    by_cases hle : lo ≤ hi
    · rw [if_pos hle, int_range_cons lo hi hle]
      have hw : wrap32 (lo + 1) = lo + 1 := wrap32_eq_self (by omega) (by omega)
      rw [hw]
      cases hb : body lo s with
      | none => simp [run_list, hb]
      | some s' =>
        simp only [run_list, hb]
        rw [ih (lo + 1) s' (by omega) (by omega)]
        by_cases hf : hi - (lo + 1) + 1 < (fuel : Int)
        · have hf' : hi - lo + 1 < ((fuel + 1 : Nat) : Int) := by push_cast; omega
          rw [if_pos hf, if_pos hf']
        · have hf' : ¬ hi - lo + 1 < ((fuel + 1 : Nat) : Int) := by push_cast; omega
          rw [if_neg hf, if_neg hf']
    · rw [if_neg hle, int_range_empty lo hi (by omega)]
      have hf' : hi - lo + 1 < ((fuel + 1 : Nat) : Int) := by push_cast; omega
      rw [if_pos hf']
      rfl

/-- A `for` loop with the bound `INT_MAX` never leaves: the wrapped counter
always satisfies the loop condition. -/
theorem for_loop_int_max {σ : Type} (hi : Int) (hhi : 2147483647 ≤ hi)
    (body : Int → σ → Option σ) :
    ∀ (fuel : Nat) (lo : Int) (s : σ), lo ≤ 2147483647 → for_loop hi body fuel lo s = none := by
  intro fuel
  induction fuel with
  | zero => intro lo s _; rfl
  | succ fuel ih =>
    intro lo s hlo
    unfold for_loop
    rw [if_pos (by omega)]
    cases hb : body lo s with
    | none => rfl
    | some s' =>
      simp only []
      exact ih _ _ (wrap32_range _).2

/-- A `for` loop that is entered and whose body never returns does not return. -/
theorem for_loop_body_none {σ : Type} (hi : Int) (body : Int → σ → Option σ)
    (hbody : ∀ x s, body x s = none) (fuel : Nat) (lo : Int) (s : σ) (h : lo ≤ hi) :
    for_loop hi body fuel lo s = none := by
  cases fuel with
  | zero => rfl
  | succ fuel =>
    unfold for_loop
    rw [if_pos h, hbody]

theorem run_list_total {α σ : Type} (f : α → σ → σ) :
    ∀ (l : List α) (s : σ),
      run_list (fun x s => some (f x s)) l s = some (l.foldl (fun s x => f x s) s) := by
  intro l
  induction l with
  | nil => intro s; rfl
  | cons x xs ih => intro s; simp only [run_list, List.foldl_cons]; exact ih _

theorem foldl_flatMap {α β σ : Type} (f : σ → β → σ) (g : α → List β) :
    ∀ (l : List α) (s : σ),
      (l.flatMap g).foldl f s = l.foldl (fun s x => (g x).foldl f s) s := by
  intro l
  induction l with
  | nil => intro s; rfl
  | cons x xs ih =>
    intro s
    simp only [List.flatMap_cons, List.foldl_append, List.foldl_cons]
    exact ih _

theorem length_flatMap_const {α β : Type} (g : α → List β) (n : Nat) :
    ∀ (l : List α), (∀ x ∈ l, (g x).length = n) → (l.flatMap g).length = l.length * n := by
  intro l
  induction l with
  | nil => intro _; simp
  | cons x xs ih =>
    intro h
    simp only [List.flatMap_cons, List.length_append, List.length_cons]
    rw [ih (fun y hy => h y (List.mem_cons_of_mem _ hy)), h x (List.mem_cons_self _ _)]
    ring

/-- A `for` loop with a total body, bound below `INT_MAX` and enough fuel is a
fold over `[lo, hi]`. -/
theorem for_loop_good {σ : Type} (hi lo : Int) (fuel : Nat) (f : Int → σ → σ) (s : σ)
    (hhi : hi < 2147483647) (hlo : -2147483648 ≤ lo) (hle : lo ≤ hi + 1)
    (hf : hi - lo + 1 < fuel) :
    for_loop hi (fun x s => some (f x s)) fuel lo s =
      some ((int_range lo hi).foldl (fun s x => f x s) s) := by
  rw [for_loop_eq hi hhi _ fuel lo s hlo hle, if_pos hf, run_list_total]

/-- A `for` loop that is entered does not return when its bound is `INT_MAX`
or when the fuel does not exceed its number of iterations. -/
theorem for_loop_bad {σ : Type} (hi lo : Int) (fuel : Nat) (body : Int → σ → Option σ) (s : σ)
    (hlo : -2147483648 ≤ lo) (hle : lo ≤ hi) (hhi : hi ≤ 2147483647)
    (hbad : ¬ (hi < 2147483647 ∧ hi - lo + 1 < fuel)) :
    for_loop hi body fuel lo s = none := by
  by_cases h : hi < 2147483647
  · rw [for_loop_eq hi h body fuel lo s hlo (by omega), if_neg (fun hf => hbad ⟨h, hf⟩)]
  · exact for_loop_int_max hi (by omega) body fuel lo s (by omega)

theorem mem_slices (r : Ranges) (ab : Int × Int) :
    ab ∈ r.slices ↔ (r.a_min ≤ ab.1 ∧ ab.1 ≤ r.a_max) ∧ (r.b_min ≤ ab.2 ∧ ab.2 ≤ r.b_max) := by
  obtain ⟨a, b⟩ := ab
  simp only [Ranges.slices, List.mem_flatMap, List.mem_map, mem_int_range, Prod.mk.injEq]
  constructor
  · rintro ⟨a', ha, b', hb, rfl, rfl⟩; exact ⟨ha, hb⟩
  · rintro ⟨ha, hb⟩; exact ⟨a, ha, b, hb, rfl, rfl⟩

theorem mem_slice_tuples (r : Ranges) (ab : Int × Int) (p : Params) :
    p ∈ r.slice_tuples ab ↔
      p.a = ab.1 ∧ p.b = ab.2 ∧ (r.c_min ≤ p.c ∧ p.c ≤ r.c_max) ∧
        (r.d_min ≤ p.d ∧ p.d ≤ r.d_max) := by
  obtain ⟨a, b, c, d⟩ := p
  simp only [Ranges.slice_tuples, List.mem_flatMap, List.mem_map, mem_int_range,
    Params.mk.injEq]
  constructor
  · rintro ⟨c', hc, d', hd, rfl, rfl, rfl, rfl⟩; exact ⟨rfl, rfl, hc, hd⟩
  · rintro ⟨h1, h2, hc, hd⟩; exact ⟨c, hc, d, hd, h1.symm, h2.symm, rfl, rfl⟩

/-- The tuples of the Cartesian product are those with every component in its
range. -/
theorem mem_tuples (r : Ranges) (p : Params) :
    p ∈ r.tuples ↔ (r.a_min ≤ p.a ∧ p.a ≤ r.a_max) ∧ (r.b_min ≤ p.b ∧ p.b ≤ r.b_max) ∧
      (r.c_min ≤ p.c ∧ p.c ≤ r.c_max) ∧ (r.d_min ≤ p.d ∧ p.d ≤ r.d_max) := by
  simp only [Ranges.tuples, List.mem_flatMap, mem_slices, mem_slice_tuples]
  constructor
  · rintro ⟨ab, ⟨ha, hb⟩, h1, h2, hc, hd⟩
    rw [h1, h2]; exact ⟨ha, hb, hc, hd⟩
  · rintro ⟨ha, hb, hc, hd⟩
    exact ⟨(p.a, p.b), ⟨ha, hb⟩, rfl, rfl, hc, hd⟩

theorem nodup_slices (r : Ranges) : r.slices.Nodup := by
  unfold Ranges.slices
  rw [List.nodup_flatMap]
  refine ⟨?_, ?_⟩
  · intro a _
    exact (nodup_int_range _ _).map (fun x y h => by simpa using h)
  · refine (nodup_int_range _ _).pairwise_of_forall_ne ?_
    intro a _ a' _ hne
    simp only [Function.onFun, List.Disjoint, List.mem_map]
    rintro ab ⟨b, _, rfl⟩ ⟨b', _, h⟩
    exact hne (by simpa using (congrArg Prod.fst h).symm)

theorem nodup_slice_tuples (r : Ranges) (ab : Int × Int) : (r.slice_tuples ab).Nodup := by
  unfold Ranges.slice_tuples
  rw [List.nodup_flatMap]
  refine ⟨?_, ?_⟩
  · intro c _
    exact (nodup_int_range _ _).map (fun x y h => by simpa using h)
  · refine (nodup_int_range _ _).pairwise_of_forall_ne ?_
    intro c _ c' _ hne
    simp only [Function.onFun, List.Disjoint, List.mem_map]
    rintro p ⟨d, _, rfl⟩ ⟨d', _, h⟩
    exact hne (by simpa using (congrArg Params.c h).symm)

/-- No tuple occurs twice in the Cartesian product. -/
theorem nodup_tuples (r : Ranges) : r.tuples.Nodup := by
  unfold Ranges.tuples
  rw [List.nodup_flatMap]
  refine ⟨fun ab _ => nodup_slice_tuples r ab, ?_⟩
  refine (nodup_slices r).pairwise_of_forall_ne ?_
  intro ab _ ab' _ hne
  simp only [Function.onFun, List.Disjoint, mem_slice_tuples]
  rintro p ⟨h1, h2, _⟩ ⟨h1', h2', _⟩
  exact hne (Prod.ext (h1.symm.trans h1') (h2.symm.trans h2'))

theorem length_slice_tuples (r : Ranges) (ab : Int × Int) :
    (r.slice_tuples ab).length
      = (int_range r.c_min r.c_max).length * (int_range r.d_min r.d_max).length := by
  unfold Ranges.slice_tuples
  rw [length_flatMap_const _ (int_range r.d_min r.d_max).length]
  intro c _
  simp

theorem length_slices (r : Ranges) :
    r.slices.length
      = (int_range r.a_min r.a_max).length * (int_range r.b_min r.b_max).length := by
  unfold Ranges.slices
  rw [length_flatMap_const _ (int_range r.b_min r.b_max).length]
  intro a _
  simp

/-- The Cartesian product of valid ranges has `count` tuples. -/
theorem length_tuples (r : Ranges) (hv : r.Valid) : (r.tuples.length : Int) = r.count := by
  obtain ⟨⟨_, ha⟩, ⟨_, hb⟩, ⟨_, hc⟩, ⟨_, hd⟩⟩ := hv
  unfold Ranges.tuples
  rw [length_flatMap_const _ _ _ (fun ab _ => length_slice_tuples r ab), length_slices]
  push_cast
  rw [length_int_range _ _ (by omega), length_int_range _ _ (by omega),
    length_int_range _ _ (by omega), length_int_range _ _ (by omega)]
  unfold Ranges.count
  ring

/-! ## The sequential search -/

namespace Sequential

/-- The state after the loop body was run on the tuples of `l` in order. -/
theorem foldl_step (l : List Params) :
    ∀ s : State, wrap64 s.checked = s.checked → wrap32 s.found = s.found →
      (l.foldl (fun s p => step p s) s).evaluated = s.evaluated ++ l ∧
      (l.foldl (fun s p => step p s) s).printed = s.printed ++ l.filter check_cube ∧
      (l.foldl (fun s p => step p s) s).checked = wrap64 (s.checked + l.length) ∧
      (l.foldl (fun s p => step p s) s).found
        = wrap32 (s.found + (l.filter check_cube).length) := by
  induction l with
  | nil =>
    intro s h1 h2
    simp [h1, h2]
  | cons p ps ih =>
    intro s h1 h2
    simp only [List.foldl_cons]
    have hc : (step p s).checked = wrap64 (s.checked + 1) := by
      unfold step; split <;> rfl
    have he : (step p s).evaluated = s.evaluated ++ [p] := by
      unfold step; split <;> rfl
    have hw1 : wrap64 (step p s).checked = (step p s).checked := by
      rw [hc]; unfold wrap64; omega
    by_cases hp : check_cube p = true
    · have hpr : (step p s).printed = s.printed ++ [p] := by
        unfold step; simp [hp]
      have hf : (step p s).found = wrap32 (s.found + 1) := by
        unfold step; simp [hp]
      have hw2 : wrap32 (step p s).found = (step p s).found := by
        rw [hf]; unfold wrap32; omega
      obtain ⟨i1, i2, i3, i4⟩ := ih (step p s) hw1 hw2
      refine ⟨?_, ?_, ?_, ?_⟩
      · rw [i1, he]; simp
      · rw [i2, hpr]; simp [hp]
      · rw [i3, hc, wrap64_add_wrap64]; congr 1; simp only [List.length_cons]; push_cast; ring
      · rw [i4, hf, wrap32_add_wrap32]; congr 1; simp [hp]; ring
    · have hpr : (step p s).printed = s.printed := by
        unfold step; simp [hp]
      have hf : (step p s).found = s.found := by
        unfold step; simp [hp]
      have hw2 : wrap32 (step p s).found = (step p s).found := by
        rw [hf]; exact h2
      obtain ⟨i1, i2, i3, i4⟩ := ih (step p s) hw1 hw2
      refine ⟨?_, ?_, ?_, ?_⟩
      · rw [i1, he]; simp
      · rw [i2, hpr]; simp [hp]
      · rw [i3, hc, wrap64_add_wrap64]; congr 1; simp only [List.length_cons]; push_cast; ring
      · rw [i4, hf]; simp [hp]

/-- With no bound at `INT_MAX` and enough fuel the four loops return, having
run the body on the tuples of the Cartesian product in order. -/
theorem search_good (fuel : Nat) (r : Ranges) (s : State) (hv : r.Valid)
    (hb : r.BelowIntMax) (hf : r.FuelEnough fuel) :
    search fuel r s = some (r.tuples.foldl (fun s p => step p s) s) := by
  obtain ⟨⟨ha1, ha2⟩, ⟨hb1, hb2⟩, ⟨hc1, hc2⟩, ⟨hd1, hd2⟩⟩ := hv
  obtain ⟨hba, hbb, hbc, hbd⟩ := hb
  obtain ⟨hfa, hfb, hfc, hfd⟩ := hf
  unfold search
  have hd : ∀ (a b c : Int) (s : State),
      for_loop r.d_max (fun d s => some (step { a := a, b := b, c := c, d := d } s))
          fuel r.d_min s
        = some ((int_range r.d_min r.d_max).foldl
            (fun s d => step { a := a, b := b, c := c, d := d } s) s) :=
    fun a b c s => for_loop_good _ _ _ _ _ hbd (by omega) (by omega) hfd
  simp only [hd]
  have hc : ∀ (a b : Int) (s : State),
      for_loop r.c_max (fun c s => some ((int_range r.d_min r.d_max).foldl
            (fun s d => step { a := a, b := b, c := c, d := d } s) s)) fuel r.c_min s
        = some ((int_range r.c_min r.c_max).foldl (fun s c =>
            (int_range r.d_min r.d_max).foldl
              (fun s d => step { a := a, b := b, c := c, d := d } s) s) s) :=
    fun a b s => for_loop_good _ _ _ _ _ hbc (by omega) (by omega) hfc
  simp only [hc]
  have hb' : ∀ (a : Int) (s : State),
      for_loop r.b_max (fun b s => some ((int_range r.c_min r.c_max).foldl (fun s c =>
            (int_range r.d_min r.d_max).foldl
              (fun s d => step { a := a, b := b, c := c, d := d } s) s) s)) fuel r.b_min s
        = some ((int_range r.b_min r.b_max).foldl (fun s b =>
            (int_range r.c_min r.c_max).foldl (fun s c =>
              (int_range r.d_min r.d_max).foldl
                (fun s d => step { a := a, b := b, c := c, d := d } s) s) s) s) :=
    fun a s => for_loop_good _ _ _ _ _ hbb (by omega) (by omega) hfb
  simp only [hb']
  rw [for_loop_good _ _ _ _ _ hba (by omega) (by omega) hfa]
  simp only [Ranges.tuples, Ranges.slices, Ranges.slice_tuples, foldl_flatMap, List.foldl_map]

/-- With a bound at `INT_MAX`, or with fuel that does not exceed the number of
iterations of some loop, the four loops do not return. -/
theorem search_bad (fuel : Nat) (r : Ranges) (s : State) (hv : r.Valid) (hr : r.InRange)
    (hbad : ¬ (r.BelowIntMax ∧ r.FuelEnough fuel)) : search fuel r s = none := by
  obtain ⟨⟨ha1, ha2⟩, ⟨hb1, hb2⟩, ⟨hc1, hc2⟩, ⟨hd1, hd2⟩⟩ := hv
  obtain ⟨_, ⟨_, hia⟩, _, ⟨_, hib⟩, _, ⟨_, hic⟩, _, ⟨_, hid⟩⟩ := hr
  unfold search
  by_cases gd : r.d_max < 2147483647 ∧ r.d_max - r.d_min + 1 < fuel
  · by_cases gc : r.c_max < 2147483647 ∧ r.c_max - r.c_min + 1 < fuel
    · by_cases gb : r.b_max < 2147483647 ∧ r.b_max - r.b_min + 1 < fuel
      · have ga : ¬ (r.a_max < 2147483647 ∧ r.a_max - r.a_min + 1 < fuel) := by
          intro ga
          exact hbad ⟨⟨ga.1, gb.1, gc.1, gd.1⟩, ⟨ga.2, gb.2, gc.2, gd.2⟩⟩
        exact for_loop_bad _ _ _ _ _ (by omega) ha2 hia ga
      · apply for_loop_body_none _ _ _ _ _ _ ha2
        intro a s
        exact for_loop_bad _ _ _ _ _ (by omega) hb2 hib gb
    · apply for_loop_body_none _ _ _ _ _ _ ha2
      intro a s
      apply for_loop_body_none _ _ _ _ _ _ hb2
      intro b s
      exact for_loop_bad _ _ _ _ _ (by omega) hc2 hic gc
  · apply for_loop_body_none _ _ _ _ _ _ ha2
    intro a s
    apply for_loop_body_none _ _ _ _ _ _ hb2
    intro b s
    apply for_loop_body_none _ _ _ _ _ _ hc2
    intro c s
    exact for_loop_bad _ _ _ _ _ (by omega) hd2 hid gd

/-- Whenever the four loops return, they have run the body on the tuples of
the Cartesian product in order. -/
theorem search_some (fuel : Nat) (r : Ranges) (s s' : State) (hv : r.Valid) (hr : r.InRange)
    (h : search fuel r s = some s') :
    (r.BelowIntMax ∧ r.FuelEnough fuel) ∧ s' = r.tuples.foldl (fun s p => step p s) s := by
  by_cases hg : r.BelowIntMax ∧ r.FuelEnough fuel
  · rw [search_good fuel r s hv hg.1 hg.2] at h
    exact ⟨hg, (Option.some.inj h).symm⟩
  · rw [search_bad fuel r s hv hr hg] at h
    cases h

end Sequential

/-! ## The result accumulator -/

namespace Parallel

theorem set_append_cons {α : Type} (xs : List α) (y z : α) (ys : List α) :
    (xs ++ y :: ys).set xs.length z = xs ++ z :: ys := by
  induction xs with
  | nil => rfl
  | cons x xs ih => simp [List.set, ih]

theorem getElem?_append_cons_length {α : Type} (xs : List α) (y : α) (ys : List α) :
    (xs ++ y :: ys)[xs.length]? = some y := by
  induction xs with
  | nil => simp
  | cons x xs ih => simpa using ih

theorem map_getD_append {α : Type} (d : α) (xs : List α) :
    ∀ rest : List α, (List.range xs.length).map (fun i => (xs ++ rest).getD i d) = xs := by
  induction xs using List.reverseRecOn with
  | nil => intro rest; rfl
  | append_singleton ys y ih =>
    intro rest
    rw [List.length_append, List.length_singleton, List.range_succ, List.map_append,
      List.append_assoc, ih]
    simp only [List.map_cons, List.map_nil, List.singleton_append,
      List.getD_eq_getElem?_getD, getElem?_append_cons_length, Option.getD_some]

/-- The printing loop shows exactly the tuples the result set holds. -/
theorem dump_of_holds (rs : ResultSet) (l : List Params) (h : rs.Holds l) :
    dump rs = l.map some := by
  obtain ⟨k, rest, _, _, hcount, hres, _⟩ := h
  unfold dump
  rw [hcount, hres, Int.toNat_ofNat]
  have := map_getD_append (none : Option Params) (l.map some) rest
  rw [List.length_map] at this
  exact this

theorem holds_start : State.start.result_set.Holds [] :=
  ⟨0, List.replicate 1000 none, by omega, rfl, rfl, rfl,
    by rw [List.length_replicate]; rfl⟩

/-- Recording a match keeps the result set in step with the list of matches,
as long as fewer than `1000 * 2^21` were recorded before. -/
theorem holds_append (rs : ResultSet) (l : List Params) (p : Params) (h : rs.Holds l)
    (hlen : l.length < 2097152000) : (rs.append p).Holds (l ++ [p]) := by
  obtain ⟨k, rest, hk, hcap, hcount, hres, hsum⟩ := h
  have hcapN : rs.capacity = ((1000 * 2 ^ k : Nat) : Int) := by rw [hcap]; push_cast; rfl
  unfold ResultSet.append
  by_cases hfull : rs.count = rs.capacity
  · -- the buffer is full: `rest` is empty and `k < 21`
    have hlk : l.length = 1000 * 2 ^ k := by
      have : (l.length : Int) = ((1000 * 2 ^ k : Nat) : Int) := by
        rw [← hcount, hfull, hcapN]
      exact_mod_cast this
    have hrest : rest = [] := by
      apply List.eq_nil_of_length_eq_zero; omega
    have hk' : k + 1 ≤ 21 := by
      by_contra hcon
      have : k = 21 := by omega
      subst this
      norm_num at hlk
      omega
    have hpow2 : (2 : Nat) ^ (k + 1) = 2 * 2 ^ k := by ring
    have hpow3 : (2 : Nat) ^ (k + 1) ≤ 2 ^ 21 := Nat.pow_le_pow_right (by omega) hk'
    have hpow4 : (2 : Nat) ^ 21 = 2097152 := by norm_num
    have hpos : 0 < (2 : Nat) ^ k := Nat.two_pow_pos k
    generalize hc : (2 : Nat) ^ k = c at *
    generalize hc2 : (2 : Nat) ^ (k + 1) = c2 at *
    have hnew : wrap32 (rs.capacity * 2) = ((1000 * c2 : Nat) : Int) := by
      rw [hcapN, wrap32_eq_self] <;> push_cast <;> omega
    simp only [if_pos hfull]
    refine ⟨k + 1, List.replicate (1000 * c - 1) none, hk', ?_, ?_, ?_, ?_⟩
    · simp only [hnew]; rw [← hc2]; push_cast; ring
    · simp only [hcount]
      rw [wrap32_eq_self (by omega) (by omega)]
      simp
    · simp only [hnew, hcount, Int.toNat_ofNat, realloc, hres, hrest, List.append_nil,
        List.length_map]
      rw [List.take_of_length_le (by rw [List.length_map]; omega)]
      have hpad : 1000 * c2 - l.length = (1000 * c - 1) + 1 := by omega
      rw [hpad, List.replicate_succ]
      have := set_append_cons (l.map some) none (some p) (List.replicate (1000 * c - 1) none)
      rw [List.length_map] at this
      rw [this]
      simp
    · simp only [List.length_append, List.length_singleton, List.length_replicate, hc2]
      omega
  · -- there is room: `rest` is not empty
    have hlt : l.length ≠ 1000 * 2 ^ k := by
      intro hc
      apply hfull
      rw [hcount, hcapN, hc]
    obtain ⟨y, ys, hys⟩ : ∃ y ys, rest = y :: ys := by
      cases rest with
      | nil => simp at hsum; omega
      | cons y ys => exact ⟨y, ys, rfl⟩
    simp only [if_neg hfull]
    refine ⟨k, ys, hk, hcap, ?_, ?_, ?_⟩
    · simp only [hcount]
      rw [wrap32_eq_self (by omega) (by omega)]
      simp
    · simp only [hcount, Int.toNat_ofNat, hres, hys]
      have := set_append_cons (l.map some) y (some p) ys
      rw [List.length_map] at this
      rw [this]
      simp
    · rw [hys] at hsum
      simp only [List.length_append, List.length_singleton, List.length_cons,
        List.length_nil] at hsum ⊢
      omega

/-- Recording the matches of `l` one after the other. -/
theorem holds_foldl_append (l : List Params) :
    ∀ (rs : ResultSet) (m : List Params), rs.Holds m → m.length + l.length ≤ 2097152000 →
      (l.foldl ResultSet.append rs).Holds (m ++ l) := by
  induction l with
  | nil => intro rs m h _; simpa using h
  | cons p ps ih =>
    intro rs m h hlen
    simp only [List.foldl_cons]
    have h1 := holds_append rs m p h (by simp at hlen; omega)
    have h2 := ih (rs.append p) (m ++ [p]) h1 (by simp at hlen ⊢; omega)
    simpa using h2

end Parallel

/-! ## The parallel search -/

namespace Parallel

/-- The state after the loop body was run on the tuples of `l` in order. -/
theorem foldl_visit (T : PrimeTable) (l : List Params) :
    ∀ s : State, wrap32 s.found = s.found →
      (l.foldl (fun s p => visit T p s) s).evaluated = s.evaluated ++ l ∧
      (l.foldl (fun s p => visit T p s) s).found
        = wrap32 (s.found + (l.filter (check_cube T)).length) ∧
      (l.foldl (fun s p => visit T p s) s).global_checked = s.global_checked ∧
      (l.foldl (fun s p => visit T p s) s).progress = s.progress ∧
      (l.foldl (fun s p => visit T p s) s).result_set
        = (l.filter (check_cube T)).foldl ResultSet.append s.result_set := by
  induction l with
  | nil => intro s h; simp [h]
  | cons p ps ih =>
    intro s h
    simp only [List.foldl_cons]
    have he : (visit T p s).evaluated = s.evaluated ++ [p] := by
      unfold visit; split <;> rfl
    have hg : (visit T p s).global_checked = s.global_checked := by
      unfold visit; split <;> rfl
    have hpg : (visit T p s).progress = s.progress := by
      unfold visit; split <;> rfl
    by_cases hp : check_cube T p = true
    · have hf : (visit T p s).found = wrap32 (s.found + 1) := by
        unfold visit; simp [hp]
      have hrs : (visit T p s).result_set = s.result_set.append p := by
        unfold visit; simp [hp]
      have hw : wrap32 (visit T p s).found = (visit T p s).found := by
        rw [hf]; unfold wrap32; omega
      obtain ⟨i1, i2, i3, i4, i5⟩ := ih (visit T p s) hw
      refine ⟨?_, ?_, ?_, ?_, ?_⟩
      · rw [i1, he]; simp
      · rw [i2, hf, wrap32_add_wrap32]; congr 1; simp [hp]; ring
      · rw [i3, hg]
      · rw [i4, hpg]
      · rw [i5, hrs]; simp [hp]
    · have hf : (visit T p s).found = s.found := by
        unfold visit; simp [hp]
      have hrs : (visit T p s).result_set = s.result_set := by
        unfold visit; simp [hp]
      have hw : wrap32 (visit T p s).found = (visit T p s).found := by
        rw [hf]; exact h
      obtain ⟨i1, i2, i3, i4, i5⟩ := ih (visit T p s) hw
      refine ⟨?_, ?_, ?_, ?_, ?_⟩
      · rw [i1, he]; simp
      · rw [i2, hf]; simp [hp]
      · rw [i3, hg]
      · rw [i4, hpg]
      · rw [i5, hrs]; simp [hp]

/-- The two inner loops of a slice keep `local_checked` equal to the number of
tuples visited. -/
theorem foldl_visit_count (T : PrimeTable) (l : List Params) :
    ∀ (s : State) (n : Int), wrap64 n = n →
      l.foldl (fun (sl : State × Int) p => (visit T p sl.1, wrap64 (sl.2 + 1))) (s, n)
        = (l.foldl (fun s p => visit T p s) s, wrap64 (n + l.length)) := by
  induction l with
  | nil => intro s n hn; simp [hn]
  | cons p ps ih =>
    intro s n hn
    simp only [List.foldl_cons]
    rw [ih _ _ (by unfold wrap64; omega), wrap64_add_wrap64]
    congr 2
    simp only [List.length_cons]; push_cast; ring

/-- The two inner loops of a slice, when neither has the bound `INT_MAX` and
the fuel is enough. -/
theorem slice_inner_good (T : PrimeTable) (fuel : Nat) (r : Ranges) (ab : Int × Int)
    (s : State) (hc : 1 ≤ r.c_min ∧ r.c_min ≤ r.c_max) (hd : 1 ≤ r.d_min ∧ r.d_min ≤ r.d_max)
    (gc : r.c_max < 2147483647 ∧ r.c_max - r.c_min + 1 < fuel)
    (gd : r.d_max < 2147483647 ∧ r.d_max - r.d_min + 1 < fuel) :
    for_loop r.c_max (fun c sl =>
      for_loop r.d_max (fun d sl =>
          some (visit T { a := ab.1, b := ab.2, c := c, d := d } sl.1, wrap64 (sl.2 + 1)))
        fuel r.d_min sl)
      fuel r.c_min (s, (0 : Int))
    = some ((r.slice_tuples ab).foldl (fun s p => visit T p s) s,
        wrap64 ((r.slice_tuples ab).length)) := by
  have h1 : ∀ (c : Int) (sl : State × Int),
      for_loop r.d_max (fun d sl =>
          some (visit T { a := ab.1, b := ab.2, c := c, d := d } sl.1, wrap64 (sl.2 + 1)))
        fuel r.d_min sl
      = some ((int_range r.d_min r.d_max).foldl (fun (sl : State × Int) d =>
          (visit T { a := ab.1, b := ab.2, c := c, d := d } sl.1, wrap64 (sl.2 + 1))) sl) :=
    fun c sl => for_loop_good _ _ _ _ _ gd.1 (by omega) (by omega) gd.2
  simp only [h1]
  rw [for_loop_good _ _ _ _ _ gc.1 (by omega) (by omega) gc.2]
  have h2 := foldl_visit_count T (r.slice_tuples ab) s 0 rfl
  simp only [Ranges.slice_tuples, foldl_flatMap, List.foldl_map, zero_add] at h2 ⊢
  rw [h2]

/-- A slice whose inner loops have no bound at `INT_MAX` and enough fuel
returns: it has visited its tuples in order and added their number to
`global_checked`. -/
theorem slice_good (T : PrimeTable) (fuel : Nat) (r : Ranges) (L : Int) (ab : Int × Int)
    (s : State) (hc : 1 ≤ r.c_min ∧ r.c_min ≤ r.c_max) (hd : 1 ≤ r.d_min ∧ r.d_min ≤ r.d_max)
    (gc : r.c_max < 2147483647 ∧ r.c_max - r.c_min + 1 < fuel)
    (gd : r.d_max < 2147483647 ∧ r.d_max - r.d_min + 1 < fuel) :
    ∃ s', slice T fuel r L ab s = some s' ∧
      s'.evaluated = ((r.slice_tuples ab).foldl (fun s p => visit T p s) s).evaluated ∧
      s'.found = ((r.slice_tuples ab).foldl (fun s p => visit T p s) s).found ∧
      s'.result_set = ((r.slice_tuples ab).foldl (fun s p => visit T p s) s).result_set ∧
      s'.global_checked
        = wrap64 (s.global_checked + wrap64 ((r.slice_tuples ab).length)) := by
  unfold slice
  rw [slice_inner_good T fuel r ab s hc hd gc gd]
  have hg : ((r.slice_tuples ab).foldl (fun s p => visit T p s) s).global_checked
      = s.global_checked := by
    have : ∀ (l : List Params) (s : State),
        (l.foldl (fun s p => visit T p s) s).global_checked = s.global_checked := by
      intro l
      induction l with
      | nil => intro s; rfl
      | cons p ps ih =>
        intro s
        simp only [List.foldl_cons]
        rw [ih]
        unfold visit; split <;> rfl
    exact this _ _
  simp only []
  split
  · exact ⟨_, rfl, rfl, rfl, rfl, by simp only [hg]⟩
  · exact ⟨_, rfl, rfl, rfl, rfl, by simp only [hg]⟩

/-- A slice one of whose inner loops has the bound `INT_MAX`, or too little
fuel, does not return. -/
theorem slice_bad (T : PrimeTable) (fuel : Nat) (r : Ranges) (L : Int) (ab : Int × Int)
    (s : State) (hc : 1 ≤ r.c_min ∧ r.c_min ≤ r.c_max) (hd : 1 ≤ r.d_min ∧ r.d_min ≤ r.d_max)
    (hic : r.c_max ≤ 2147483647) (hid : r.d_max ≤ 2147483647)
    (hbad : ¬ ((r.c_max < 2147483647 ∧ r.c_max - r.c_min + 1 < fuel) ∧
      (r.d_max < 2147483647 ∧ r.d_max - r.d_min + 1 < fuel))) :
    slice T fuel r L ab s = none := by
  unfold slice
  have hnone : for_loop r.c_max (fun c sl =>
      for_loop r.d_max (fun d sl =>
          some (visit T { a := ab.1, b := ab.2, c := c, d := d } sl.1, wrap64 (sl.2 + 1)))
        fuel r.d_min sl)
      fuel r.c_min (s, (0 : Int)) = none := by
    by_cases gd : r.d_max < 2147483647 ∧ r.d_max - r.d_min + 1 < fuel
    · have gc : ¬ (r.c_max < 2147483647 ∧ r.c_max - r.c_min + 1 < fuel) :=
        fun gc => hbad ⟨gc, gd⟩
      exact for_loop_bad _ _ _ _ _ (by omega) hc.2 hic gc
    · apply for_loop_body_none _ _ _ _ _ _ hc.2
      intro c sl
      exact for_loop_bad _ _ _ _ _ (by omega) hd.2 hid gd
  rw [hnone]

/-- The instrumented mode, when the inner loops have no bound at `INT_MAX` and
enough fuel: every slice of the schedule returns, and the final state is that
of visiting the tuples of the slices in schedule order, with their number
added to `global_checked`. -/
theorem instrumented_good (T : PrimeTable) (fuel : Nat) (r : Ranges) (L : Int)
    (hc : 1 ≤ r.c_min ∧ r.c_min ≤ r.c_max) (hd : 1 ≤ r.d_min ∧ r.d_min ≤ r.d_max)
    (gc : r.c_max < 2147483647 ∧ r.c_max - r.c_min + 1 < fuel)
    (gd : r.d_max < 2147483647 ∧ r.d_max - r.d_min + 1 < fuel) (sched : List (Int × Int)) :
    ∀ s : State, wrap32 s.found = s.found → wrap64 s.global_checked = s.global_checked →
      ∃ s', instrumented T fuel r L sched s = some s' ∧
        s'.evaluated = s.evaluated ++ sched.flatMap r.slice_tuples ∧
        s'.found = wrap32 (s.found
          + ((sched.flatMap r.slice_tuples).filter (check_cube T)).length) ∧
        s'.result_set = ((sched.flatMap r.slice_tuples).filter (check_cube T)).foldl
          ResultSet.append s.result_set ∧
        s'.global_checked
          = wrap64 (s.global_checked + (sched.flatMap r.slice_tuples).length) := by
  induction sched with
  | nil =>
    intro s h1 h2
    exact ⟨s, rfl, by simp, by simp [h1], by simp, by simp [h2]⟩
  | cons ab rest ih =>
    intro s h1 h2
    obtain ⟨s1, hs1, e1, f1, r1, g1⟩ := slice_good T fuel r L ab s hc hd gc gd
    obtain ⟨v1, v2, _, _, v5⟩ := foldl_visit T (r.slice_tuples ab) s h1
    rw [v1] at e1
    rw [v2] at f1
    rw [v5] at r1
    have hw1 : wrap32 s1.found = s1.found := by rw [f1]; unfold wrap32; omega
    have hw2 : wrap64 s1.global_checked = s1.global_checked := by
      rw [g1]; unfold wrap64; omega
    obtain ⟨s2, hs2, e2, f2, r2, g2⟩ := ih s1 hw1 hw2
    refine ⟨s2, ?_, ?_, ?_, ?_, ?_⟩
    · unfold instrumented at hs2 ⊢
      simp only [run_list, hs1]
      exact hs2
    · rw [e2, e1]; simp
    · rw [f2, f1, wrap32_add_wrap32]
      congr 1
      simp only [List.flatMap_cons, List.filter_append, List.length_append]
      push_cast; ring
    · rw [r2, r1]
      simp only [List.flatMap_cons, List.filter_append, List.foldl_append]
    · rw [g2, g1]
      simp only [List.flatMap_cons, List.length_append]
      push_cast
      unfold wrap64; omega

/-- The instrumented mode does not return when a slice is scheduled and an
inner loop has the bound `INT_MAX` or too little fuel. -/
theorem instrumented_bad (T : PrimeTable) (fuel : Nat) (r : Ranges) (L : Int)
    (hc : 1 ≤ r.c_min ∧ r.c_min ≤ r.c_max) (hd : 1 ≤ r.d_min ∧ r.d_min ≤ r.d_max)
    (hic : r.c_max ≤ 2147483647) (hid : r.d_max ≤ 2147483647)
    (hbad : ¬ ((r.c_max < 2147483647 ∧ r.c_max - r.c_min + 1 < fuel) ∧
      (r.d_max < 2147483647 ∧ r.d_max - r.d_min + 1 < fuel)))
    (sched : List (Int × Int)) (hne : sched ≠ []) (s : State) :
    instrumented T fuel r L sched s = none := by
  cases sched with
  | nil => exact absurd rfl hne
  | cons ab rest =>
    unfold instrumented
    simp only [run_list, slice_bad T fuel r L ab s hc hd hic hid hbad]

end Parallel

/-! ## Validation, the combination count, and agreement of the two predicates -/

/-- The validation lets through exactly the ranges with `1 ≤ min ≤ max`. -/
theorem range_error_eq_none_iff (r : Ranges) : range_error r = none ↔ r.Valid := by
  unfold range_error Ranges.Valid
  by_cases h1 : r.a_min > r.a_max ∨ r.b_min > r.b_max ∨ r.c_min > r.c_max ∨ r.d_min > r.d_max
  · rw [if_pos h1]
    constructor
    · intro h; cases h
    · intro h; omega
  · rw [if_neg h1]
    by_cases h2 : r.a_min < 1 ∨ r.b_min < 1 ∨ r.c_min < 1 ∨ r.d_min < 1
    · rw [if_pos h2]
      constructor
      · intro h; cases h
      · intro h; omega
    · rw [if_neg h2]
      constructor
      · intro _; omega
      · intro _; rfl


theorem wrap64_mul_wrap64 (x y : Int) : wrap64 (wrap64 x * y) = wrap64 (x * y) := by
  have h1 : (18446744073709551616 : Int) ∣ (wrap64 x - x) := by
    unfold wrap64; omega
  have h2 : (18446744073709551616 : Int) ∣ (wrap64 x * y - x * y) := by
    have : wrap64 x * y - x * y = (wrap64 x - x) * y := by ring
    rw [this]
    exact Dvd.dvd.mul_right h1 y
  generalize wrap64 x * y = u at h2
  generalize x * y = v at h2
  unfold wrap64
  omega

/-- For validated ranges `total_combinations` is the exact count reduced to
64 bits. -/
theorem total_combinations_eq_wrap (r : Ranges) (hv : r.Valid) (hr : r.InRange) :
    total_combinations r = wrap64 r.count := by
  obtain ⟨⟨ha1, ha2⟩, ⟨hb1, hb2⟩, ⟨hc1, hc2⟩, ⟨hd1, hd2⟩⟩ := hv
  obtain ⟨_, ⟨_, hia⟩, _, ⟨_, hib⟩, _, ⟨_, hic⟩, _, ⟨_, hid⟩⟩ := hr
  have wa : wrap32 (wrap32 (r.a_max - r.a_min) + 1) = r.a_max - r.a_min + 1 := by
    rw [wrap32_eq_self (x := r.a_max - r.a_min) (by omega) (by omega),
      wrap32_eq_self (by omega) (by omega)]
  have wb : wrap32 (wrap32 (r.b_max - r.b_min) + 1) = r.b_max - r.b_min + 1 := by
    rw [wrap32_eq_self (x := r.b_max - r.b_min) (by omega) (by omega),
      wrap32_eq_self (by omega) (by omega)]
  have wc : wrap32 (wrap32 (r.c_max - r.c_min) + 1) = r.c_max - r.c_min + 1 := by
    rw [wrap32_eq_self (x := r.c_max - r.c_min) (by omega) (by omega),
      wrap32_eq_self (by omega) (by omega)]
  have wd : wrap32 (wrap32 (r.d_max - r.d_min) + 1) = r.d_max - r.d_min + 1 := by
    rw [wrap32_eq_self (x := r.d_max - r.d_min) (by omega) (by omega),
      wrap32_eq_self (by omega) (by omega)]
  unfold total_combinations Ranges.count
  rw [wa, wb, wc, wd, wrap64_mul_wrap64, mul_assoc, wrap64_mul_wrap64]
  congr 1
  ring

/-- For validated ranges whose count fits in 64 bits `total_combinations` is
the exact count. -/
theorem total_combinations_eq (r : Ranges) (hv : r.Valid) (hr : r.InRange)
    (hfit : r.count ≤ 9223372036854775807) : total_combinations r = r.count := by
  rw [total_combinations_eq_wrap r hv hr]
  have hpos : 0 ≤ r.count := by
    rw [← length_tuples r hv]; exact Int.ofNat_nonneg _
  exact wrap64_eq_self (by omega) hfit

/-- On `[0, 70000]` the table lookup and trial division agree. -/
theorem is_prime_agree {T : Parallel.PrimeTable} (hT : Parallel.Initialized T) (n : Int)
    (h0 : 0 ≤ n) (h1 : n ≤ 70000) : Parallel.is_prime T n = Sequential.is_prime n := by
  rw [Parallel.par_is_prime_spec hT, Sequential.seq_is_prime_spec n (by norm_num; omega)]
  simp [h0, h1]

/-- The two `check_cube` functions agree on every tuple with `a + 6*d ≤ 70000`. -/
theorem check_cube_agree {T : Parallel.PrimeTable} (hT : Parallel.Initialized T) (p : Params)
    (hb : p.a + 6 * p.d ≤ 70000) : Parallel.check_cube T p = Sequential.check_cube p := by
  rw [Bool.eq_iff_iff]
  unfold Parallel.check_cube Sequential.check_cube
  rw [check_cube_run_true, check_cube_run_true]
  by_cases hcan : Canonical p
  · obtain ⟨ha, hb1, hc1, hd1, hbc, hcd⟩ := hcan
    have hr : p.InRange := by
      unfold Params.InRange InInt32; omega
    have hval : ∀ t ∈ CUBE_CHECK_ORDER,
        Parallel.is_prime T (cube_value p t) = Sequential.is_prime (cube_value p t) := by
      rintro ⟨i, j, k⟩ ht
      obtain ⟨hi, hj, hk⟩ := (mem_CUBE_CHECK_ORDER i j k).1 ht
      rw [cube_value_exact p hr i j k hi hj hk]
      apply is_prime_agree hT <;>
        rcases hi with rfl | rfl | rfl <;> rcases hj with rfl | rfl | rfl <;>
        rcases hk with rfl | rfl | rfl <;> omega
    have hpa : Parallel.is_prime T p.a = Sequential.is_prime p.a :=
      is_prime_agree hT p.a (by omega) (by omega)
    rw [hpa]
    constructor
    · rintro ⟨h1, h2, h3⟩
      exact ⟨h1, h2, fun t ht => by rw [← hval t ht]; exact h3 t ht⟩
    · rintro ⟨h1, h2, h3⟩
      exact ⟨h1, h2, fun t ht => by rw [hval t ht]; exact h3 t ht⟩
  · constructor
    · intro h; exact absurd h.1 hcan
    · intro h; exact absurd h.1 hcan

/-! ## The two `main` functions -/

namespace Sequential

theorem seq_main_of_valid (fuel : Nat) (r : Ranges) (hv : r.Valid) :
    main_after_args fuel r = (search fuel r State.start).map Except.ok := by
  unfold main_after_args
  rw [(range_error_eq_none_iff r).2 hv]
  cases search fuel r State.start <;> rfl

/-- The sequential `main_after_args` on validated ranges never returns early. -/
theorem seq_main_ne_error (fuel : Nat) (r : Ranges) (hv : r.Valid) (code : Int) :
    main_after_args fuel r ≠ some (Except.error code) := by
  rw [seq_main_of_valid fuel r hv]
  cases search fuel r State.start <;> simp

/-- The sequential `main_after_args` returns when no bound is `INT_MAX` and the fuel is
enough. -/
theorem seq_main_good (fuel : Nat) (r : Ranges) (hv : r.Valid) (hb : r.BelowIntMax)
    (hf : r.FuelEnough fuel) :
    main_after_args fuel r = some (Except.ok (r.tuples.foldl (fun s p => step p s) State.start)) := by
  rw [seq_main_of_valid fuel r hv, search_good fuel r _ hv hb hf]
  rfl

/-- Whenever the sequential `main_after_args` returns from the search, the state is that
of running the loop body on the Cartesian product in order. -/
theorem seq_main_ok (fuel : Nat) (r : Ranges) (hv : r.Valid) (hr : r.InRange) (s : State)
    (h : main_after_args fuel r = some (Except.ok s)) :
    s.evaluated = r.tuples ∧ s.printed = r.tuples.filter check_cube ∧
      s.checked = total_combinations r ∧
      s.found = wrap32 ((r.tuples.filter check_cube).length) := by
  rw [seq_main_of_valid fuel r hv] at h
  cases hs : search fuel r State.start with
  | none => rw [hs] at h; cases h
  | some s' =>
    rw [hs] at h
    have hss : s' = s := by
      simp only [Option.map_some', Option.some.injEq, Except.ok.injEq] at h
      exact h
    subst hss
    obtain ⟨_, rfl⟩ := search_some fuel r _ _ hv hr hs
    obtain ⟨h1, h2, h3, h4⟩ := foldl_step r.tuples State.start rfl rfl
    refine ⟨by simpa [State.start] using h1, by simpa [State.start] using h2, ?_, ?_⟩
    · rw [h3, total_combinations_eq_wrap r hv hr, ← length_tuples r hv]
      simp [State.start]
    · rw [h4]; simp [State.start]

end Sequential

namespace Parallel

theorem start_evaluated : State.start.evaluated = [] := rfl

theorem start_found : State.start.found = 0 := rfl

theorem start_global_checked : State.start.global_checked = 0 := rfl

theorem foldl_append_eq_of_holds_start (l : List Params) (h : l.length ≤ 2097152000) :
    (l.foldl ResultSet.append State.start.result_set).Holds l := by
  have := holds_foldl_append l State.start.result_set [] holds_start (by simpa using h)
  simpa using this

/-- The parallel `main_after_args` on validated ranges never returns early. -/
theorem par_main_ne_error (fuel : Nat) (r : Ranges) (hv : r.Valid) (L : Int) (sp : Bool)
    (sched2 : List (Int × Int)) (sched4 : List Params) (code : Int) :
    main_after_args fuel r L sp sched2 sched4 ≠ some (Except.error code) := by
  unfold main_after_args
  rw [(range_error_eq_none_iff r).2 hv]
  simp only []
  cases init_prime_hash_set fuel PrimeTable.startup with
  | none => simp
  | some T =>
    simp only []
    cases sp with
    | true =>
      simp only [if_true]
      cases instrumented T fuel r L sched2 State.start <;> simp
    | false => simp

/-- Whenever the parallel `main_after_args` returns from the search, in either mode and
for every schedule of the work-shared loop, it has evaluated `check_cube` on
exactly the tuples of the Cartesian product, recorded the matches, and left
`global_checked = total_combinations`. -/
theorem par_main_ok (fuel : Nat) (r : Ranges) (hv : r.Valid) (hr : r.InRange) (L : Int)
    (sp : Bool) (sched2 : List (Int × Int)) (sched4 : List Params)
    (h2 : sched2.Perm r.slices) (h4 : sched4.Perm r.tuples) (s : State)
    (h : main_after_args fuel r L sp sched2 sched4 = some (Except.ok s)) :
    ∃ T, Initialized T ∧ s.evaluated.Perm r.tuples ∧
      s.result_set = (s.evaluated.filter (check_cube T)).foldl ResultSet.append
        State.start.result_set ∧
      s.found = wrap32 ((s.evaluated.filter (check_cube T)).length) ∧
      s.global_checked = total_combinations r := by
  obtain ⟨_, ⟨_, hia⟩, _, ⟨_, hib⟩, _, ⟨_, hic⟩, _, ⟨_, hid⟩⟩ := hr
  have hv' := hv
  obtain ⟨⟨ha1, ha2⟩, ⟨hb1, hb2⟩, hc, hd⟩ := hv'
  unfold main_after_args at h
  rw [(range_error_eq_none_iff r).2 hv] at h
  simp only [] at h
  cases hinit : init_prime_hash_set fuel PrimeTable.startup with
  | none => rw [hinit] at h; simp at h
  | some T =>
    rw [hinit] at h
    simp only [] at h
    refine ⟨T, ⟨fuel, hinit⟩, ?_⟩
    cases sp with
    | false =>
      simp only [Bool.false_eq_true, if_false, Option.some.injEq, Except.ok.injEq] at h
      subst h
      obtain ⟨v1, v2, _, _, v5⟩ := foldl_visit T sched4 State.start rfl
      rw [start_evaluated, List.nil_append] at v1
      rw [start_found, zero_add] at v2
      have he : (max_throughput T r sched4 State.start).evaluated = sched4 := by
        unfold max_throughput; exact v1
      refine ⟨by rw [he]; exact h4, ?_, ?_, rfl⟩
      · rw [he]; unfold max_throughput; exact v5
      · rw [he]; unfold max_throughput; exact v2
    | true =>
      simp only [if_true] at h
      have hne : sched2 ≠ [] := by
        intro hnil
        rw [hnil] at h2
        have hlen := h2.length_eq
        rw [length_slices] at hlen
        have l1 := length_int_range r.a_min r.a_max (by omega)
        have l2 := length_int_range r.b_min r.b_max (by omega)
        have hpos1 : 0 < (int_range r.a_min r.a_max).length := by omega
        have hpos2 : 0 < (int_range r.b_min r.b_max).length := by omega
        have := Nat.mul_pos hpos1 hpos2
        rw [List.length_nil] at hlen
        omega
      by_cases hg : (r.c_max < 2147483647 ∧ r.c_max - r.c_min + 1 < fuel) ∧
          (r.d_max < 2147483647 ∧ r.d_max - r.d_min + 1 < fuel)
      · obtain ⟨s', hs', e1, f1, r1, g1⟩ :=
          instrumented_good T fuel r L hc hd hg.1 hg.2 sched2 State.start rfl rfl
        rw [hs'] at h
        simp only [Option.some.injEq, Except.ok.injEq] at h
        subst h
        have hperm : (sched2.flatMap r.slice_tuples).Perm r.tuples := by
          unfold Ranges.tuples
          exact List.Perm.flatMap_right _ h2
        rw [start_evaluated, List.nil_append] at e1
        rw [start_found, zero_add] at f1
        rw [start_global_checked, zero_add] at g1
        have he : s'.evaluated = sched2.flatMap r.slice_tuples := e1
        refine ⟨by rw [he]; exact hperm, ?_, ?_, ?_⟩
        · rw [he]; exact r1
        · rw [he, f1]
        · rw [g1, total_combinations_eq_wrap r hv
            ⟨by assumption, ⟨by assumption, hia⟩, by assumption, ⟨by assumption, hib⟩,
              by assumption, ⟨by assumption, hic⟩, by assumption, ⟨by assumption, hid⟩⟩,
            ← length_tuples r hv, hperm.length_eq]
      · rw [instrumented_bad T fuel r L hc hd hic hid hg sched2 hne] at h
        simp at h

end Parallel

namespace Parallel

/-- The parallel `main_after_args` returns, in either mode and for every schedule, when no
bound of an inner C loop is `INT_MAX` and the fuel is enough for the sieve and
the loops. -/
theorem par_main_good (fuel : Nat) (hfuel : MAX_PRIME_CHECK + 2 ≤ fuel) (r : Ranges)
    (hv : r.Valid) (hb : r.BelowIntMax) (hf : r.FuelEnough fuel) (L : Int) (sp : Bool)
    (sched2 : List (Int × Int)) (sched4 : List Params) :
    ∃ s, main_after_args fuel r L sp sched2 sched4 = some (Except.ok s) := by
  obtain ⟨T, hT, _⟩ := init_prime_hash_set_spec fuel hfuel
  have hc := hv.2.2.1
  have hd := hv.2.2.2
  unfold main_after_args
  rw [(range_error_eq_none_iff r).2 hv, hT]
  simp only []
  cases sp with
  | false => exact ⟨max_throughput T r sched4 State.start, by simp only [Bool.false_eq_true, if_false]⟩
  | true =>
    obtain ⟨s', hs', _⟩ := instrumented_good T fuel r L hc hd ⟨hb.2.2.1, hf.2.2.1⟩
      ⟨hb.2.2.2, hf.2.2.2⟩ sched2 State.start rfl rfl
    exact ⟨s', by simp [hs']⟩

end Parallel

/-! ## The arguments passed to `is_prime` -/

theorem check_cube_loop_log (isp : Int → Bool) (p : Params) (v : Int) :
    ∀ l : List (Int × Int × Int), v ∈ (check_cube_loop isp p l).2 →
      ∃ t ∈ l, v = cube_value p t := by
  intro l
  induction l with
  | nil => intro h; simp [check_cube_loop] at h
  | cons t ts ih =>
    intro h
    unfold check_cube_loop at h
    by_cases hp : isp (cube_value p t) = true
    · simp only [hp, Bool.not_true, Bool.false_eq_true, if_false, List.mem_cons] at h
      rcases h with h | h
      · exact ⟨t, List.mem_cons_self _ _, h⟩
      · obtain ⟨t', ht', hv⟩ := ih h
        exact ⟨t', List.mem_cons_of_mem _ ht', hv⟩
    · simp only [hp, Bool.not_false, if_true, List.mem_singleton] at h
      exact ⟨t, List.mem_cons_self _ _, h⟩

/-- Every argument `check_cube` passes to `is_prime` is `a` or the value of a
row, and `is_prime` is only called past the guards. -/
theorem check_cube_run_log (isp : Int → Bool) (p : Params) (v : Int)
    (h : v ∈ (check_cube_run isp p).2) :
    Canonical p ∧ (v = p.a ∨ ∃ t ∈ CUBE_CHECK_ORDER, v = cube_value p t) := by
  unfold check_cube_run at h
  by_cases h1 : p.a ≤ 0 ∨ p.b ≤ 0 ∨ p.c ≤ 0 ∨ p.d ≤ 0
  · rw [if_pos h1] at h; simp at h
  · rw [if_neg h1] at h
    by_cases h2 : ¬ (p.b ≤ p.c ∧ p.c ≤ p.d)
    · rw [if_pos h2] at h; simp at h
    · rw [if_neg h2] at h
      have hcan : Canonical p := by unfold Canonical; omega
      refine ⟨hcan, ?_⟩
      by_cases h3 : isp p.a = true
      · simp only [h3, Bool.not_true, Bool.false_eq_true, if_false, List.mem_cons] at h
        rcases h with h | h
        · exact Or.inl h
        · exact Or.inr (check_cube_loop_log isp p v _ h)
      · simp only [h3, Bool.not_false, if_true, List.mem_singleton] at h
        exact Or.inl h

/-- Every argument `check_cube` passes to `is_prime` lies in `[1, a + 6*d]`,
for 32-bit fields. -/
theorem check_cube_run_log_bound (isp : Int → Bool) (p : Params) (hr : p.InRange) (v : Int)
    (h : v ∈ (check_cube_run isp p).2) : 1 ≤ v ∧ v ≤ p.a + 6 * p.d := by
  obtain ⟨⟨ha, hb, hc, hd, hbc, hcd⟩, hv⟩ := check_cube_run_log isp p v h
  rcases hv with rfl | ⟨⟨i, j, k⟩, ht, rfl⟩
  · omega
  · obtain ⟨hi, hj, hk⟩ := (mem_CUBE_CHECK_ORDER i j k).1 ht
    rw [cube_value_exact p hr i j k hi hj hk]
    rcases hi with rfl | rfl | rfl <;> rcases hj with rfl | rfl | rfl <;>
      rcases hk with rfl | rfl | rfl <;> omega

/-! ## Ranges of a single tuple -/

theorem int_range_self (x : Int) : int_range x x = [x] := by
  unfold int_range
  have : (x - x + 1).toNat = 1 := by omega
  rw [this]
  rfl

theorem Ranges.single_tuples (p : Params) : (Ranges.single p).tuples = [p] := by
  simp [Ranges.tuples, Ranges.slices, Ranges.slice_tuples, Ranges.single, int_range_self]

theorem Ranges.single_slices (p : Params) : (Ranges.single p).slices = [(p.a, p.b)] := by
  simp [Ranges.slices, Ranges.single, int_range_self]

theorem Ranges.single_valid (p : Params) (h : 1 ≤ p.a ∧ 1 ≤ p.b ∧ 1 ≤ p.c ∧ 1 ≤ p.d) :
    (Ranges.single p).Valid := by
  unfold Ranges.Valid Ranges.single
  simp only [le_refl, and_true]
  exact h

theorem Ranges.single_count (p : Params) : (Ranges.single p).count = 1 := by
  simp [Ranges.count, Ranges.single]

theorem Ranges.single_in_range (p : Params) (h : p.InRange) : (Ranges.single p).InRange := by
  obtain ⟨ha, hb, hc, hd⟩ := h
  exact ⟨ha, ha, hb, hb, hc, hc, hd, hd⟩

theorem Ranges.single_fuel (p : Params) (fuel : Nat) (h : 2 ≤ fuel) :
    (Ranges.single p).FuelEnough fuel := by
  unfold Ranges.FuelEnough Ranges.single
  simp only [sub_self, zero_add]
  have : (1 : Int) < fuel := by omega
  exact ⟨this, this, this, this⟩

/-! ## More on the result accumulator -/

namespace Parallel

theorem getD_append_map_some (l : List Params) (rest : List (Option Params)) (i : Nat)
    (hi : i < l.length) :
    (l.map some ++ rest).getD i none = (l.map some).getD i none := by
  rw [List.getD_eq_getElem?_getD, List.getD_eq_getElem?_getD,
    List.getElem?_append_left (by rw [List.length_map]; exact hi)]

/-- One append on a result set that holds `l`, short of the overflow of
`capacity * 2`. -/
theorem append_step (rs : ResultSet) (l : List Params) (p : Params) (h : rs.Holds l)
    (hlen : l.length < 2097152000) :
    (0 ≤ rs.count ∧ rs.count ≤ rs.capacity) ∧
    (0 ≤ (rs.append p).count ∧ (rs.append p).count ≤ (rs.append p).capacity) ∧
    (rs.append p).capacity = (if rs.count = rs.capacity then 2 * rs.capacity else rs.capacity) ∧
    (rs.append p).count = rs.count + 1 ∧
    (∀ i, i < rs.count.toNat →
      (rs.append p).results.getD i none = rs.results.getD i none) ∧
    (rs.append p).results.getD rs.count.toNat none = some p ∧
    rs.count < (rs.append p).capacity ∧
    (rs.append p).results.length = (rs.append p).capacity.toNat := by
  have h' := holds_append rs l p h hlen
  obtain ⟨k, rest, hk, hcap, hcount, hres, hsum⟩ := h
  obtain ⟨k', rest', hk', hcap', hcount', hres', hsum'⟩ := h'
  have hcapN : rs.capacity = ((1000 * 2 ^ k : Nat) : Int) := by rw [hcap]; push_cast; rfl
  have hcapN' : (rs.append p).capacity = ((1000 * 2 ^ k' : Nat) : Int) := by
    rw [hcap']; push_cast; rfl
  have hlen' : (l ++ [p]).length = l.length + 1 := by simp
  rw [hlen'] at hcount' hsum'
  have hpow4 : (2 : Nat) ^ 21 = 2097152 := by norm_num
  have hpowk : (2 : Nat) ^ k ≤ 2 ^ 21 := Nat.pow_le_pow_right (by omega) hk
  refine ⟨⟨by omega, by rw [hcount, hcapN]; exact_mod_cast (by omega : l.length ≤ 1000 * 2 ^ k)⟩,
    ⟨by omega, by
      rw [hcount', hcapN']
      exact_mod_cast (by omega : l.length + 1 ≤ 1000 * 2 ^ k')⟩, ?_, ?_, ?_, ?_, ?_, ?_⟩
  · unfold ResultSet.append
    by_cases hfull : rs.count = rs.capacity
    · simp only [if_pos hfull]
      have : (l.length : Int) = ((1000 * 2 ^ k : Nat) : Int) := by
        rw [← hcount, hfull, hcapN]
      have hl : l.length = 1000 * 2 ^ k := by exact_mod_cast this
      have hk1 : k + 1 ≤ 21 := by
        by_contra hcon
        have : k = 21 := by omega
        subst this
        norm_num at hl
        omega
      have h2c : (2 : Nat) ^ (k + 1) ≤ 2 ^ 21 := Nat.pow_le_pow_right (by omega) hk1
      rw [pow_succ] at h2c
      rw [hcapN]
      generalize (2 : Nat) ^ k = c at *
      rw [wrap32_eq_self] <;> push_cast <;> omega
    · simp only [if_neg hfull]
  · rw [hcount', hcount]; push_cast; rfl
  · intro i hi
    rw [hcount, Int.toNat_ofNat] at hi
    rw [hres', hres, getD_append_map_some _ _ i (by rw [hlen']; omega),
      getD_append_map_some _ _ i hi, List.map_append,
      List.getD_eq_getElem?_getD, List.getD_eq_getElem?_getD,
      List.getElem?_append_left (by rw [List.length_map]; exact hi)]
  · rw [hcount, Int.toNat_ofNat, hres', List.map_append, List.map_cons, List.map_nil,
      List.append_assoc, List.singleton_append, List.getD_eq_getElem?_getD]
    have := getElem?_append_cons_length (l.map some) (some p) rest'
    rw [List.length_map] at this
    rw [this]
    rfl
  · rw [hcount, hcapN']
    exact_mod_cast (by omega : l.length < 1000 * 2 ^ k')
  · rw [hres', hcapN', Int.toNat_ofNat, List.length_append, List.length_map, hlen']
    exact hsum'

end Parallel

/-! ## Permutations of `(b, c, d)` -/

theorem perm_pair_cases {y z c d : Int} (h : List.Perm [y, z] [c, d]) :
    (y = c ∧ z = d) ∨ (y = d ∧ z = c) := by
  have hy : y ∈ [c, d] := (h.mem_iff).1 (List.mem_cons_self _ _)
  simp only [List.mem_cons, List.mem_singleton, List.not_mem_nil, or_false] at hy
  rcases hy with rfl | rfl
  · left
    exact ⟨rfl, List.perm_singleton.1 ((List.perm_cons y).1 h) |> List.singleton_inj.1⟩
  · right
    have h2 : List.Perm [y, z] [y, c] := h.trans (List.Perm.swap y c [])
    exact ⟨rfl, List.perm_singleton.1 ((List.perm_cons y).1 h2) |> List.singleton_inj.1⟩

theorem perm_triple_cases {x y z b c d : Int} (h : List.Perm [x, y, z] [b, c, d]) :
    (x = b ∧ y = c ∧ z = d) ∨ (x = b ∧ y = d ∧ z = c) ∨ (x = c ∧ y = b ∧ z = d) ∨
    (x = c ∧ y = d ∧ z = b) ∨ (x = d ∧ y = b ∧ z = c) ∨ (x = d ∧ y = c ∧ z = b) := by
  have hx : x ∈ [b, c, d] := (h.mem_iff).1 (List.mem_cons_self _ _)
  simp only [List.mem_cons, List.mem_singleton, List.not_mem_nil, or_false] at hx
  rcases hx with rfl | rfl | rfl
  · rcases perm_pair_cases ((List.perm_cons x).1 h) with h1 | h1
    · exact Or.inl ⟨rfl, h1.1, h1.2⟩
    · exact Or.inr (Or.inl ⟨rfl, h1.1, h1.2⟩)
  · have h2 : List.Perm [x, y, z] [x, b, d] := h.trans (List.Perm.swap x b [d])
    rcases perm_pair_cases ((List.perm_cons x).1 h2) with h1 | h1
    · exact Or.inr (Or.inr (Or.inl ⟨rfl, h1.1, h1.2⟩))
    · exact Or.inr (Or.inr (Or.inr (Or.inl ⟨rfl, h1.1, h1.2⟩)))
  · have h2 : List.Perm [b, c, x] [x, b, c] := by
      have h3 : List.Perm [b, c, x] [b, x, c] := List.Perm.cons b (List.Perm.swap x c [])
      exact h3.trans (List.Perm.swap x b [c])
    have h4 : List.Perm [x, y, z] [x, b, c] := h.trans h2
    rcases perm_pair_cases ((List.perm_cons x).1 h4) with h1 | h1
    · exact Or.inr (Or.inr (Or.inr (Or.inr (Or.inl ⟨rfl, h1.1, h1.2⟩))))
    · exact Or.inr (Or.inr (Or.inr (Or.inr (Or.inr ⟨rfl, h1.1, h1.2⟩))))

/-- Permuting `(b, c, d)` does not change the set of the 27 values. -/
theorem combination_values_perm (p q : Params) (ha : q.a = p.a)
    (h : List.Perm [q.b, q.c, q.d] [p.b, p.c, p.d]) :
    combination_values q = combination_values p := by
  ext v
  unfold combination_values
  simp only [Set.mem_setOf_eq]
  rcases perm_triple_cases h with ⟨h1, h2, h3⟩ | ⟨h1, h2, h3⟩ | ⟨h1, h2, h3⟩ |
      ⟨h1, h2, h3⟩ | ⟨h1, h2, h3⟩ | ⟨h1, h2, h3⟩ <;> rw [ha, h1, h2, h3]
  · constructor
    · rintro ⟨i, j, k, hi, hj, hk, rfl⟩; exact ⟨i, k, j, hi, hk, hj, by ring⟩
    · rintro ⟨i, j, k, hi, hj, hk, rfl⟩; exact ⟨i, k, j, hi, hk, hj, by ring⟩
  · constructor
    · rintro ⟨i, j, k, hi, hj, hk, rfl⟩; exact ⟨j, i, k, hj, hi, hk, by ring⟩
    · rintro ⟨i, j, k, hi, hj, hk, rfl⟩; exact ⟨j, i, k, hj, hi, hk, by ring⟩
  · constructor
    · rintro ⟨i, j, k, hi, hj, hk, rfl⟩; exact ⟨k, i, j, hk, hi, hj, by ring⟩
    · rintro ⟨i, j, k, hi, hj, hk, rfl⟩; exact ⟨j, k, i, hj, hk, hi, by ring⟩
  · constructor
    · rintro ⟨i, j, k, hi, hj, hk, rfl⟩; exact ⟨j, k, i, hj, hk, hi, by ring⟩
    · rintro ⟨i, j, k, hi, hj, hk, rfl⟩; exact ⟨k, i, j, hk, hi, hj, by ring⟩
  · constructor
    · rintro ⟨i, j, k, hi, hj, hk, rfl⟩; exact ⟨k, j, i, hk, hj, hi, by ring⟩
    · rintro ⟨i, j, k, hi, hj, hk, rfl⟩; exact ⟨k, j, i, hk, hj, hi, by ring⟩

/-- All 27 combinations are prime exactly when every member of the set of
values is prime. -/
theorem allCombinationsPrime_iff_values (p : Params) :
    AllCombinationsPrime p ↔ ∀ v ∈ combination_values p, Nat.Prime v.toNat := by
  unfold AllCombinationsPrime combination_values
  constructor
  · rintro h v ⟨i, j, k, hi, hj, hk, rfl⟩
    exact h i j k hi hj hk
  · intro h i j k hi hj hk
    exact h _ ⟨i, j, k, hi, hj, hk, rfl⟩

/-- The triple `sort3 b c d` is ascending and a permutation of `(b, c, d)`. -/
theorem sort3_spec (b c d : Int) :
    (sort3 b c d).1 ≤ (sort3 b c d).2.1 ∧ (sort3 b c d).2.1 ≤ (sort3 b c d).2.2 ∧
      List.Perm [(sort3 b c d).1, (sort3 b c d).2.1, (sort3 b c d).2.2] [b, c, d] := by
  unfold sort3
  simp only []
  rcases le_total b c with hbc | hbc <;> rcases le_total c d with hcd | hcd <;>
    rcases le_total b d with hbd | hbd
  · have e1 : min b (min c d) = b := by omega
    have e2 : max b (max c d) = d := by omega
    rw [e1, e2]
    refine ⟨by omega, by omega, ?_⟩
    have : b + c + d - b - d = c := by ring
    rw [this]
  · have e1 : min b (min c d) = b := by omega
    have e2 : max b (max c d) = d := by omega
    rw [e1, e2]
    refine ⟨by omega, by omega, ?_⟩
    have : b + c + d - b - d = c := by ring
    rw [this]
  · have e1 : min b (min c d) = b := by omega
    have e2 : max b (max c d) = c := by omega
    rw [e1, e2]
    refine ⟨by omega, by omega, ?_⟩
    have : b + c + d - b - c = d := by ring
    rw [this]
    exact List.Perm.cons b (List.Perm.swap c d [])
  · have e1 : min b (min c d) = d := by omega
    have e2 : max b (max c d) = c := by omega
    rw [e1, e2]
    refine ⟨by omega, by omega, ?_⟩
    have : b + c + d - d - c = b := by ring
    rw [this]
    exact (List.Perm.swap b d [c]).trans (List.Perm.cons b (List.Perm.swap c d []))
  · have e1 : min b (min c d) = c := by omega
    have e2 : max b (max c d) = d := by omega
    rw [e1, e2]
    refine ⟨by omega, by omega, ?_⟩
    have : b + c + d - c - d = b := by ring
    rw [this]
    exact List.Perm.swap b c [d]
  · have e1 : min b (min c d) = c := by omega
    have e2 : max b (max c d) = b := by omega
    rw [e1, e2]
    refine ⟨by omega, by omega, ?_⟩
    have : b + c + d - c - b = d := by ring
    rw [this]
    exact (List.Perm.cons c (List.Perm.swap b d [])).trans (List.Perm.swap b c [d])
  · have e1 : min b (min c d) = d := by omega
    have e2 : max b (max c d) = b := by omega
    rw [e1, e2]
    refine ⟨by omega, by omega, ?_⟩
    have : b + c + d - d - b = c := by ring
    rw [this]
    exact ((List.Perm.swap c d [b]).trans (List.Perm.cons c (List.Perm.swap b d []))).trans
      (List.Perm.swap b c [d])
  · have e1 : min b (min c d) = d := by omega
    have e2 : max b (max c d) = b := by omega
    rw [e1, e2]
    refine ⟨by omega, by omega, ?_⟩
    have : b + c + d - d - b = c := by ring
    rw [this]
    exact ((List.Perm.swap c d [b]).trans (List.Perm.cons c (List.Perm.swap b d []))).trans
      (List.Perm.swap b c [d])

/-! ## Progress lines of the instrumented mode -/

namespace Parallel

theorem foldl_visit_progress (T : PrimeTable) (l : List Params) :
    ∀ s : State, (l.foldl (fun s p => visit T p s) s).progress = s.progress ∧
      (l.foldl (fun s p => visit T p s) s).global_checked = s.global_checked := by
  induction l with
  | nil => intro s; exact ⟨rfl, rfl⟩
  | cons p ps ih =>
    intro s
    simp only [List.foldl_cons]
    obtain ⟨h1, h2⟩ := ih (visit T p s)
    rw [h1, h2]
    constructor <;> (unfold visit; split <;> rfl)

/-- The number of tuples of a slice of validated ranges is `slice_size`. -/
theorem length_slice_tuples_eq (r : Ranges) (ab : Int × Int)
    (hc : 1 ≤ r.c_min ∧ r.c_min ≤ r.c_max) (hd : 1 ≤ r.d_min ∧ r.d_min ≤ r.d_max) :
    ((r.slice_tuples ab).length : Int) = r.slice_size := by
  rw [length_slice_tuples]
  push_cast
  rw [length_int_range _ _ (by omega), length_int_range _ _ (by omega)]
  rfl

/-- A slice whose inner loops return: the update of `global_checked` and the
progress line. -/
theorem slice_full (T : PrimeTable) (fuel : Nat) (r : Ranges) (L : Int) (ab : Int × Int)
    (s : State) (hc : 1 ≤ r.c_min ∧ r.c_min ≤ r.c_max) (hd : 1 ≤ r.d_min ∧ r.d_min ≤ r.d_max)
    (gc : r.c_max < 2147483647 ∧ r.c_max - r.c_min + 1 < fuel)
    (gd : r.d_max < 2147483647 ∧ r.d_max - r.d_min + 1 < fuel) :
    ∃ s', slice T fuel r L ab s = some s' ∧
      s'.global_checked = wrap64 (s.global_checked + wrap64 r.slice_size) ∧
      s'.progress = (if reports r L (wrap64 r.slice_size) ab = true
        then s.progress ++ [s'.global_checked] else s.progress) := by
  unfold slice
  rw [slice_inner_good T fuel r ab s hc hd gc gd, length_slice_tuples_eq r ab hc hd]
  obtain ⟨hp, hg⟩ := foldl_visit_progress T (r.slice_tuples ab) s
  simp only []
  by_cases hrep : reports r L (wrap64 r.slice_size) ab = true
  · have hcond : Int.tdiv (batch_start_pos r ab.1 ab.2) L
        ≠ Int.tdiv (wrap64 (batch_start_pos r ab.1 ab.2 + wrap64 r.slice_size)) L := by
      unfold reports at hrep
      exact of_decide_eq_true hrep
    rw [if_pos hcond]
    refine ⟨_, rfl, by simp only [hg], ?_⟩
    rw [if_pos hrep]
    simp only [hg, hp]
  · have hcond : ¬ Int.tdiv (batch_start_pos r ab.1 ab.2) L
        ≠ Int.tdiv (wrap64 (batch_start_pos r ab.1 ab.2 + wrap64 r.slice_size)) L := by
      intro h
      apply hrep
      unfold reports
      exact decide_eq_true h
    rw [if_neg hcond]
    refine ⟨_, rfl, by simp only [hg], ?_⟩
    rw [if_neg hrep]
    simp only [hp]

/-- The instrumented mode prints one progress line for every scheduled slice
that passes the test `reports`. -/
theorem instrumented_progress_length (T : PrimeTable) (fuel : Nat) (r : Ranges) (L : Int)
    (hc : 1 ≤ r.c_min ∧ r.c_min ≤ r.c_max) (hd : 1 ≤ r.d_min ∧ r.d_min ≤ r.d_max)
    (gc : r.c_max < 2147483647 ∧ r.c_max - r.c_min + 1 < fuel)
    (gd : r.d_max < 2147483647 ∧ r.d_max - r.d_min + 1 < fuel) (sched : List (Int × Int)) :
    ∀ s : State, ∃ s', instrumented T fuel r L sched s = some s' ∧
      s'.progress.length
        = s.progress.length + (sched.filter (reports r L (wrap64 r.slice_size))).length := by
  induction sched with
  | nil => intro s; exact ⟨s, rfl, by simp⟩
  | cons ab rest ih =>
    intro s
    obtain ⟨s1, hs1, _, hp1⟩ := slice_full T fuel r L ab s hc hd gc gd
    obtain ⟨s2, hs2, hp2⟩ := ih s1
    refine ⟨s2, ?_, ?_⟩
    · unfold instrumented at hs2 ⊢
      simp only [run_list, hs1]
      exact hs2
    · rw [hp2, hp1]
      by_cases hrep : reports r L (wrap64 r.slice_size) ab = true
      · simp [hrep]; omega
      · simp [hrep]

/-- The instrumented mode when the combinations counted so far and those of
the scheduled slices fit in 64 bits: `global_checked` grows by `slice_size`
per slice, and every printed figure lies between 0 and the final
`global_checked`. -/
theorem instrumented_run (T : PrimeTable) (fuel : Nat) (r : Ranges) (L : Int)
    (hc : 1 ≤ r.c_min ∧ r.c_min ≤ r.c_max) (hd : 1 ≤ r.d_min ∧ r.d_min ≤ r.d_max)
    (gc : r.c_max < 2147483647 ∧ r.c_max - r.c_min + 1 < fuel)
    (gd : r.d_max < 2147483647 ∧ r.d_max - r.d_min + 1 < fuel) (sched : List (Int × Int)) :
    ∀ s : State, 0 ≤ s.global_checked →
      s.global_checked + sched.length * r.slice_size ≤ 9223372036854775807 →
      (∀ v ∈ s.progress, 0 ≤ v ∧ v ≤ s.global_checked) →
      ∃ s', instrumented T fuel r L sched s = some s' ∧
        s'.global_checked = s.global_checked + sched.length * r.slice_size ∧
        (∀ v ∈ s'.progress, 0 ≤ v ∧ v ≤ s'.global_checked) := by
  have hS : 1 ≤ r.slice_size := by
    unfold Ranges.slice_size
    have h1 : 1 ≤ r.c_max - r.c_min + 1 := by omega
    have h2 : 1 ≤ r.d_max - r.d_min + 1 := by omega
    nlinarith
  induction sched with
  | nil =>
    intro s _ _ hpr
    exact ⟨s, rfl, by simp, hpr⟩
  | cons ab rest ih =>
    intro s h0 hfit hpr
    simp only [List.length_cons] at hfit
    push_cast at hfit
    have hrest : 0 ≤ (rest.length : Int) * r.slice_size :=
      mul_nonneg (Int.ofNat_nonneg _) (by omega)
    have hfit' : s.global_checked + r.slice_size + rest.length * r.slice_size
        ≤ 9223372036854775807 := by nlinarith
    obtain ⟨s1, hs1, hg1, hp1⟩ := slice_full T fuel r L ab s hc hd gc gd
    have hwS : wrap64 r.slice_size = r.slice_size := wrap64_eq_self (by omega) (by omega)
    have hg1' : s1.global_checked = s.global_checked + r.slice_size := by
      rw [hg1, hwS, wrap64_eq_self (by omega) (by omega)]
    have hpr1 : ∀ v ∈ s1.progress, 0 ≤ v ∧ v ≤ s1.global_checked := by
      intro v hv
      rw [hp1] at hv
      by_cases hrep : reports r L (wrap64 r.slice_size) ab = true
      · rw [if_pos hrep, List.mem_append, List.mem_singleton] at hv
        rcases hv with hv | hv
        · have := hpr v hv; omega
        · omega
      · rw [if_neg hrep] at hv
        have := hpr v hv; omega
    obtain ⟨s2, hs2, hg2, hp2⟩ := ih s1 (by omega) (by rw [hg1']; exact hfit') hpr1
    refine ⟨s2, ?_, ?_, hp2⟩
    · unfold instrumented at hs2 ⊢
      simp only [run_list, hs1]
      exact hs2
    · rw [hg2, hg1']
      simp only [List.length_cons]
      push_cast
      ring

/-- When the parallel `main_after_args` returns from the instrumented mode, the inner
loops had no bound at `INT_MAX` and enough fuel, and the state is the one the
instrumented mode left. -/
theorem par_main_instrumented (fuel : Nat) (r : Ranges) (hv : r.Valid) (hr : r.InRange)
    (L : Int) (sched2 : List (Int × Int)) (sched4 : List Params) (hne : sched2 ≠ [])
    (s : State) (h : main_after_args fuel r L true sched2 sched4 = some (Except.ok s)) :
    ((r.c_max < 2147483647 ∧ r.c_max - r.c_min + 1 < fuel) ∧
      (r.d_max < 2147483647 ∧ r.d_max - r.d_min + 1 < fuel)) ∧
    ∃ T, instrumented T fuel r L sched2 State.start = some s := by
  obtain ⟨_, _, _, _, _, ⟨_, hic⟩, _, ⟨_, hid⟩⟩ := hr
  unfold main_after_args at h
  rw [(range_error_eq_none_iff r).2 hv] at h
  simp only [] at h
  cases hinit : init_prime_hash_set fuel PrimeTable.startup with
  | none => rw [hinit] at h; simp at h
  | some T =>
    rw [hinit] at h
    simp only [if_true] at h
    by_cases hg : (r.c_max < 2147483647 ∧ r.c_max - r.c_min + 1 < fuel) ∧
        (r.d_max < 2147483647 ∧ r.d_max - r.d_min + 1 < fuel)
    · refine ⟨hg, T, ?_⟩
      cases hi : instrumented T fuel r L sched2 State.start with
      | none => rw [hi] at h; simp at h
      | some s' =>
        rw [hi] at h
        simp only [Option.some.injEq, Except.ok.injEq] at h
        rw [h]
    · rw [instrumented_bad T fuel r L hv.2.2.1 hv.2.2.2 hic hid hg sched2 hne] at h
      simp at h

end Parallel

/-! ## Counting the slices that print a progress line -/

theorem crossings_succ (n S L : Nat) :
    crossings (n + 1) S L
      = crossings n S L + (if n * S / L ≠ (n + 1) * S / L then 1 else 0) := by
  unfold crossings
  rw [List.range_succ, List.filter_append, List.length_append]
  by_cases h : n * S / L ≠ (n + 1) * S / L
  · simp [List.filter, h]
  · simp [List.filter, h]

theorem crossings_le (n S L : Nat) : crossings n S L ≤ n := by
  unfold crossings
  exact le_trans (List.length_filter_le _ _) (by rw [List.length_range])

/-- With `L ≤ S` every slice changes the quotient. -/
theorem crossings_small (n S L : Nat) (hL : 1 ≤ L) (hLS : L ≤ S) : crossings n S L = n := by
  induction n with
  | zero => rfl
  | succ n ih =>
    rw [crossings_succ, ih]
    have h1 : n * S / L + 1 ≤ (n + 1) * S / L := by
      have : n * S / L + 1 = (n * S + L) / L := (Nat.add_div_right _ (by omega)).symm
      rw [this]
      apply Nat.div_le_div_right
      rw [Nat.add_mul, Nat.one_mul]
      omega
    have h2 : n * S / L ≠ (n + 1) * S / L := by omega
    rw [if_pos h2]

/-- With `S ≤ L` a slice changes the quotient by at most one, so the number of
changes is the final quotient. -/
theorem crossings_large (n S L : Nat) (hL : 1 ≤ L) (hSL : S ≤ L) :
    crossings n S L = n * S / L := by
  induction n with
  | zero => simp [crossings]
  | succ n ih =>
    rw [crossings_succ, ih]
    have h1 : (n + 1) * S / L ≤ n * S / L + 1 := by
      have : n * S / L + 1 = (n * S + L) / L := (Nat.add_div_right _ (by omega)).symm
      rw [this]
      apply Nat.div_le_div_right
      rw [Nat.add_mul, Nat.one_mul]
      omega
    have h2 : n * S / L ≤ (n + 1) * S / L := by
      apply Nat.div_le_div_right
      rw [Nat.add_mul, Nat.one_mul]
      omega
    by_cases h : n * S / L ≠ (n + 1) * S / L
    · rw [if_pos h]; omega
    · rw [if_neg h]; omega

/-- A larger interval never gives more changes of the quotient. -/
theorem crossings_antitone (n S L1 L2 : Nat) (h1 : 1 ≤ L1) (h12 : L1 ≤ L2) :
    crossings n S L2 ≤ crossings n S L1 := by
  by_cases hS : L1 ≤ S
  · rw [crossings_small n S L1 h1 hS]
    exact crossings_le n S L2
  · rw [crossings_large n S L1 h1 (by omega), crossings_large n S L2 (by omega) (by omega)]
    exact Nat.div_le_div_left h12 (by omega)

theorem int_range_from_eq_map :
    ∀ (m : Nat) (lo : Int), int_range_from lo m = (List.range m).map (fun i : Nat => lo + i) := by
  intro m
  induction m with
  | zero => intro lo; rfl
  | succ m ih =>
    intro lo
    rw [int_range_from, ih, List.range_succ_eq_map, List.map_cons, List.map_map]
    simp only [Nat.cast_zero, add_zero, List.cons.injEq, true_and]
    apply List.map_congr_left
    intro i _
    simp only [Function.comp, Nat.cast_succ]
    ring

theorem range_mul_flatMap (w : Nat) :
    ∀ m : Nat, (List.range m).flatMap (fun i => (List.range w).map (fun j => i * w + j))
      = List.range (m * w) := by
  intro m
  induction m with
  | zero => simp
  | succ m ih =>
    rw [List.range_succ, List.flatMap_append, ih, Nat.succ_mul, List.range_add]
    simp

/-- In loop order the slices have the positions `0, 1, ..., n - 1`. -/
theorem slices_map_index (r : Ranges) (hb : r.b_min ≤ r.b_max) :
    r.slices.map r.slice_index = List.range r.slices.length := by
  rw [length_slices]
  unfold Ranges.slices int_range
  rw [length_int_range_from, length_int_range_from, int_range_from_eq_map,
    int_range_from_eq_map, ← range_mul_flatMap]
  rw [List.map_flatMap, List.flatMap_map]
  apply List.flatMap_congr
  intro i _
  rw [List.map_map, List.map_map]
  apply List.map_congr_left
  intro j hj
  rw [List.mem_range] at hj
  simp only [Function.comp, Ranges.slice_index]
  have hw : r.b_max - r.b_min + 1 = (((r.b_max - r.b_min + 1).toNat : Nat) : Int) := by omega
  have e1 : r.a_min + (i : Int) - r.a_min = i := by ring
  have e2 : r.b_min + (j : Int) - r.b_min = j := by ring
  rw [e1, e2, hw]
  have : ((i : Int) * ((r.b_max - r.b_min + 1).toNat : Int) + (j : Int))
      = ((i * (r.b_max - r.b_min + 1).toNat + j : Nat) : Int) := by push_cast; ring
  rw [this, Int.toNat_ofNat]
  simp only [Int.toNat_ofNat]

/-- The slices of validated ranges, times the slice size, make up the count. -/
theorem slices_length_mul (r : Ranges) (hv : r.Valid) :
    (r.slices.length : Int) * r.slice_size = r.count := by
  have h := length_tuples r hv
  unfold Ranges.tuples at h
  rw [length_flatMap_const _ _ _ (fun ab _ => length_slice_tuples r ab)] at h
  push_cast at h
  rw [← h]
  have := Parallel.length_slice_tuples_eq r (0, 0) hv.2.2.1 hv.2.2.2
  rw [length_slice_tuples] at this
  push_cast at this
  rw [← this]

theorem slice_size_pos (r : Ranges) (hv : r.Valid) : 1 ≤ r.slice_size := by
  obtain ⟨_, _, ⟨_, hc⟩, ⟨_, hd⟩⟩ := hv
  unfold Ranges.slice_size
  have h1 : 1 ≤ r.c_max - r.c_min + 1 := by omega
  have h2 : 1 ≤ r.d_max - r.d_min + 1 := by omega
  nlinarith

/-- When the count fits in 64 bits, `batch_start_pos` of a slice is its
position times the slice size, and the next position times the slice size
still fits. -/
theorem batch_start_pos_eq (r : Ranges) (hv : r.Valid) (hr : r.InRange)
    (hfit : r.count ≤ 9223372036854775807) (ab : Int × Int) (hab : ab ∈ r.slices) :
    Parallel.batch_start_pos r ab.1 ab.2 = (r.slice_index ab : Int) * r.slice_size ∧
    ((r.slice_index ab : Int) + 1) * r.slice_size ≤ 9223372036854775807 := by
  have hS := slice_size_pos r hv
  have hmem := (mem_slices r ab).1 hab
  obtain ⟨⟨ha1, ha2⟩, ⟨hb1, hb2⟩, ⟨hc1, hc2⟩, ⟨hd1, hd2⟩⟩ := hv
  obtain ⟨_, ⟨_, hia⟩, _, ⟨_, hib⟩, _, ⟨_, hic⟩, _, ⟨_, hid⟩⟩ := hr
  obtain ⟨⟨hm1, hm2⟩, ⟨hm3, hm4⟩⟩ := hmem
  have wb : wrap32 (wrap32 (r.b_max - r.b_min) + 1) = r.b_max - r.b_min + 1 := by
    rw [wrap32_eq_self (x := r.b_max - r.b_min) (by omega) (by omega),
      wrap32_eq_self (by omega) (by omega)]
  have wc : wrap32 (wrap32 (r.c_max - r.c_min) + 1) = r.c_max - r.c_min + 1 := by
    rw [wrap32_eq_self (x := r.c_max - r.c_min) (by omega) (by omega),
      wrap32_eq_self (by omega) (by omega)]
  have wd : wrap32 (wrap32 (r.d_max - r.d_min) + 1) = r.d_max - r.d_min + 1 := by
    rw [wrap32_eq_self (x := r.d_max - r.d_min) (by omega) (by omega),
      wrap32_eq_self (by omega) (by omega)]
  have wi : wrap32 (ab.1 - r.a_min) = ab.1 - r.a_min := wrap32_eq_self (by omega) (by omega)
  have wj : wrap32 (ab.2 - r.b_min) = ab.2 - r.b_min := wrap32_eq_self (by omega) (by omega)
  unfold Parallel.batch_start_pos
  rw [wb, wc, wd, wi, wj]
  unfold Ranges.count at hfit
  unfold Ranges.slice_size at hS ⊢
  unfold Ranges.slice_index
  generalize hi : ab.1 - r.a_min = i at *
  generalize hj : ab.2 - r.b_min = j at *
  generalize hwa : r.a_max - r.a_min + 1 = A at *
  generalize hwb : r.b_max - r.b_min + 1 = B at *
  generalize hwc : r.c_max - r.c_min + 1 = C at *
  generalize hwd : r.d_max - r.d_min + 1 = D at *
  have hi0 : 0 ≤ i := by omega
  have hj0 : 0 ≤ j := by omega
  have hiA : i + 1 ≤ A := by omega
  have hjB : j + 1 ≤ B := by omega
  have hC : 1 ≤ C := by omega
  have hD : 1 ≤ D := by omega
  have hB : 1 ≤ B := by omega
  have hib0 : 0 ≤ i * B := mul_nonneg hi0 (by omega)
  have hk0 : 0 ≤ i * B + j := by omega
  have hk1 : i * B + j + 1 ≤ A * B := by
    have h := mul_nonneg (by linarith : 0 ≤ A - 1 - i) (by linarith : 0 ≤ B)
    have e : (A - 1 - i) * B = A * B - B - i * B := by ring
    linarith
  have hkC0 : 0 ≤ (i * B + j) * C := mul_nonneg hk0 (by linarith)
  have hCD : 1 ≤ C * D := by
    have h := mul_nonneg (by linarith : 0 ≤ C - 1) (by linarith : 0 ≤ D - 1)
    have e : (C - 1) * (D - 1) = C * D - C - D + 1 := by ring
    linarith
  have hfull : (i * B + j + 1) * (C * D) ≤ A * B * C * D := by
    have := mul_le_mul_of_nonneg_right hk1 (by linarith : 0 ≤ C * D)
    calc (i * B + j + 1) * (C * D) ≤ A * B * (C * D) := this
      _ = A * B * C * D := by ring
  have hkCD : (i * B + j) * C * D ≤ (i * B + j + 1) * (C * D) := by
    have e : (i * B + j + 1) * (C * D) = (i * B + j) * C * D + C * D := by ring
    linarith
  have hkC : (i * B + j) * C ≤ (i * B + j) * C * D := by
    have h := mul_nonneg hkC0 (by linarith : 0 ≤ D - 1)
    have e : (i * B + j) * C * (D - 1) = (i * B + j) * C * D - (i * B + j) * C := by ring
    linarith
  have hkk : i * B + j ≤ (i * B + j) * C := by
    have h := mul_nonneg hk0 (by linarith : 0 ≤ C - 1)
    have e : (i * B + j) * (C - 1) = (i * B + j) * C - (i * B + j) := by ring
    linarith
  have hkCD0 : 0 ≤ (i * B + j) * C * D := mul_nonneg hkC0 (by linarith)
  have e1 : wrap64 (i * B) = i * B := wrap64_eq_self (by linarith) (by linarith)
  have e2 : wrap64 (i * B + j) = i * B + j := wrap64_eq_self (by linarith) (by linarith)
  have e3 : wrap64 ((i * B + j) * C) = (i * B + j) * C :=
    wrap64_eq_self (by linarith) (by linarith)
  have e4 : wrap64 ((i * B + j) * C * D) = (i * B + j) * C * D :=
    wrap64_eq_self (by linarith) (by linarith)
  rw [e1, e2, e3, e4, Int.toNat_of_nonneg hk0]
  constructor
  · ring
  · linarith

/-- When the count fits in 64 bits and `L ≥ 1`, a slice prints a progress
line exactly when the quotient by `L` changes over it. -/
theorem reports_eq_crossing (r : Ranges) (hv : r.Valid) (hr : r.InRange)
    (hfit : r.count ≤ 9223372036854775807) (L : Int) (hL : 1 ≤ L) (ab : Int × Int)
    (hab : ab ∈ r.slices) :
    Parallel.reports r L r.slice_size ab
      = decide (r.slice_index ab * r.slice_size.toNat / L.toNat
          ≠ (r.slice_index ab + 1) * r.slice_size.toNat / L.toNat) := by
  have hS := slice_size_pos r hv
  obtain ⟨hb, hnext⟩ := batch_start_pos_eq r hv hr hfit ab hab
  unfold Parallel.reports
  rw [hb]
  obtain ⟨S, hSn⟩ := Int.eq_ofNat_of_zero_le (by omega : 0 ≤ r.slice_size)
  obtain ⟨Ln, hLn⟩ := Int.eq_ofNat_of_zero_le (by omega : 0 ≤ L)
  rw [hSn] at hnext hS ⊢
  rw [hLn]
  simp only [Int.toNat_ofNat]
  have hk0 : (0 : Int) ≤ (r.slice_index ab : Int) * (S : Int) :=
    mul_nonneg (Int.ofNat_nonneg _) (Int.ofNat_nonneg _)
  have e : ((r.slice_index ab : Int) + 1) * (S : Int)
      = (r.slice_index ab : Int) * (S : Int) + (S : Int) := by ring
  have hw : wrap64 ((r.slice_index ab : Int) * (S : Int) + (S : Int))
      = ((r.slice_index ab : Int) + 1) * (S : Int) := by
    rw [wrap64_eq_self (by linarith) (by linarith), e]
  rw [hw, Int.tdiv_eq_ediv hk0 (Int.ofNat_nonneg _),
    Int.tdiv_eq_ediv (by linarith) (Int.ofNat_nonneg _)]
  have c1 : (r.slice_index ab : Int) * (S : Int) / (Ln : Int)
      = ((r.slice_index ab * S / Ln : Nat) : Int) := by push_cast; rfl
  have c2 : ((r.slice_index ab : Int) + 1) * (S : Int) / (Ln : Int)
      = (((r.slice_index ab + 1) * S / Ln : Nat) : Int) := by push_cast; rfl
  rw [c1, c2, decide_eq_decide]
  exact not_congr Nat.cast_inj

/-- When the count fits in 64 bits and `L ≥ 1`, the number of slices that
print a progress line is the number of changes of the quotient by `L`. -/
theorem count_reports (r : Ranges) (hv : r.Valid) (hr : r.InRange)
    (hfit : r.count ≤ 9223372036854775807) (L : Int) (hL : 1 ≤ L) :
    (r.slices.filter (Parallel.reports r L r.slice_size)).length
      = crossings r.slices.length r.slice_size.toNat L.toNat := by
  have hcongr : r.slices.filter (Parallel.reports r L r.slice_size)
      = r.slices.filter ((fun k => decide (k * r.slice_size.toNat / L.toNat
          ≠ (k + 1) * r.slice_size.toNat / L.toNat)) ∘ r.slice_index) := by
    apply List.filter_congr
    intro ab hab
    rw [reports_eq_crossing r hv hr hfit L hL ab hab]
    rfl
  unfold crossings
  rw [hcongr, ← slices_map_index r hv.2.1.2, List.filter_map, List.length_map]

theorem run_list_append {α σ : Type} (body : α → σ → Option σ) (l1 l2 : List α) :
    ∀ s : σ, run_list body (l1 ++ l2) s = (run_list body l1 s).bind (run_list body l2) := by
  induction l1 with
  | nil => intro s; rfl
  | cons x xs ih =>
    intro s
    simp only [List.cons_append, run_list]
    cases body x s with
    | none => rfl
    | some s' => exact ih s'

namespace Parallel

/-- The state the instrumented mode leaves after a list of at most as many
slices as the ranges have, when the combination count fits in 64 bits:
`global_checked` is the number of slices times the slice size, and every
printed figure lies between 0 and `global_checked`. -/
theorem instrumented_state (T : PrimeTable) (fuel : Nat) (r : Ranges) (L : Int) (hv : r.Valid)
    (hr : r.InRange) (hfit : r.count ≤ 9223372036854775807) (l : List (Int × Int))
    (hl : l.length ≤ r.slices.length) (s : State)
    (h : instrumented T fuel r L l State.start = some s) :
    s.global_checked = (l.length : Int) * r.slice_size ∧
    ∀ v ∈ s.progress, 0 ≤ v ∧ v ≤ s.global_checked := by
  have hS := slice_size_pos r hv
  have hcount := slices_length_mul r hv
  by_cases hg : (r.c_max < 2147483647 ∧ r.c_max - r.c_min + 1 < fuel) ∧
      (r.d_max < 2147483647 ∧ r.d_max - r.d_min + 1 < fuel)
  · have hle : ((l.length : Int)) * r.slice_size ≤ 9223372036854775807 := by
      have h1 : ((l.length : Int)) ≤ r.slices.length := by exact_mod_cast hl
      have h2 := mul_le_mul_of_nonneg_right h1 (by omega : (0 : Int) ≤ r.slice_size)
      omega
    obtain ⟨s', hs', hgc, hp⟩ := instrumented_run T fuel r L hv.2.2.1 hv.2.2.2 hg.1 hg.2 l
      State.start (by rw [start_global_checked])
      (by rw [start_global_checked, zero_add]; exact hle)
      (by
        intro v hv'
        have hnil : State.start.progress = [] := rfl
        rw [hnil] at hv'
        cases hv')
    rw [h] at hs'
    cases hs'
    rw [start_global_checked, zero_add] at hgc
    exact ⟨hgc, hp⟩
  · obtain ⟨_, _, _, _, _, ⟨_, hic⟩, _, ⟨_, hid⟩⟩ := hr
    cases l with
    | nil =>
      unfold instrumented at h
      simp only [run_list] at h
      cases h
      refine ⟨by rw [start_global_checked]; simp, ?_⟩
      intro v hv'
      have hnil : State.start.progress = [] := rfl
      rw [hnil] at hv'
      cases hv'
    | cons ab rest =>
      rw [instrumented_bad T fuel r L hv.2.2.1 hv.2.2.2 hic hid hg (ab :: rest)
        (List.cons_ne_nil _ _)] at h
      cases h

end Parallel

/-- An integer above `k ≥ 2` that `k` divides is not prime. -/
theorem int_not_prime_of_dvd (n k : Int) (hk : 2 ≤ k) (hlt : k < n) (hd : k ∣ n) :
    ¬ Nat.Prime n.toNat := by
  intro hp
  have hdn : k.toNat ∣ n.toNat := by
    apply Int.natCast_dvd_natCast.1
    rw [Int.toNat_of_nonneg (by omega), Int.toNat_of_nonneg (by omega)]
    exact hd
  rcases (Nat.dvd_prime hp).1 hdn with h' | h' <;> omega

/-- A true `check_cube` of the parallel engine on an initialised table and
32-bit fields: the guards hold and all 27 exact combinations are prime. -/
theorem Parallel.check_cube_all_prime {T : Parallel.PrimeTable} (hT : Parallel.Initialized T)
    (p : Params) (hp : p.InRange) (h : Parallel.check_cube T p = true) :
    Canonical p ∧ AllCombinationsPrime p := by
  unfold Parallel.check_cube at h
  obtain ⟨hc, _, hall⟩ := (check_cube_run_true _ p).1 h
  refine ⟨hc, ?_⟩
  intro i j k hi hj hk
  have hmem := (mem_CUBE_CHECK_ORDER i j k).2 ⟨hi, hj, hk⟩
  have hv := hall _ hmem
  rw [cube_value_exact p hp i j k hi hj hk, Parallel.par_is_prime_spec hT] at hv
  exact (of_decide_eq_true hv).2.2

/-- The shape of a tuple all of whose 27 combinations are prime: `a` is an odd
prime, at least 5, and `b`, `c`, `d` are multiples of 6. -/
theorem all_prime_shape (p : Params) (hc : Canonical p) (h : AllCombinationsPrime p) :
    (Nat.Prime p.a.toNat ∧ p.a % 2 = 1 ∧ 5 ≤ p.a) ∧ 6 ∣ p.b ∧ 6 ∣ p.c ∧ 6 ∣ p.d := by
  obtain ⟨ha, hb, hc', hd, _, _⟩ := hc
  have o0 : ∀ x : Int, x = 0 → (x = 0 ∨ x = 1 ∨ x = 2) := fun _ hx => Or.inl hx
  have o1 : ∀ x : Int, x = 1 → (x = 0 ∨ x = 1 ∨ x = 2) := fun _ hx => Or.inr (Or.inl hx)
  have o2 : ∀ x : Int, x = 2 → (x = 0 ∨ x = 1 ∨ x = 2) := fun _ hx => Or.inr (Or.inr hx)
  have h000 := h 0 0 0 (o0 _ rfl) (o0 _ rfl) (o0 _ rfl)
  have h100 := h 1 0 0 (o1 _ rfl) (o0 _ rfl) (o0 _ rfl)
  have h200 := h 2 0 0 (o2 _ rfl) (o0 _ rfl) (o0 _ rfl)
  have h010 := h 0 1 0 (o0 _ rfl) (o1 _ rfl) (o0 _ rfl)
  have h020 := h 0 2 0 (o0 _ rfl) (o2 _ rfl) (o0 _ rfl)
  have h001 := h 0 0 1 (o0 _ rfl) (o0 _ rfl) (o1 _ rfl)
  have h002 := h 0 0 2 (o0 _ rfl) (o0 _ rfl) (o2 _ rfl)
  have h110 := h 1 1 0 (o1 _ rfl) (o1 _ rfl) (o0 _ rfl)
  have h120 := h 1 2 0 (o1 _ rfl) (o2 _ rfl) (o0 _ rfl)
  simp only [mul_zero, mul_one, add_zero] at h000 h100 h200 h010 h020 h001 h002 h110 h120
  -- a ≠ 2 : otherwise a + 2 b is even and above 2
  have ha2 : p.a % 2 = 1 := by
    by_contra hcon
    have hev : p.a % 2 = 0 := by omega
    have htwo : p.a = 2 := by
      by_contra hne
      exact int_not_prime_of_dvd p.a 2 (by omega) (by omega)
        (Int.dvd_of_emod_eq_zero hev) h000
    exact int_not_prime_of_dvd (p.a + p.b * 2) 2 (by omega) (by omega)
      (Int.dvd_of_emod_eq_zero (by omega)) h200
  have hage : 2 ≤ p.a := by
    have := h000.two_le
    omega
  -- a ≠ 3 : otherwise one of 3 + b, 3 + c, 3 + b + c, 3 + b + 2 c is a multiple of 3 above 3
  have ha3 : p.a % 3 ≠ 0 := by
    intro hz
    have hthree : p.a = 3 := by
      by_contra hne
      exact int_not_prime_of_dvd p.a 3 (by omega) (by omega)
        (Int.dvd_of_emod_eq_zero hz) h000
    by_cases hb3 : p.b % 3 = 0
    · exact int_not_prime_of_dvd (p.a + p.b) 3 (by omega) (by omega)
        (Int.dvd_of_emod_eq_zero (by omega)) h100
    by_cases hc3 : p.c % 3 = 0
    · exact int_not_prime_of_dvd (p.a + p.c) 3 (by omega) (by omega)
        (Int.dvd_of_emod_eq_zero (by omega)) h010
    have rb : p.b % 3 = 1 ∨ p.b % 3 = 2 := by omega
    have rc : p.c % 3 = 1 ∨ p.c % 3 = 2 := by omega
    by_cases hbc : (p.b + p.c) % 3 = 0
    · exact int_not_prime_of_dvd (p.a + p.b + p.c) 3 (by omega) (by omega)
        (Int.dvd_of_emod_eq_zero (by omega)) h110
    · refine int_not_prime_of_dvd (p.a + p.b + p.c * 2) 3 (by omega) (by omega)
        (Int.dvd_of_emod_eq_zero ?_) h120
      rcases rb with rb | rb <;> rcases rc with rc | rc <;> omega
  have key : ∀ x : Int, 1 ≤ x → Nat.Prime (p.a + x).toNat → Nat.Prime (p.a + x * 2).toNat →
      6 ∣ x := by
    intro x hx p1 p2
    have e2 : x % 2 = 0 := by
      by_contra hcon
      exact int_not_prime_of_dvd (p.a + x) 2 (by omega) (by omega)
        (Int.dvd_of_emod_eq_zero (by omega)) p1
    have e3 : x % 3 = 0 := by
      by_contra hcon
      have rx : x % 3 = 1 ∨ x % 3 = 2 := by omega
      have ra : p.a % 3 = 1 ∨ p.a % 3 = 2 := by omega
      by_cases hs : (p.a + x) % 3 = 0
      · exact int_not_prime_of_dvd (p.a + x) 3 (by omega) (by omega)
          (Int.dvd_of_emod_eq_zero hs) p1
      · refine int_not_prime_of_dvd (p.a + x * 2) 3 (by omega) (by omega)
          (Int.dvd_of_emod_eq_zero ?_) p2
        rcases rx with rx | rx <;> rcases ra with ra | ra <;> omega
    exact Int.dvd_of_emod_eq_zero (by omega)
  exact ⟨⟨h000, ha2, by omega⟩, key p.b hb h100 h200, key p.c hc' h010 h020,
    key p.d hd h001 h002⟩

/-- A tuple of validated 32-bit ranges has 32-bit fields. -/
theorem Ranges.tuple_in_range (r : Ranges) (hv : r.Valid) (hr : r.InRange) (p : Params)
    (hp : p ∈ r.tuples) : p.InRange := by
  obtain ⟨⟨a1, a2⟩, ⟨b1, b2⟩, ⟨c1, c2⟩, ⟨d1, d2⟩⟩ := (mem_tuples r p).1 hp
  obtain ⟨⟨ha1, ha2⟩, ⟨hb1, hb2⟩, ⟨hc1, hc2⟩, ⟨hd1, hd2⟩⟩ := hv
  unfold Ranges.InRange InInt32 at hr
  unfold Params.InRange InInt32
  omega

/-- No tuple of validated 32-bit ranges with `d_max < 6` passes `check_cube`,
in either engine. -/
theorem no_match_below_6 (r : Ranges) (hv : r.Valid) (hr : r.InRange) (hd : r.d_max < 6)
    (T : Parallel.PrimeTable) (hT : Parallel.Initialized T) (l : List Params)
    (hl : ∀ p ∈ l, p ∈ r.tuples) :
    l.filter Sequential.check_cube = [] ∧ l.filter (Parallel.check_cube T) = [] := by
  have hsmall : ∀ p ∈ l, Canonical p → AllCombinationsPrime p → False := by
    intro p hp hc hall
    have hdle := ((mem_tuples r p).1 (hl p hp)).2.2.2.2
    have h6 := (all_prime_shape p hc hall).2.2.2
    have h1 := hc.2.2.2.1
    omega
  constructor
  · rw [List.filter_eq_nil_iff]
    intro p hp hcc
    obtain ⟨hc, hall⟩ := (Sequential.check_cube_spec p
      (Ranges.tuple_in_range r hv hr p (hl p hp))).1 hcc
    exact hsmall p hp hc hall
  · rw [List.filter_eq_nil_iff]
    intro p hp hcc
    obtain ⟨hc, hall⟩ := Parallel.check_cube_all_prime hT p
      (Ranges.tuple_in_range r hv hr p (hl p hp)) hcc
    exact hsmall p hp hc hall

namespace Sequential

/-- The argument loop of the sequential `main` returns only at `--help`, with
code 0. -/
theorem seq_parse_args_error : ∀ (n : Nat) (args : List Arg) (o : Options) (c : Int),
    args.length ≤ n → parse_args args o = Except.error c →
    c = 0 ∧ ∃ x ∈ args, x.text = "--help" := by
  intro n
  induction n with
  | zero =>
    intro args o c hl h
    have hnil : args = [] := List.length_eq_zero.1 (by omega)
    subst hnil
    simp only [parse_args] at h
    cases h
  | succ n ih =>
    intro args o c hl h
    cases args with
    | nil => simp only [parse_args] at h; cases h
    | cons x rest =>
      have hlr : rest.length ≤ n := by simpa using hl
      have up : ∀ (l : List Arg) (o1 : Options), l.length ≤ n →
          (∀ y ∈ l, y ∈ rest) → parse_args l o1 = Except.error c →
          c = 0 ∧ ∃ y ∈ x :: rest, y.text = "--help" := by
        intro l o1 hl1 hsub h1
        obtain ⟨hc, y, hy, hyt⟩ := ih l o1 c hl1 h1
        exact ⟨hc, y, List.mem_cons_of_mem _ (hsub y hy), hyt⟩
      by_cases hh : x.text = "--help"
      · rw [parse_args.eq_def] at h
        simp only [if_pos hh] at h
        cases h
        exact ⟨rfl, x, List.mem_cons_self _ _, hh⟩
      by_cases hp : x.text = "--no-progress"
      · rw [parse_args.eq_def] at h
        simp only [if_neg hh, if_pos hp] at h
        exact up rest _ hlr (fun _ hy => hy) h
      cases rest with
      | nil => simp only [parse_args, if_neg hh, if_neg hp] at h; cases h
      | cons v rest1 =>
        cases rest1 with
        | nil =>
          simp only [parse_args, if_neg hh, if_neg hp] at h
          exact up [v] _ hlr (fun _ hy => hy) h
        | cons w rest2 =>
          have hl2 : rest2.length ≤ n := by
            simp only [List.length_cons] at hlr
            omega
          have hsub2 : ∀ y ∈ rest2, y ∈ v :: w :: rest2 := fun y hy =>
            List.mem_cons_of_mem _ (List.mem_cons_of_mem _ hy)
          simp only [parse_args, if_neg hh, if_neg hp] at h
          split at h
          · exact up rest2 _ hl2 hsub2 h
          split at h
          · exact up rest2 _ hl2 hsub2 h
          split at h
          · exact up rest2 _ hl2 hsub2 h
          split at h
          · exact up rest2 _ hl2 hsub2 h
          · exact up (v :: w :: rest2) _ hlr (fun _ hy => hy) h

end Sequential

namespace Parallel

/-- The argument loop of the parallel `main` returns only at `--help`, with
code 0, or at a `--log-interval` or `--workers` option followed by a value
below 1, with code 1. -/
theorem par_parse_args_error : ∀ (n : Nat) (args : List Arg) (o : Options) (c : Int),
    args.length ≤ n → parse_args args o = Except.error c →
    (c = 0 ∧ ∃ x ∈ args, x.text = "--help") ∨
    (c = 1 ∧ ∃ x v, [x, v] <:+: args ∧
      ((x.text = "--log-interval" ∧ v.atoll < 1) ∨ (x.text = "--workers" ∧ v.atoi < 1))) := by
  intro n
  induction n with
  | zero =>
    intro args o c hl h
    have hnil : args = [] := List.length_eq_zero.1 (by omega)
    subst hnil
    simp only [parse_args] at h
    cases h
  | succ n ih =>
    intro args o c hl h
    cases args with
    | nil => simp only [parse_args] at h; cases h
    | cons x rest =>
      have hlr : rest.length ≤ n := by simpa using hl
      have up : ∀ (l : List Arg) (o1 : Options), l.length ≤ n →
          l <:+: x :: rest → parse_args l o1 = Except.error c →
          (c = 0 ∧ ∃ y ∈ x :: rest, y.text = "--help") ∨
          (c = 1 ∧ ∃ y v, [y, v] <:+: x :: rest ∧
            ((y.text = "--log-interval" ∧ v.atoll < 1) ∨
              (y.text = "--workers" ∧ v.atoi < 1))) := by
        intro l o1 hl1 hsub h1
        rcases ih l o1 c hl1 h1 with ⟨hc, y, hy, hyt⟩ | ⟨hc, y, v, hin, hyv⟩
        · exact Or.inl ⟨hc, y, hsub.subset hy, hyt⟩
        · exact Or.inr ⟨hc, y, v, hin.trans hsub, hyv⟩
      have s1 : rest <:+: x :: rest := (List.suffix_cons x rest).isInfix
      by_cases hh : x.text = "--help"
      · rw [parse_args.eq_def] at h
        simp only [if_pos hh] at h
        cases h
        exact Or.inl ⟨rfl, x, List.mem_cons_self _ _, hh⟩
      by_cases hp : x.text = "--no-progress"
      · rw [parse_args.eq_def] at h
        simp only [if_neg hh, if_pos hp] at h
        exact up rest _ hlr s1 h
      cases rest with
      | nil => simp only [parse_args, if_neg hh, if_neg hp] at h; cases h
      | cons v rest1 =>
        have hl1 : rest1.length ≤ n := by
          simp only [List.length_cons] at hlr
          omega
        have s2 : rest1 <:+: x :: v :: rest1 :=
          ((List.suffix_cons v rest1).trans (List.suffix_cons x (v :: rest1))).isInfix
        have pre : [x, v] <:+: x :: v :: rest1 := (List.prefix_append [x, v] rest1).isInfix
        by_cases hli : x.text = "--log-interval"
        · rw [parse_args.eq_def] at h
          simp only [if_neg hh, if_neg hp, if_pos hli] at h
          split at h
          · rename_i hlt
            cases h
            exact Or.inr ⟨rfl, x, v, pre, Or.inl ⟨hli, hlt⟩⟩
          · exact up rest1 _ hl1 s2 h
        by_cases hw : x.text = "--workers"
        · rw [parse_args.eq_def] at h
          simp only [if_neg hh, if_neg hp, if_neg hli, if_pos hw] at h
          split at h
          · rename_i hlt
            cases h
            exact Or.inr ⟨rfl, x, v, pre, Or.inr ⟨hw, hlt⟩⟩
          · exact up rest1 _ hl1 s2 h
        cases rest1 with
        | nil =>
          simp only [parse_args, if_neg hh, if_neg hp, if_neg hli, if_neg hw] at h
          exact up [v] _ hlr s1 h
        | cons w rest2 =>
          have hl2 : rest2.length ≤ n := by
            simp only [List.length_cons] at hl1
            omega
          have s3 : rest2 <:+: x :: v :: w :: rest2 :=
            (((List.suffix_cons w rest2).trans (List.suffix_cons v (w :: rest2))).trans
              (List.suffix_cons x (v :: w :: rest2))).isInfix
          simp only [parse_args, if_neg hh, if_neg hp, if_neg hli, if_neg hw] at h
          split at h
          · exact up rest2 _ hl2 s3 h
          split at h
          · exact up rest2 _ hl2 s3 h
          split at h
          · exact up rest2 _ hl2 s3 h
          split at h
          · exact up rest2 _ hl2 s3 h
          · exact up (v :: w :: rest2) _ hlr s1 h

/-- When the argument loop of the parallel `main` ends, `log_interval ≥ 1`
holds if it held before. -/
theorem parse_args_log_interval : ∀ (n : Nat) (args : List Arg) (o o' : Options),
    args.length ≤ n → 1 ≤ o.log_interval → parse_args args o = Except.ok o' →
    1 ≤ o'.log_interval := by
  intro n
  induction n with
  | zero =>
    intro args o o' hl h1 h
    have hnil : args = [] := List.length_eq_zero.1 (by omega)
    subst hnil
    simp only [parse_args] at h
    cases h
    exact h1
  | succ n ih =>
    intro args o o' hl h1 h
    cases args with
    | nil => simp only [parse_args] at h; cases h; exact h1
    | cons x rest =>
      have hlr : rest.length ≤ n := by simpa using hl
      by_cases hh : x.text = "--help"
      · rw [parse_args.eq_def] at h
        simp only [if_pos hh] at h
        cases h
      by_cases hp : x.text = "--no-progress"
      · rw [parse_args.eq_def] at h
        simp only [if_neg hh, if_pos hp] at h
        exact ih rest _ o' hlr (by exact h1) h
      cases rest with
      | nil => simp only [parse_args, if_neg hh, if_neg hp] at h; cases h; exact h1
      | cons v rest1 =>
        have hl1 : rest1.length ≤ n := by
          simp only [List.length_cons] at hlr
          omega
        by_cases hli : x.text = "--log-interval"
        · rw [parse_args.eq_def] at h
          simp only [if_neg hh, if_neg hp, if_pos hli] at h
          split at h
          · cases h
          · rename_i hge
            exact ih rest1 _ o' hl1 (by show 1 ≤ v.atoll; omega) h
        by_cases hw : x.text = "--workers"
        · rw [parse_args.eq_def] at h
          simp only [if_neg hh, if_neg hp, if_neg hli, if_pos hw] at h
          split at h
          · cases h
          · exact ih rest1 _ o' hl1 (by exact h1) h
        cases rest1 with
        | nil =>
          simp only [parse_args, if_neg hh, if_neg hp, if_neg hli, if_neg hw] at h
          exact ih [v] _ o' hlr (by exact h1) h
        | cons w rest2 =>
          have hl2 : rest2.length ≤ n := by
            simp only [List.length_cons] at hl1
            omega
          simp only [parse_args, if_neg hh, if_neg hp, if_neg hli, if_neg hw] at h
          split at h
          · exact ih rest2 _ o' hl2 (by exact h1) h
          split at h
          · exact ih rest2 _ o' hl2 (by exact h1) h
          split at h
          · exact ih rest2 _ o' hl2 (by exact h1) h
          split at h
          · exact ih rest2 _ o' hl2 (by exact h1) h
          · exact ih (v :: w :: rest2) _ o' hlr (by exact h1) h

end Parallel

/-- The refused ranges are those that are not valid. -/
theorem Ranges.invalid_iff (r : Ranges) : r.Invalid ↔ ¬ r.Valid := by
  unfold Ranges.Invalid Ranges.Valid
  omega

theorem range_error_invalid (r : Ranges) (h : r.Invalid) : range_error r = some 1 := by
  unfold range_error
  by_cases h1 : r.a_min > r.a_max ∨ r.b_min > r.b_max ∨ r.c_min > r.c_max ∨ r.d_min > r.d_max
  · rw [if_pos h1]
  · rw [if_neg h1, if_pos (by rcases h with h' | h'; exact absurd h' h1; exact h')]

/-- The part of the sequential `main` after the argument loop returns early
exactly on refused ranges, with code 1. -/
theorem Sequential.seq_main_after_args_error (fuel : Nat) (r : Ranges) (code : Int) :
    Sequential.main_after_args fuel r = some (Except.error code) ↔ code = 1 ∧ r.Invalid := by
  constructor
  · intro h
    have hinv : r.Invalid := by
      rw [Ranges.invalid_iff]
      intro hv
      exact Sequential.seq_main_ne_error fuel r hv code h
    unfold Sequential.main_after_args at h
    rw [range_error_invalid r hinv] at h
    simp only [Option.some.injEq, Except.error.injEq] at h
    exact ⟨h.symm, hinv⟩
  · rintro ⟨rfl, hinv⟩
    unfold Sequential.main_after_args
    rw [range_error_invalid r hinv]

/-- The part of the parallel `main` after the argument loop returns early
exactly on refused ranges, with code 1. -/
theorem Parallel.par_main_after_args_error (fuel : Nat) (r : Ranges) (L : Int) (sp : Bool)
    (sched2 : List (Int × Int)) (sched4 : List Params) (code : Int) :
    Parallel.main_after_args fuel r L sp sched2 sched4 = some (Except.error code) ↔
      code = 1 ∧ r.Invalid := by
  constructor
  · intro h
    have hinv : r.Invalid := by
      rw [Ranges.invalid_iff]
      intro hv
      exact Parallel.par_main_ne_error fuel r hv L sp sched2 sched4 code h
    unfold Parallel.main_after_args at h
    rw [range_error_invalid r hinv] at h
    simp only [Option.some.injEq, Except.error.injEq] at h
    exact ⟨h.symm, hinv⟩
  · rintro ⟨rfl, hinv⟩
    unfold Parallel.main_after_args
    rw [range_error_invalid r hinv]

/-- When its argument loop ends, the sequential `main` is `main_after_args` on
the parsed ranges. -/
theorem Sequential.seq_main_of_parse_args (fuel : Nat) (args : List Arg) (o : Sequential.Options)
    (h : Sequential.parse_args args Sequential.Options.defaults = Except.ok o) :
    Sequential.main fuel args = Sequential.main_after_args fuel o.ranges := by
  unfold Sequential.main
  rw [h]

/-- When its argument loop ends, the parallel `main` is `main_after_args` on
the parsed options, and `log_interval ≥ 1`. -/
theorem Parallel.par_main_of_parse_args (fuel : Nat) (args : List Arg) (o : Parallel.Options)
    (sched2 : List (Int × Int)) (sched4 : List Params)
    (h : Parallel.parse_args args Parallel.Options.defaults = Except.ok o) :
    Parallel.main fuel args sched2 sched4
      = Parallel.main_after_args fuel o.ranges o.log_interval o.show_progress sched2 sched4 ∧
    1 ≤ o.log_interval := by
  refine ⟨?_, Parallel.parse_args_log_interval _ args _ o (le_refl _) (by decide) h⟩
  unfold Parallel.main
  rw [h]

/-! ## The claims -/

/-- C1: for every integer `n` with `0 ≤ n ≤ 70000`, the parallel engine's
table lookup `is_prime(n)`, on any table left by `init_prime_hash_set` (which
returns on the start-up state), gives the same boolean as the sequential
engine's trial-division `is_prime(n)`. -/
theorem C1_table_lookup_agrees_with_trial_division (n : Int) (h0 : 0 ≤ n) (h1 : n ≤ 70000) :
    (∃ T, Parallel.init_prime_hash_set (Parallel.MAX_PRIME_CHECK + 2)
        Parallel.PrimeTable.startup = some T) ∧
      ∀ T, Parallel.Initialized T → Parallel.is_prime T n = Sequential.is_prime n := by
  refine ⟨?_, fun T hT => is_prime_agree hT n h0 h1⟩
  obtain ⟨T, hT, _⟩ :=
    Parallel.init_prime_hash_set_spec (Parallel.MAX_PRIME_CHECK + 2) (le_refl _)
  exact ⟨T, hT⟩

/-- C1 at `n = 69997`. -/
theorem C1_witness :
    (0 : Int) ≤ 69997 ∧ (69997 : Int) ≤ 70000 ∧
      Parallel.is_prime Parallel.table_after_init 69997 = Sequential.is_prime 69997 :=
  ⟨by decide, by decide,
    (C1_table_lookup_agrees_with_trial_division 69997 (by decide) (by decide)).2 _
      Parallel.table_after_init_initialized⟩

/-- C3: for every tuple of 32-bit integers the sequential `check_cube` is true
exactly when `a, b, c, d ≥ 1`, `b ≤ c ≤ d` and each of the 27 exact integers
`a + b*i + c*j + d*k`, `i, j, k ∈ {0,1,2}`, is prime; `CUBE_CHECK_ORDER` has 27
rows without repetition, which are exactly the triples over `{0,1,2}`; and
the 64-bit computation of the value of each row is exact. -/
theorem C3_sequential_check_cube_iff_all_27_prime (p : Params) (hp : p.InRange) :
    (Sequential.check_cube p = true ↔
      (1 ≤ p.a ∧ 1 ≤ p.b ∧ 1 ≤ p.c ∧ 1 ≤ p.d ∧ p.b ≤ p.c ∧ p.c ≤ p.d) ∧
      ∀ i j k : Int, (i = 0 ∨ i = 1 ∨ i = 2) → (j = 0 ∨ j = 1 ∨ j = 2) →
        (k = 0 ∨ k = 1 ∨ k = 2) → Nat.Prime (p.a + p.b * i + p.c * j + p.d * k).toNat) ∧
    CUBE_CHECK_ORDER.length = 27 ∧ CUBE_CHECK_ORDER.Nodup ∧
    (∀ i j k : Int, (i, j, k) ∈ CUBE_CHECK_ORDER ↔
      (i = 0 ∨ i = 1 ∨ i = 2) ∧ (j = 0 ∨ j = 1 ∨ j = 2) ∧ (k = 0 ∨ k = 1 ∨ k = 2)) ∧
    (∀ t ∈ CUBE_CHECK_ORDER,
      cube_value p t = p.a + p.b * t.1 + p.c * t.2.1 + p.d * t.2.2) := by
  refine ⟨Sequential.check_cube_spec p hp, CUBE_CHECK_ORDER_length, CUBE_CHECK_ORDER_nodup,
    mem_CUBE_CHECK_ORDER, ?_⟩
  rintro ⟨i, j, k⟩ ht
  obtain ⟨hi, hj, hk⟩ := (mem_CUBE_CHECK_ORDER i j k).1 ht
  exact cube_value_exact p hp i j k hi hj hk

/-- C3 at the tuple `(7, 150, 150, 150)`. -/
theorem C3_witness :
    Params.InRange { a := 7, b := 150, c := 150, d := 150 } ∧
      (Sequential.check_cube { a := 7, b := 150, c := 150, d := 150 } = true ↔
        (1 ≤ (7 : Int) ∧ 1 ≤ (150 : Int) ∧ 1 ≤ (150 : Int) ∧ 1 ≤ (150 : Int) ∧
          (150 : Int) ≤ 150 ∧ (150 : Int) ≤ 150) ∧
        ∀ i j k : Int, (i = 0 ∨ i = 1 ∨ i = 2) → (j = 0 ∨ j = 1 ∨ j = 2) →
          (k = 0 ∨ k = 1 ∨ k = 2) → Nat.Prime (7 + 150 * i + 150 * j + 150 * k).toNat) :=
  ⟨by unfold Params.InRange InInt32; decide,
    (C3_sequential_check_cube_iff_all_27_prime { a := 7, b := 150, c := 150, d := 150 }
      (by unfold Params.InRange InInt32; decide)).1⟩

/-- C4: in both engines a true `check_cube` implies `a, b, c, d ≥ 1` and
`b ≤ c ≤ d`; hence of two distinct tuples that share `a` and whose `(b, c, d)`
are permutations of each other, `check_cube` is true for at most one. -/
theorem C4_check_cube_true_only_on_canonical_tuples (T : Parallel.PrimeTable) (p q : Params) :
    (Sequential.check_cube p = true →
      1 ≤ p.a ∧ 1 ≤ p.b ∧ 1 ≤ p.c ∧ 1 ≤ p.d ∧ p.b ≤ p.c ∧ p.c ≤ p.d) ∧
    (Parallel.check_cube T p = true →
      1 ≤ p.a ∧ 1 ≤ p.b ∧ 1 ≤ p.c ∧ 1 ≤ p.d ∧ p.b ≤ p.c ∧ p.c ≤ p.d) ∧
    (p ≠ q → p.a = q.a → List.Perm [p.b, p.c, p.d] [q.b, q.c, q.d] →
      ¬ (Sequential.check_cube p = true ∧ Sequential.check_cube q = true) ∧
      ¬ (Parallel.check_cube T p = true ∧ Parallel.check_cube T q = true)) := by
  refine ⟨fun h => check_cube_run_canonical _ p h, fun h => check_cube_run_canonical _ p h, ?_⟩
  intro hne ha hperm
  constructor
  · rintro ⟨h1, h2⟩
    exact hne (canonical_perm_eq p q (check_cube_run_canonical _ p h1)
      (check_cube_run_canonical _ q h2) ha hperm)
  · rintro ⟨h1, h2⟩
    exact hne (canonical_perm_eq p q (check_cube_run_canonical _ p h1)
      (check_cube_run_canonical _ q h2) ha hperm)

/-- C5: on a table left by `init_prime_hash_set` and for every integer `n`,
the parallel `is_prime(n)` is true exactly when `0 ≤ n ≤ 70000` and `n` is
prime; it is false for `n < 0` and for `n > 70000`; the table has 70001 cells;
`is_prime(n)` reads `prime_hash_set` at no index when `n` is outside
`[0, 70000]` and at the single index `n` otherwise, so every index it reads
lies in `[0, 70000]`, inside the table, and holds the value returned. -/
theorem C5_parallel_is_prime_is_bounded_primality (T : Parallel.PrimeTable)
    (hT : Parallel.Initialized T) (n : Int) :
    (Parallel.is_prime T n = true ↔ 0 ≤ n ∧ n ≤ 70000 ∧ Nat.Prime n.toNat) ∧
    (n < 0 → Parallel.is_prime T n = false) ∧
    (n > 70000 → Parallel.is_prime T n = false) ∧
    T.prime_hash_set.length = 70001 ∧
    (Parallel.is_prime_run T n).2 = (if 0 ≤ n ∧ n ≤ 70000 then [n] else []) ∧
    (∀ i ∈ (Parallel.is_prime_run T n).2, 0 ≤ i ∧ i ≤ 70000 ∧
      i.toNat < T.prime_hash_set.length ∧
      T.prime_hash_set[i.toNat]? = some (Parallel.is_prime T n)) := by
  have hspec := Parallel.par_is_prime_spec hT n
  have hlen : T.prime_hash_set.length = 70001 := hT.table.1
  have hN : (Parallel.MAX_PRIME_CHECK : Int) = 70000 := rfl
  have hlog : (Parallel.is_prime_run T n).2 = (if 0 ≤ n ∧ n ≤ 70000 then [n] else []) := by
    rw [Parallel.is_prime_run_log, hN]
    by_cases hout : n < 0 ∨ n > 70000
    · rw [if_pos hout, if_neg (by omega)]
    · rw [if_neg hout, if_pos (by omega)]
  refine ⟨?_, ?_, ?_, hlen, hlog, ?_⟩
  · rw [hspec, decide_eq_true_iff]
  · intro h
    rw [hspec, decide_eq_false_iff_not]
    omega
  · intro h
    rw [hspec, decide_eq_false_iff_not]
    omega
  · intro i hi
    rw [hlog] at hi
    by_cases hin : 0 ≤ n ∧ n ≤ 70000
    · rw [if_pos hin, List.mem_singleton] at hi
      subst hi
      have hlt : i.toNat < T.prime_hash_set.length := by
        rw [hlen]
        omega
      refine ⟨hin.1, hin.2, hlt, ?_⟩
      rw [Parallel.is_prime_eq, hN, if_neg (by omega), List.getD_eq_getElem?_getD,
        List.getElem?_eq_getElem hlt]
      rfl
    · rw [if_neg hin] at hi
      cases hi

/-- C5 at the table built by `main`, at `n = 70001` (no table read) and at
`n = 70000` (one read, at the last cell). -/
theorem C5_witness :
    Parallel.Initialized Parallel.table_after_init ∧
      Parallel.is_prime Parallel.table_after_init 70001 = false ∧
      (Parallel.is_prime_run Parallel.table_after_init 70001).2 = [] ∧
      (Parallel.is_prime_run Parallel.table_after_init 70000).2 = [70000] :=
  ⟨Parallel.table_after_init_initialized,
    (C5_parallel_is_prime_is_bounded_primality Parallel.table_after_init
      Parallel.table_after_init_initialized 70001).2.2.1 (by decide),
    ((C5_parallel_is_prime_is_bounded_primality Parallel.table_after_init
      Parallel.table_after_init_initialized 70001).2.2.2.2.1).trans (if_neg (by decide)),
    ((C5_parallel_is_prime_is_bounded_primality Parallel.table_after_init
      Parallel.table_after_init_initialized 70000).2.2.2.2.1).trans (if_pos (by decide))⟩

/-- C6: for every `n < 2^62` the sequential `is_prime(n)` returns (its wheel
loop ends within `n` units of fuel) and is true exactly when `n` is prime; it
is false for every `n < 2`; and for `5 ≤ n ≤ 997` the `PRIMES_ARRAY` lookup
answers the primality of `n`. -/
theorem C6_sequential_is_prime_is_primality (n : Int) (hn : n < 2 ^ 62) :
    (∀ fuel, n.toNat ≤ fuel →
      Sequential.is_prime_fuel fuel n = some (decide (Nat.Prime n.toNat))) ∧
    (Sequential.is_prime n = true ↔ Nat.Prime n.toNat) ∧
    (n < 2 → Sequential.is_prime n = false) ∧
    (5 ≤ n → n ≤ 997 →
      Sequential.array_lookup n Sequential.PRIMES_ARRAY = decide (Nat.Prime n.toNat)) := by
  refine ⟨fun fuel hf => Sequential.is_prime_fuel_spec n hn fuel hf, ?_, ?_, ?_⟩
  · rw [Sequential.seq_is_prime_spec n hn, decide_eq_true_iff]
  · intro h
    rw [Sequential.seq_is_prime_spec n hn, decide_eq_false_iff_not]
    intro hp
    have := hp.two_le
    omega
  · intro h5 h997
    obtain ⟨m, rfl⟩ := Int.eq_ofNat_of_zero_le (by omega : 0 ≤ n)
    rw [Int.toNat_ofNat]
    exact Sequential.array_lookup_spec (by omega)

/-- C6 at `n = 1000003`. -/
theorem C6_witness :
    (1000003 : Int) < 2 ^ 62 ∧
      (Sequential.is_prime 1000003 = true ↔ Nat.Prime (1000003 : Int).toNat) :=
  ⟨by norm_num, (C6_sequential_is_prime_is_primality 1000003 (by norm_num)).2.1⟩

/-- C2, counterexample: on the validated ranges `a ∈ [33479, 33479]`,
`b, c, d ∈ [6090, 6090]` the sequential engine reports the tuple
`(33479, 6090, 6090, 6090)`, whose 27 values run up to the prime 70019, and
the parallel engine, in either mode, reports nothing. -/
theorem C2_counterexample :
    (Ranges.single { a := 33479, b := 6090, c := 6090, d := 6090 }).Valid ∧
    (∃ ss, Sequential.main_after_args 70002
        (Ranges.single { a := 33479, b := 6090, c := 6090, d := 6090 }) = some (Except.ok ss) ∧
      ss.printed = [{ a := 33479, b := 6090, c := 6090, d := 6090 }]) ∧
    (∀ sp : Bool, ∃ ps, Parallel.main_after_args 70002
        (Ranges.single { a := 33479, b := 6090, c := 6090, d := 6090 }) 1000000 sp
        [(33479, 6090)] [{ a := 33479, b := 6090, c := 6090, d := 6090 }]
          = some (Except.ok ps) ∧
      Parallel.dump ps.result_set = []) := by
  have hpr : Params.InRange { a := 33479, b := 6090, c := 6090, d := 6090 } := by
    unfold Params.InRange InInt32; decide
  have hv := Ranges.single_valid { a := 33479, b := 6090, c := 6090, d := 6090 } (by decide)
  have hr := Ranges.single_in_range _ hpr
  have hb : (Ranges.single { a := 33479, b := 6090, c := 6090, d := 6090 }).BelowIntMax := by
    unfold Ranges.BelowIntMax Ranges.single; decide
  have hf := Ranges.single_fuel { a := 33479, b := 6090, c := 6090, d := 6090 } 70002
    (by decide)
  have htup := Ranges.single_tuples { a := 33479, b := 6090, c := 6090, d := 6090 }
  have hsl := Ranges.single_slices { a := 33479, b := 6090, c := 6090, d := 6090 }
  have hseq : Sequential.check_cube { a := 33479, b := 6090, c := 6090, d := 6090 } = true := by
    rw [Sequential.check_cube_spec _ hpr]
    refine ⟨by unfold Canonical; decide, ?_⟩
    have h0 : Nat.Prime (Int.toNat 33479) := by show Nat.Prime 33479; norm_num
    have h1 : Nat.Prime (Int.toNat 39569) := by show Nat.Prime 39569; norm_num
    have h2 : Nat.Prime (Int.toNat 45659) := by show Nat.Prime 45659; norm_num
    have h3 : Nat.Prime (Int.toNat 51749) := by show Nat.Prime 51749; norm_num
    have h4 : Nat.Prime (Int.toNat 57839) := by show Nat.Prime 57839; norm_num
    have h5 : Nat.Prime (Int.toNat 63929) := by show Nat.Prime 63929; norm_num
    have h6 : Nat.Prime (Int.toNat 70019) := by show Nat.Prime 70019; norm_num
    intro i j k hi hj hk
    rcases hi with rfl | rfl | rfl <;> rcases hj with rfl | rfl | rfl <;>
      rcases hk with rfl | rfl | rfl <;> norm_num <;> assumption
  have hpar : ∀ T, Parallel.check_cube T { a := 33479, b := 6090, c := 6090, d := 6090 }
      = false := by
    intro T
    rw [Bool.eq_false_iff]
    intro h
    unfold Parallel.check_cube at h
    have h222 := ((check_cube_run_true _ _).1 h).2.2 (2, 2, 2) (by decide)
    rw [cube_value_exact _ hpr 2 2 2 (by decide) (by decide) (by decide)] at h222
    rw [Parallel.is_prime_eq, if_pos (by decide)] at h222
    cases h222
  refine ⟨hv, ?_, ?_⟩
  · refine ⟨_, Sequential.seq_main_good 70002 _ hv hb hf, ?_⟩
    rw [(Sequential.foldl_step _ Sequential.State.start rfl rfl).2.1, htup]
    simp [Sequential.State.start, hseq]
  · intro sp
    obtain ⟨ps, hps⟩ := Parallel.par_main_good 70002 (by decide) _ hv hb hf 1000000 sp
      [(33479, 6090)] [{ a := 33479, b := 6090, c := 6090, d := 6090 }]
    refine ⟨ps, hps, ?_⟩
    obtain ⟨T, _, hperm, hres, _⟩ := Parallel.par_main_ok 70002 _ hv hr 1000000 sp _ _
      (by rw [hsl]) (by rw [htup]) ps hps
    rw [htup] at hperm
    rw [List.perm_singleton.1 hperm] at hres
    rw [hres]
    simp only [List.filter, hpar T, List.foldl_nil]
    rfl

/-- C2, amended: for validated ranges of 32-bit bounds with
`a_max + 6 * d_max ≤ 70000` on which at most `1000 * 2^21` tuples match,
whenever both engines run to completion the tuples printed from the parallel
engine's result list (either mode, any schedule of the work-shared loop) are,
up to order, the tuples printed by the sequential engine; and both engines do
run to completion when no range maximum is `INT_MAX` and the fuel is enough. -/
theorem C2_engines_report_same_matches_below_table_bound (r : Ranges) (hv : r.Valid)
    (hr : r.InRange) (hb : r.a_max + 6 * r.d_max ≤ 70000)
    (hm : (r.tuples.filter Sequential.check_cube).length ≤ 2097152000)
    (L : Int) (sp : Bool) (sched2 : List (Int × Int)) (sched4 : List Params)
    (h2 : sched2.Perm r.slices) (h4 : sched4.Perm r.tuples) :
    (∀ fuel fuel' ss ps, Sequential.main_after_args fuel r = some (Except.ok ss) →
      Parallel.main_after_args fuel' r L sp sched2 sched4 = some (Except.ok ps) →
      (Parallel.dump ps.result_set).Perm (ss.printed.map some) ∧
      ∀ p, some p ∈ Parallel.dump ps.result_set ↔ p ∈ ss.printed) ∧
    (r.BelowIntMax → ∀ fuel, Parallel.MAX_PRIME_CHECK + 2 ≤ fuel → r.FuelEnough fuel →
      ∃ ss ps, Sequential.main_after_args fuel r = some (Except.ok ss) ∧
        Parallel.main_after_args fuel r L sp sched2 sched4 = some (Except.ok ps)) := by
  constructor
  · intro fuel fuel' ss ps hs hp
    obtain ⟨_, hprinted, _, _⟩ := Sequential.seq_main_ok fuel r hv hr ss hs
    obtain ⟨T, hT, hperm, hres, _⟩ :=
      Parallel.par_main_ok fuel' r hv hr L sp sched2 sched4 h2 h4 ps hp
    have hagree : ps.evaluated.filter (Parallel.check_cube T)
        = ps.evaluated.filter Sequential.check_cube := by
      apply List.filter_congr
      intro p hpmem
      have hpt := (mem_tuples r p).1 ((hperm.mem_iff).1 hpmem)
      exact check_cube_agree hT p (by omega)
    rw [hagree] at hres
    have hfperm : (ps.evaluated.filter Sequential.check_cube).Perm
        (r.tuples.filter Sequential.check_cube) := hperm.filter _
    have hholds := Parallel.foldl_append_eq_of_holds_start
      (ps.evaluated.filter Sequential.check_cube) (by rw [hfperm.length_eq]; exact hm)
    rw [← hres] at hholds
    have hdump := Parallel.dump_of_holds _ _ hholds
    rw [hdump, hprinted]
    refine ⟨hfperm.map some, ?_⟩
    intro p
    rw [List.mem_map_of_injective (Option.some_injective _)]
    exact hfperm.mem_iff
  · intro hbelow fuel hfuel hf
    obtain ⟨ps, hps⟩ := Parallel.par_main_good fuel hfuel r hv hbelow hf L sp sched2 sched4
    exact ⟨_, ps, Sequential.seq_main_good fuel r hv hbelow hf, hps⟩

/-- C2, amended, at the ranges `a ∈ [7, 7]`, `b, c, d ∈ [150, 150]`, whose
only tuple `(7, 150, 150, 150)` both engines report. -/
theorem C2_witness :
    (Ranges.single { a := 7, b := 150, c := 150, d := 150 }).Valid ∧
    ∃ ss ps, Sequential.main_after_args 70002 (Ranges.single { a := 7, b := 150, c := 150, d := 150 })
        = some (Except.ok ss) ∧
      Parallel.main_after_args 70002 (Ranges.single { a := 7, b := 150, c := 150, d := 150 }) 1000000 true
        [(7, 150)] [{ a := 7, b := 150, c := 150, d := 150 }] = some (Except.ok ps) ∧
      (Parallel.dump ps.result_set).Perm (ss.printed.map some) := by
  have hpr : Params.InRange { a := 7, b := 150, c := 150, d := 150 } := by
    unfold Params.InRange InInt32; decide
  have hv := Ranges.single_valid { a := 7, b := 150, c := 150, d := 150 } (by decide)
  have hr := Ranges.single_in_range _ hpr
  have hbelow : (Ranges.single { a := 7, b := 150, c := 150, d := 150 }).BelowIntMax := by
    unfold Ranges.BelowIntMax Ranges.single; decide
  have hf := Ranges.single_fuel { a := 7, b := 150, c := 150, d := 150 } 70002 (by decide)
  have htup := Ranges.single_tuples { a := 7, b := 150, c := 150, d := 150 }
  have hsl := Ranges.single_slices { a := 7, b := 150, c := 150, d := 150 }
  have hthm := C2_engines_report_same_matches_below_table_bound
    (Ranges.single { a := 7, b := 150, c := 150, d := 150 }) hv hr
    (by unfold Ranges.single; decide)
    (by
      refine le_trans (List.length_filter_le _ _) ?_
      rw [htup]; decide)
    1000000 true [(7, 150)] [{ a := 7, b := 150, c := 150, d := 150 }]
    (by rw [hsl]) (by rw [htup])
  obtain ⟨ss, ps, hs, hp⟩ := hthm.2 hbelow 70002 (by decide) hf
  exact ⟨hv, ss, ps, hs, hp, (hthm.1 70002 70002 ss ps hs hp).1⟩

/-- C7, counterexample: the parallel engine accepts the ranges
`a ∈ [70001, 70001]`, `b, c, d ∈ [1, 1]`, evaluates `check_cube` on the tuple
`(70001, 1, 1, 1)`, and `check_cube` passes `a = 70001`, which is above the
table bound 70000, to `is_prime`. -/
theorem C7_counterexample :
    range_error (Ranges.single { a := 70001, b := 1, c := 1, d := 1 }) = none ∧
    (∃ s, Parallel.main_after_args 70002 (Ranges.single { a := 70001, b := 1, c := 1, d := 1 }) 1000000
        false [(70001, 1)] [{ a := 70001, b := 1, c := 1, d := 1 }] = some (Except.ok s) ∧
      s.evaluated = [{ a := 70001, b := 1, c := 1, d := 1 }]) ∧
    (check_cube_run (Parallel.is_prime Parallel.table_after_init)
      { a := 70001, b := 1, c := 1, d := 1 }).2 = [70001] ∧
    ¬ ((0 : Int) ≤ 70001 ∧ (70001 : Int) ≤ (Parallel.MAX_PRIME_CHECK : Int)) := by
  have hpr : Params.InRange { a := 70001, b := 1, c := 1, d := 1 } := by
    unfold Params.InRange InInt32; decide
  have hv := Ranges.single_valid { a := 70001, b := 1, c := 1, d := 1 } (by decide)
  have hr := Ranges.single_in_range _ hpr
  have hbelow : (Ranges.single { a := 70001, b := 1, c := 1, d := 1 }).BelowIntMax := by
    unfold Ranges.BelowIntMax Ranges.single; decide
  have hf := Ranges.single_fuel { a := 70001, b := 1, c := 1, d := 1 } 70002 (by decide)
  have htup := Ranges.single_tuples { a := 70001, b := 1, c := 1, d := 1 }
  have hsl := Ranges.single_slices { a := 70001, b := 1, c := 1, d := 1 }
  refine ⟨(range_error_eq_none_iff _).2 hv, ?_, ?_, by decide⟩
  · obtain ⟨s, hs⟩ := Parallel.par_main_good 70002 (by decide) _ hv hbelow hf 1000000 false
      [(70001, 1)] [{ a := 70001, b := 1, c := 1, d := 1 }]
    refine ⟨s, hs, ?_⟩
    obtain ⟨T, _, hperm, _⟩ := Parallel.par_main_ok 70002 _ hv hr 1000000 false _ _
      (by rw [hsl]) (by rw [htup]) s hs
    rw [htup] at hperm
    exact List.perm_singleton.1 hperm
  · have hnp : Parallel.is_prime Parallel.table_after_init 70001 = false := by
      rw [Parallel.is_prime_eq, if_pos (by decide)]
    unfold check_cube_run
    rw [if_neg (by decide), if_neg (by decide)]
    simp only [hnp, Bool.not_false, if_true]

/-- C7, amended: for every accepted range with `a_max + 6 * d_max ≤ 70000`,
the search calls `check_cube` only on tuples of the Cartesian product, and
every value `check_cube` passes to `is_prime` for such a tuple lies in
`[0, 70000]`. -/
theorem C7_is_prime_arguments_within_table_when_range_small (r : Ranges) (hv : r.Valid)
    (hr : r.InRange) (hb : r.a_max + 6 * r.d_max ≤ 70000) :
    (∀ (T : Parallel.PrimeTable) (p : Params), p ∈ r.tuples →
      ∀ v ∈ (check_cube_run (Parallel.is_prime T) p).2,
        0 ≤ v ∧ v ≤ (Parallel.MAX_PRIME_CHECK : Int)) ∧
    (∀ fuel L sp sched2 sched4 s, List.Perm sched2 r.slices → List.Perm sched4 r.tuples →
      Parallel.main_after_args fuel r L sp sched2 sched4 = some (Except.ok s) →
      ∀ p ∈ s.evaluated, p ∈ r.tuples) := by
  have hN : (Parallel.MAX_PRIME_CHECK : Int) = 70000 := rfl
  constructor
  · intro T p hp v hvlog
    obtain ⟨hcan, _⟩ := check_cube_run_log _ p v hvlog
    obtain ⟨ha, hb1, hc1, hd1, hbc, hcd⟩ := hcan
    have hpt := (mem_tuples r p).1 hp
    have hpr : p.InRange := by
      unfold Params.InRange InInt32; omega
    have := check_cube_run_log_bound _ p hpr v hvlog
    rw [hN]
    omega
  · intro fuel L sp sched2 sched4 s h2 h4 hs p hp
    obtain ⟨T, _, hperm, _⟩ := Parallel.par_main_ok fuel r hv hr L sp sched2 sched4 h2 h4 s hs
    exact (hperm.mem_iff).1 hp

/-- C7, amended, at the ranges `a ∈ [7, 7]`, `b, c, d ∈ [150, 150]`. -/
theorem C7_witness :
    (Ranges.single { a := 7, b := 150, c := 150, d := 150 }).Valid ∧
    ∀ v ∈ (check_cube_run (Parallel.is_prime Parallel.table_after_init)
        { a := 7, b := 150, c := 150, d := 150 }).2,
      0 ≤ v ∧ v ≤ (Parallel.MAX_PRIME_CHECK : Int) :=
  ⟨Ranges.single_valid _ (by decide),
    (C7_is_prime_arguments_within_table_when_range_small
      (Ranges.single { a := 7, b := 150, c := 150, d := 150 })
      (Ranges.single_valid _ (by decide))
      (Ranges.single_in_range _ (by unfold Params.InRange InInt32; decide))
      (by unfold Ranges.single; decide)).1 Parallel.table_after_init
      { a := 7, b := 150, c := 150, d := 150 }
      (by rw [Ranges.single_tuples]; exact List.mem_singleton.2 rfl)⟩

/-- C8, at the failing input `--a-range 1 1 --b-range 1 1 --c-range 1 1
--d-range 2147483647 2147483647`: the ranges are validated and hold one tuple,
but the loop `for (int d = d_min; d <= d_max; d++)` is never left, so that
neither the sequential engine nor the instrumented mode of the parallel engine
produces a final result, whatever the fuel. -/
theorem C8_search_never_completes_at_int_max :
    (Ranges.single { a := 1, b := 1, c := 1, d := 2147483647 }).Valid ∧
    (Ranges.single { a := 1, b := 1, c := 1, d := 2147483647 }).InRange ∧
    (Ranges.single { a := 1, b := 1, c := 1, d := 2147483647 }).count = 1 ∧
    (∀ fuel, Sequential.main_after_args fuel
      (Ranges.single { a := 1, b := 1, c := 1, d := 2147483647 }) = none) ∧
    (∀ fuel L sched4, Parallel.main_after_args fuel
      (Ranges.single { a := 1, b := 1, c := 1, d := 2147483647 }) L true [(1, 1)] sched4
        = none) := by
  have hpr : Params.InRange { a := 1, b := 1, c := 1, d := 2147483647 } := by
    unfold Params.InRange InInt32; decide
  have hv := Ranges.single_valid { a := 1, b := 1, c := 1, d := 2147483647 } (by decide)
  have hr := Ranges.single_in_range _ hpr
  have hnb : ∀ fuel : Nat,
      ¬ ((Ranges.single { a := 1, b := 1, c := 1, d := 2147483647 }).BelowIntMax ∧
        (Ranges.single { a := 1, b := 1, c := 1, d := 2147483647 }).FuelEnough fuel) := by
    intro fuel h
    have := h.1.2.2.2
    simp only [Ranges.single] at this
    omega
  refine ⟨hv, hr, Ranges.single_count _, ?_, ?_⟩
  · intro fuel
    rw [Sequential.seq_main_of_valid fuel _ hv, Sequential.search_bad fuel _ _ hv hr (hnb fuel)]
    rfl
  · intro fuel L sched4
    unfold Parallel.main_after_args
    rw [(range_error_eq_none_iff _).2 hv]
    simp only []
    cases Parallel.init_prime_hash_set fuel Parallel.PrimeTable.startup with
    | none => rfl
    | some T =>
      simp only [if_true]
      rw [Parallel.instrumented_bad T fuel _ L hv.2.2.1 hv.2.2.2 (by decide) (by decide)
        (by
          intro h
          have := h.2.1
          simp only [Ranges.single] at this
          omega)
        [(1, 1)] (by simp)]

/-- C9: for validated ranges of 32-bit bounds whose combination count fits in
64 bits, `total_combinations` is the product of the four widths, and whenever
the search completes the progress counter equals it: `checked` in the
sequential engine, `global_checked` in the parallel engine in both modes and
for every order in which the work-shared iterations are carried out.  The
search does complete when no range maximum is `INT_MAX` and the fuel is
enough. -/
theorem C9_progress_counter_equals_total_combinations (r : Ranges) (hv : r.Valid)
    (hr : r.InRange) (hfit : r.count ≤ 9223372036854775807) :
    total_combinations r
      = (r.a_max - r.a_min + 1) * (r.b_max - r.b_min + 1) * (r.c_max - r.c_min + 1)
        * (r.d_max - r.d_min + 1) ∧
    (∀ fuel s, Sequential.main_after_args fuel r = some (Except.ok s) →
      s.checked = total_combinations r) ∧
    (∀ fuel L sp sched2 sched4 s, List.Perm sched2 r.slices → List.Perm sched4 r.tuples →
      Parallel.main_after_args fuel r L sp sched2 sched4 = some (Except.ok s) →
      s.global_checked = total_combinations r) ∧
    (r.BelowIntMax → ∀ fuel, Parallel.MAX_PRIME_CHECK + 2 ≤ fuel → r.FuelEnough fuel →
      (∃ s, Sequential.main_after_args fuel r = some (Except.ok s)) ∧
      ∀ L sp sched2 sched4, ∃ s, Parallel.main_after_args fuel r L sp sched2 sched4
        = some (Except.ok s)) := by
  refine ⟨total_combinations_eq r hv hr hfit, ?_, ?_, ?_⟩
  · intro fuel s hs
    exact (Sequential.seq_main_ok fuel r hv hr s hs).2.2.1
  · intro fuel L sp sched2 sched4 s h2 h4 hs
    obtain ⟨T, _, _, _, _, hg⟩ := Parallel.par_main_ok fuel r hv hr L sp sched2 sched4 h2 h4 s hs
    exact hg
  · intro hb fuel hfuel hf
    exact ⟨⟨_, Sequential.seq_main_good fuel r hv hb hf⟩,
      fun L sp sched2 sched4 => Parallel.par_main_good fuel hfuel r hv hb hf L sp sched2 sched4⟩

/-- C9 at the zero-width ranges `a, b, c, d ∈ [1, 1]`: both engines complete
and have checked exactly 1 combination. -/
theorem C9_witness :
    (Ranges.uniform 1 1).Valid ∧ (Ranges.uniform 1 1).InRange ∧
    (Ranges.uniform 1 1).count ≤ 9223372036854775807 ∧
    total_combinations (Ranges.uniform 1 1) = 1 ∧
    (∃ s, Sequential.main_after_args 70002 (Ranges.uniform 1 1) = some (Except.ok s) ∧ s.checked = 1) ∧
    (∀ sp, ∃ s, Parallel.main_after_args 70002 (Ranges.uniform 1 1) 1000000 sp [(1, 1)]
        [{ a := 1, b := 1, c := 1, d := 1 }] = some (Except.ok s) ∧
      s.global_checked = 1) := by
  have hv : (Ranges.uniform 1 1).Valid := by unfold Ranges.Valid Ranges.uniform; decide
  have hr : (Ranges.uniform 1 1).InRange := by
    unfold Ranges.InRange Ranges.uniform InInt32; decide
  have hfit : (Ranges.uniform 1 1).count ≤ 9223372036854775807 := by
    unfold Ranges.count Ranges.uniform; decide
  have hb : (Ranges.uniform 1 1).BelowIntMax := by
    unfold Ranges.BelowIntMax Ranges.uniform; decide
  have hf : (Ranges.uniform 1 1).FuelEnough 70002 := by
    unfold Ranges.FuelEnough Ranges.uniform; decide
  have hthm := C9_progress_counter_equals_total_combinations (Ranges.uniform 1 1) hv hr hfit
  have htot : total_combinations (Ranges.uniform 1 1) = 1 := by
    rw [hthm.1]; unfold Ranges.uniform; decide
  have hcomp := hthm.2.2.2 hb 70002 (by decide) hf
  refine ⟨hv, hr, hfit, htot, ?_, ?_⟩
  · obtain ⟨s, hs⟩ := hcomp.1
    exact ⟨s, hs, by rw [hthm.2.1 70002 s hs, htot]⟩
  · intro sp
    obtain ⟨s, hs⟩ := hcomp.2 1000000 sp [(1, 1)] [{ a := 1, b := 1, c := 1, d := 1 }]
    refine ⟨s, hs, ?_⟩
    rw [hthm.2.2.1 70002 1000000 sp _ _ s
      (by rw [show Ranges.uniform 1 1 = Ranges.single { a := 1, b := 1, c := 1, d := 1 }
            from rfl, Ranges.single_slices])
      (by rw [show Ranges.uniform 1 1 = Ranges.single { a := 1, b := 1, c := 1, d := 1 }
            from rfl, Ranges.single_tuples]) hs, htot]

/-- C10, counterexample: the ranges `a, b, c, d ∈ [1, 65536]` are validated,
their exact combination count `2^64` exceeds the largest signed 64-bit value,
yet neither engine rejects them: `total_combinations` is computed as the
wrapped value 0, and the sequential search is carried out. -/
theorem C10_counterexample :
    (Ranges.uniform 1 65536).Valid ∧
    (Ranges.uniform 1 65536).count > 9223372036854775807 ∧
    range_error (Ranges.uniform 1 65536) = none ∧
    total_combinations (Ranges.uniform 1 65536) = 0 ∧
    (∃ s, Sequential.main_after_args 70002 (Ranges.uniform 1 65536) = some (Except.ok s) ∧
      s.evaluated = (Ranges.uniform 1 65536).tuples) ∧
    (∀ fuel L sp sched2 sched4 code,
      Parallel.main_after_args fuel (Ranges.uniform 1 65536) L sp sched2 sched4
        ≠ some (Except.error code)) := by
  have hv : (Ranges.uniform 1 65536).Valid := by unfold Ranges.Valid Ranges.uniform; decide
  have hr : (Ranges.uniform 1 65536).InRange := by
    unfold Ranges.InRange Ranges.uniform InInt32; decide
  have hb : (Ranges.uniform 1 65536).BelowIntMax := by
    unfold Ranges.BelowIntMax Ranges.uniform; decide
  have hf : (Ranges.uniform 1 65536).FuelEnough 70002 := by
    unfold Ranges.FuelEnough Ranges.uniform; decide
  refine ⟨hv, by unfold Ranges.count Ranges.uniform; decide,
    (range_error_eq_none_iff _).2 hv, ?_, ?_, ?_⟩
  · rw [total_combinations_eq_wrap _ hv hr]
    unfold Ranges.count Ranges.uniform wrap64
    decide
  · have hs := Sequential.seq_main_good 70002 _ hv hb hf
    exact ⟨_, hs, (Sequential.seq_main_ok 70002 _ hv hr _ hs).1⟩
  · intro fuel L sp sched2 sched4 code
    exact Parallel.par_main_ne_error fuel _ hv L sp sched2 sched4 code

/-- C10, amended: every range configuration with `1 ≤ min ≤ max` in each
dimension and 32-bit bounds passes the validation of both engines, also when
its exact combination count exceeds the largest signed 64-bit value: no
engine returns early, and `total_combinations` is the exact count reduced
modulo `2^64` to the signed 64-bit range. -/
theorem C10_no_overflow_check_on_total_combinations (r : Ranges) (hv : r.Valid)
    (hr : r.InRange) :
    range_error r = none ∧
    total_combinations r = wrap64 ((r.a_max - r.a_min + 1) * (r.b_max - r.b_min + 1)
      * (r.c_max - r.c_min + 1) * (r.d_max - r.d_min + 1)) ∧
    (∀ fuel code, Sequential.main_after_args fuel r ≠ some (Except.error code)) ∧
    (∀ fuel L sp sched2 sched4 code,
      Parallel.main_after_args fuel r L sp sched2 sched4 ≠ some (Except.error code)) :=
  ⟨(range_error_eq_none_iff r).2 hv, total_combinations_eq_wrap r hv hr,
    fun fuel code => Sequential.seq_main_ne_error fuel r hv code,
    fun fuel L sp sched2 sched4 code => Parallel.par_main_ne_error fuel r hv L sp sched2 sched4 code⟩

/-- C10, amended, at the ranges `a, b, c, d ∈ [1, 65536]`. -/
theorem C10_witness :
    (Ranges.uniform 1 65536).Valid ∧ (Ranges.uniform 1 65536).InRange ∧
    range_error (Ranges.uniform 1 65536) = none ∧
    ∀ fuel code, Sequential.main_after_args fuel (Ranges.uniform 1 65536) ≠ some (Except.error code) :=
  ⟨by unfold Ranges.Valid Ranges.uniform; decide,
    by unfold Ranges.InRange Ranges.uniform InInt32; decide,
    (C10_no_overflow_check_on_total_combinations (Ranges.uniform 1 65536)
      (by unfold Ranges.Valid Ranges.uniform; decide)
      (by unfold Ranges.InRange Ranges.uniform InInt32; decide)).1,
    (C10_no_overflow_check_on_total_combinations (Ranges.uniform 1 65536)
      (by unfold Ranges.Valid Ranges.uniform; decide)
      (by unfold Ranges.InRange Ranges.uniform InInt32; decide)).2.2.1⟩

/-- C11, counterexample: on `--log-interval 0` the parallel engine exits with
code 1, with no fuel at all, although the eight range variables hold their
initial values `1 20`, none of which is refused; and on
`--a-range 5 1 --help` both engines exit with code 0 although the parsed
range has `a_min > a_max`. -/
theorem C11_counterexample :
    (∀ fuel sched2 sched4,
      Parallel.main fuel [Arg.mk "--log-interval" 0 0, Arg.mk "0" 0 0] sched2 sched4
        = some (Except.error 1)) ∧
    ¬ Parallel.Options.defaults.ranges.Invalid ∧
    (∀ fuel, Sequential.main fuel
      [Arg.mk "--a-range" 0 0, Arg.mk "5" 5 5, Arg.mk "1" 1 1, Arg.mk "--help" 0 0]
        = some (Except.error 0)) ∧
    (∀ fuel sched2 sched4, Parallel.main fuel
      [Arg.mk "--a-range" 0 0, Arg.mk "5" 5 5, Arg.mk "1" 1 1, Arg.mk "--help" 0 0]
      sched2 sched4 = some (Except.error 0)) := by
  refine ⟨?_, ?_, ?_, ?_⟩
  · intro fuel sched2 sched4
    have hp : Parallel.parse_args [Arg.mk "--log-interval" 0 0, Arg.mk "0" 0 0]
        Parallel.Options.defaults = Except.error 1 := rfl
    unfold Parallel.main
    rw [hp]
  · unfold Ranges.Invalid Parallel.Options.defaults
    decide
  · intro fuel
    have hp : Sequential.parse_args
        [Arg.mk "--a-range" 0 0, Arg.mk "5" 5 5, Arg.mk "1" 1 1, Arg.mk "--help" 0 0]
        Sequential.Options.defaults = Except.error 0 := rfl
    unfold Sequential.main
    rw [hp]
  · intro fuel sched2 sched4
    have hp : Parallel.parse_args
        [Arg.mk "--a-range" 0 0, Arg.mk "5" 5 5, Arg.mk "1" 1 1, Arg.mk "--help" 0 0]
        Parallel.Options.defaults = Except.error 0 := rfl
    unfold Parallel.main
    rw [hp]

/-- C11, amended: for every command line, the sequential engine exits with
code 1 exactly when its argument loop ends and some parsed range has
`min > max` or `min < 1`; the parallel engine exits with code 1 exactly when
its argument loop returns 1 or ends with such a range.  The argument loop of
the sequential engine only returns at `--help`, with code 0; that of the
parallel engine returns at `--help`, with code 0, or at a `--log-interval` or
`--workers` option followed by a value below 1, with code 1, and leaves
`log_interval ≥ 1` when it ends.  An exit with code 1 happens with no fuel at
all, hence before any loop iteration and any `check_cube` evaluation.  When
the argument loop ends, the engine exits with code 1 if and only if some parsed
range has `min > max` or `min < 1`, and otherwise it does not return early and
goes on to the search. -/
theorem C11_exit_code_1_iff_invalid_range_or_option (args : List Arg) (fuel : Nat)
    (sched2 : List (Int × Int)) (sched4 : List Params) :
    (Sequential.main fuel args = some (Except.error 1) ↔
      ∃ o, Sequential.parse_args args Sequential.Options.defaults = Except.ok o ∧
        o.ranges.Invalid) ∧
    (Parallel.main fuel args sched2 sched4 = some (Except.error 1) ↔
      Parallel.parse_args args Parallel.Options.defaults = Except.error 1 ∨
      ∃ o, Parallel.parse_args args Parallel.Options.defaults = Except.ok o ∧
        o.ranges.Invalid) ∧
    (∀ c, Sequential.parse_args args Sequential.Options.defaults = Except.error c →
      c = 0 ∧ ∃ x ∈ args, x.text = "--help") ∧
    (∀ c, Parallel.parse_args args Parallel.Options.defaults = Except.error c →
      (c = 0 ∧ ∃ x ∈ args, x.text = "--help") ∨
      (c = 1 ∧ ∃ x v, [x, v] <:+: args ∧
        ((x.text = "--log-interval" ∧ v.atoll < 1) ∨ (x.text = "--workers" ∧ v.atoi < 1)))) ∧
    (Sequential.main fuel args = some (Except.error 1) →
      Sequential.main 0 args = some (Except.error 1)) ∧
    (Parallel.main fuel args sched2 sched4 = some (Except.error 1) →
      Parallel.main 0 args sched2 sched4 = some (Except.error 1)) ∧
    (∀ o, Sequential.parse_args args Sequential.Options.defaults = Except.ok o →
      (Sequential.main fuel args = some (Except.error 1) ↔ o.ranges.Invalid) ∧
      (¬ o.ranges.Invalid →
        Sequential.main fuel args
          = (Sequential.search fuel o.ranges Sequential.State.start).map Except.ok ∧
        ∀ code, Sequential.main fuel args ≠ some (Except.error code))) ∧
    (∀ o, Parallel.parse_args args Parallel.Options.defaults = Except.ok o →
      1 ≤ o.log_interval ∧
      (Parallel.main fuel args sched2 sched4 = some (Except.error 1) ↔ o.ranges.Invalid) ∧
      (¬ o.ranges.Invalid →
        Parallel.main fuel args sched2 sched4
          = Parallel.main_after_args fuel o.ranges o.log_interval o.show_progress
              sched2 sched4 ∧
        ∀ code, Parallel.main fuel args sched2 sched4 ≠ some (Except.error code))) := by
  have hseq : ∀ f, (Sequential.main f args = some (Except.error 1) ↔
      ∃ o, Sequential.parse_args args Sequential.Options.defaults = Except.ok o ∧
        o.ranges.Invalid) := by
    intro f
    unfold Sequential.main
    cases hp : Sequential.parse_args args Sequential.Options.defaults with
    | error c =>
      have hc := (Sequential.seq_parse_args_error _ args _ c (le_refl _) hp).1
      subst hc
      simp
    | ok o =>
      simp only [Sequential.seq_main_after_args_error, true_and, Except.ok.injEq, exists_eq_left']
  have hpar : ∀ f, (Parallel.main f args sched2 sched4 = some (Except.error 1) ↔
      Parallel.parse_args args Parallel.Options.defaults = Except.error 1 ∨
      ∃ o, Parallel.parse_args args Parallel.Options.defaults = Except.ok o ∧
        o.ranges.Invalid) := by
    intro f
    unfold Parallel.main
    cases hp : Parallel.parse_args args Parallel.Options.defaults with
    | error c => simp
    | ok o => simp [Parallel.par_main_after_args_error]
  refine ⟨hseq fuel, hpar fuel,
    fun c hc => Sequential.seq_parse_args_error _ args _ c (le_refl _) hc,
    fun c hc => Parallel.par_parse_args_error _ args _ c (le_refl _) hc,
    fun h => (hseq 0).2 ((hseq fuel).1 h), fun h => (hpar 0).2 ((hpar fuel).1 h), ?_, ?_⟩
  · intro o ho
    have hm := Sequential.seq_main_of_parse_args fuel args o ho
    rw [hm]
    refine ⟨?_, ?_⟩
    · rw [Sequential.seq_main_after_args_error]
      exact ⟨fun h => h.2, fun h => ⟨rfl, h⟩⟩
    · intro hinv
      have hv : o.ranges.Valid := by
        by_contra hc
        exact hinv ((Ranges.invalid_iff _).2 hc)
      exact ⟨Sequential.seq_main_of_valid fuel _ hv,
        fun code => Sequential.seq_main_ne_error fuel _ hv code⟩
  · intro o ho
    obtain ⟨hm, hL⟩ := Parallel.par_main_of_parse_args fuel args o sched2 sched4 ho
    refine ⟨hL, ?_, ?_⟩
    · rw [hm, Parallel.par_main_after_args_error]
      exact ⟨fun h => h.2, fun h => ⟨rfl, h⟩⟩
    · intro hinv
      have hv : o.ranges.Valid := by
        by_contra hc
        exact hinv ((Ranges.invalid_iff _).2 hc)
      exact ⟨hm, fun code => by
        rw [hm]
        exact Parallel.par_main_ne_error fuel _ hv _ _ sched2 sched4 code⟩

/-- C11, amended, on `--a-range 5 1`: both argument loops end with
`a_min = 5 > a_max = 1`, and both engines exit with code 1. -/
theorem C11_witness :
    Sequential.main 0 [Arg.mk "--a-range" 0 0, Arg.mk "5" 5 5, Arg.mk "1" 1 1]
      = some (Except.error 1) ∧
    Parallel.main 0 [Arg.mk "--a-range" 0 0, Arg.mk "5" 5 5, Arg.mk "1" 1 1] [] []
      = some (Except.error 1) :=
  ⟨(C11_exit_code_1_iff_invalid_range_or_option
      [Arg.mk "--a-range" 0 0, Arg.mk "5" 5 5, Arg.mk "1" 1 1] 0 [] []).1.2
      ⟨Sequential.Options.mk (Ranges.mk 5 1 1 20 1 20 1 20) true, rfl,
        by unfold Ranges.Invalid; decide⟩,
    (C11_exit_code_1_iff_invalid_range_or_option
      [Arg.mk "--a-range" 0 0, Arg.mk "5" 5 5, Arg.mk "1" 1 1] 0 [] []).2.1.2
      (Or.inr ⟨Parallel.Options.mk (Ranges.mk 5 1 1 20 1 20 1 20) 0 1000000 true, rfl,
        by unfold Ranges.Invalid; decide⟩)⟩

/-- C14, counterexample: for the ranges `a, b, c, d ∈ [1, 5]` the engine's
`total_combinations` is not 125. -/
theorem C14_counterexample : total_combinations (Ranges.uniform 1 5) ≠ 125 := by
  unfold total_combinations Ranges.uniform wrap64 wrap32
  decide

/-- C14, amended: for the ranges `a, b, c, d ∈ [1, 5]` the engine's
`total_combinations` is `5 * 5 * 5 * 5 = 625`, which is also the number of
tuples of the Cartesian product. -/
theorem C14_total_combinations_of_1_to_5_is_625 :
    total_combinations (Ranges.uniform 1 5) = 625 ∧
      (Ranges.uniform 1 5).tuples.length = 625 := by
  constructor
  · unfold total_combinations Ranges.uniform wrap64 wrap32
    decide
  · have hv : (Ranges.uniform 1 5).Valid := by unfold Ranges.Valid Ranges.uniform; decide
    have h := length_tuples (Ranges.uniform 1 5) hv
    have hc : (Ranges.uniform 1 5).count = 625 := by
      unfold Ranges.count Ranges.uniform; decide
    rw [hc] at h
    exact_mod_cast h

/-- C15, counterexample: `check_cube` applied to `(5, 1, 2, 4)` returns false
in both engines; the second value it tests, `5 + 1 = 6`, is not prime. -/
theorem C15_counterexample :
    Sequential.check_cube { a := 5, b := 1, c := 2, d := 4 } = false ∧
    Parallel.check_cube Parallel.table_after_init { a := 5, b := 1, c := 2, d := 4 } = false ∧
    cube_value { a := 5, b := 1, c := 2, d := 4 } (1, 0, 0) = 6 ∧ ¬ Nat.Prime 6 := by
  have hseq : Sequential.check_cube { a := 5, b := 1, c := 2, d := 4 } = false := by decide
  refine ⟨hseq, ?_, by decide, by norm_num⟩
  rw [check_cube_agree Parallel.table_after_init_initialized _ (by decide)]
  exact hseq

/-- C15, amended: the tuple `(5, 1, 2, 4)` belongs to the Cartesian product of
`a, b, c, d ∈ [1, 5]`, `check_cube` returns false on it in both engines, and
it is not among the matches either engine reports for these ranges. -/
theorem C15_tuple_5_1_2_4_is_not_a_match :
    ({ a := 5, b := 1, c := 2, d := 4 } : Params) ∈ (Ranges.uniform 1 5).tuples ∧
    Sequential.check_cube { a := 5, b := 1, c := 2, d := 4 } = false ∧
    (∀ T, Parallel.Initialized T →
      Parallel.check_cube T { a := 5, b := 1, c := 2, d := 4 } = false) ∧
    (∀ fuel s, Sequential.main_after_args fuel (Ranges.uniform 1 5) = some (Except.ok s) →
      ({ a := 5, b := 1, c := 2, d := 4 } : Params) ∉ s.printed) ∧
    (∀ fuel L sp sched2 sched4 s, List.Perm sched2 (Ranges.uniform 1 5).slices →
      List.Perm sched4 (Ranges.uniform 1 5).tuples →
      Parallel.main_after_args fuel (Ranges.uniform 1 5) L sp sched2 sched4 = some (Except.ok s) →
      some ({ a := 5, b := 1, c := 2, d := 4 } : Params) ∉ Parallel.dump s.result_set) := by
  have hv : (Ranges.uniform 1 5).Valid := by unfold Ranges.Valid Ranges.uniform; decide
  have hr : (Ranges.uniform 1 5).InRange := by
    unfold Ranges.InRange Ranges.uniform InInt32; decide
  have hseq : Sequential.check_cube { a := 5, b := 1, c := 2, d := 4 } = false := by decide
  have hpar : ∀ T, Parallel.Initialized T →
      Parallel.check_cube T { a := 5, b := 1, c := 2, d := 4 } = false := by
    intro T hT
    rw [check_cube_agree hT _ (by decide)]
    exact hseq
  have hlen : (Ranges.uniform 1 5).tuples.length = 625 := by
    have h := length_tuples (Ranges.uniform 1 5) hv
    have hc : (Ranges.uniform 1 5).count = 625 := by
      unfold Ranges.count Ranges.uniform; decide
    rw [hc] at h
    exact_mod_cast h
  refine ⟨?_, hseq, hpar, ?_, ?_⟩
  · rw [mem_tuples]; unfold Ranges.uniform; decide
  · intro fuel s hs hmem
    rw [(Sequential.seq_main_ok fuel _ hv hr s hs).2.1, List.mem_filter] at hmem
    rw [hseq] at hmem
    exact absurd hmem.2 (by decide)
  · intro fuel L sp sched2 sched4 s h2 h4 hs hmem
    obtain ⟨T, hT, hperm, hres, _⟩ :=
      Parallel.par_main_ok fuel _ hv hr L sp sched2 sched4 h2 h4 s hs
    have hbound : (s.evaluated.filter (Parallel.check_cube T)).length ≤ 2097152000 := by
      refine le_trans (List.length_filter_le _ _) ?_
      rw [hperm.length_eq, hlen]
      decide
    have hholds := Parallel.foldl_append_eq_of_holds_start _ hbound
    rw [← hres] at hholds
    rw [Parallel.dump_of_holds _ _ hholds,
      List.mem_map_of_injective (Option.some_injective _), List.mem_filter, hpar T hT] at hmem
    exact absurd hmem.2 (by decide)

/-- C16, at the failing inputs `--a-range 2147483647 2147483647` (sequential
engine) and `--c-range 2147483647 2147483647` (instrumented mode of the
parallel engine), the other ranges being `1 1`: the ranges are validated and
hold one combination, but the incremented loop counter wraps to `INT_MIN`, the
loop condition stays true, and the search returns for no amount of fuel. -/
theorem C16_search_loops_do_not_terminate_at_int_max :
    (Ranges.single { a := 2147483647, b := 1, c := 1, d := 1 }).Valid ∧
    total_combinations (Ranges.single { a := 2147483647, b := 1, c := 1, d := 1 }) = 1 ∧
    wrap32 (2147483647 + 1) = -2147483648 ∧
    (∀ fuel, Sequential.main_after_args fuel
      (Ranges.single { a := 2147483647, b := 1, c := 1, d := 1 }) = none) ∧
    (Ranges.single { a := 1, b := 1, c := 2147483647, d := 1 }).Valid ∧
    (∀ fuel L sched4, Parallel.main_after_args fuel
      (Ranges.single { a := 1, b := 1, c := 2147483647, d := 1 }) L true [(1, 1)] sched4
        = none) := by
  have hpr : Params.InRange { a := 2147483647, b := 1, c := 1, d := 1 } := by
    unfold Params.InRange InInt32; decide
  have hv := Ranges.single_valid { a := 2147483647, b := 1, c := 1, d := 1 } (by decide)
  have hr := Ranges.single_in_range _ hpr
  have hv2 := Ranges.single_valid { a := 1, b := 1, c := 2147483647, d := 1 } (by decide)
  refine ⟨hv, ?_, by decide, ?_, hv2, ?_⟩
  · rw [total_combinations_eq _ hv hr (by rw [Ranges.single_count]; decide),
      Ranges.single_count]
  · intro fuel
    rw [Sequential.seq_main_of_valid fuel _ hv,
      Sequential.search_bad fuel _ _ hv hr (by
        intro h
        have := h.1.1
        simp only [Ranges.single] at this
        omega)]
    rfl
  · intro fuel L sched4
    unfold Parallel.main_after_args
    rw [(range_error_eq_none_iff _).2 hv2]
    simp only []
    cases Parallel.init_prime_hash_set fuel Parallel.PrimeTable.startup with
    | none => rfl
    | some T =>
      simp only [if_true]
      rw [Parallel.instrumented_bad T fuel _ L hv2.2.2.1 hv2.2.2.2 (by decide) (by decide)
        (by
          intro h
          have := h.1.1
          simp only [Ranges.single] at this
          omega)
        [(1, 1)] (by simp)]

/-- C17, counterexample: row 7 of `CUBE_CHECK_ORDER` is `(1, 1, 1)`, of weight
3, and the next row is `(2, 0, 0)`, of weight 2. -/
theorem C17_counterexample :
    CUBE_CHECK_ORDER[7]? = some (1, 1, 1) ∧ CUBE_CHECK_ORDER[8]? = some (2, 0, 0) ∧
      row_weight (2, 0, 0) < row_weight (1, 1, 1) := by
  decide

/-- C17, amended: the rows of `CUBE_CHECK_ORDER` start with `(0, 0, 0)`; the
first 8 rows are the triples without a 2 and the other 19 rows the triples
with a 2, each group in order of non-decreasing weight; so the weight of
consecutive rows is non-decreasing except for the single step from row 7 to
row 8. -/
theorem C17_rows_ordered_by_weight_within_two_groups :
    CUBE_CHECK_ORDER[0]? = some (0, 0, 0) ∧
    (∀ n, n < 26 → n ≠ 7 →
      row_weight (CUBE_CHECK_ORDER.getD n (0, 0, 0))
        ≤ row_weight (CUBE_CHECK_ORDER.getD (n + 1) (0, 0, 0))) ∧
    (∀ t ∈ CUBE_CHECK_ORDER.take 8, t.1 ≠ 2 ∧ t.2.1 ≠ 2 ∧ t.2.2 ≠ 2) ∧
    (∀ t ∈ CUBE_CHECK_ORDER.drop 8, t.1 = 2 ∨ t.2.1 = 2 ∨ t.2.2 = 2) ∧
    ((CUBE_CHECK_ORDER.take 8).map row_weight).Pairwise (fun x y => x ≤ y) ∧
    ((CUBE_CHECK_ORDER.drop 8).map row_weight).Pairwise (fun x y => x ≤ y) := by
  refine ⟨by decide, by decide, by decide, by decide, by decide, by decide⟩

/-- C18: the result accumulator starts with `count = 0` and `capacity = 1000`;
after any sequence `l` of appends short of the overflow of `capacity * 2`
(fewer than `1000 * 2^21` appends), `0 ≤ count ≤ capacity` holds before and
after one more append of `p`, the capacity is doubled exactly when
`count == capacity` before the write, every tuple stored before is unchanged,
`p` is stored at index (old `count`), which is below the capacity and inside
the buffer, and `count` increases by exactly 1. -/
theorem C18_append_preserves_count_le_capacity (l : List Params) (p : Params)
    (hl : l.length < 2097152000) :
    Parallel.State.start.result_set.count = 0 ∧
    Parallel.State.start.result_set.capacity = 1000 ∧
    ∀ rs, rs = l.foldl Parallel.ResultSet.append Parallel.State.start.result_set →
      (0 ≤ rs.count ∧ rs.count ≤ rs.capacity) ∧
      (0 ≤ (rs.append p).count ∧ (rs.append p).count ≤ (rs.append p).capacity) ∧
      (rs.append p).capacity
        = (if rs.count = rs.capacity then 2 * rs.capacity else rs.capacity) ∧
      (rs.append p).count = rs.count + 1 ∧
      (∀ i, i < rs.count.toNat →
        (rs.append p).results.getD i none = rs.results.getD i none) ∧
      (rs.append p).results.getD rs.count.toNat none = some p ∧
      rs.count < (rs.append p).capacity ∧
      (rs.append p).results.length = (rs.append p).capacity.toNat ∧
      rs.count = l.length ∧ Parallel.dump (rs.append p) = (l ++ [p]).map some := by
  refine ⟨rfl, rfl, ?_⟩
  intro rs hrs
  have hholds : rs.Holds l := by
    rw [hrs]
    exact Parallel.foldl_append_eq_of_holds_start l (by omega)
  obtain ⟨h1, h2, h3, h4, h5, h6, h7, h8⟩ := Parallel.append_step rs l p hholds hl
  refine ⟨h1, h2, h3, h4, h5, h6, h7, h8, ?_, ?_⟩
  · obtain ⟨_, _, _, _, hcount, _⟩ := hholds
    exact hcount
  · exact Parallel.dump_of_holds _ _ (Parallel.holds_append rs l p hholds hl)

/-- C18 for the appends of `(7, 150, 150, 150)` and then `(47, 210, 210, 210)`. -/
theorem C18_witness :
    ([{ a := 7, b := 150, c := 150, d := 150 }] : List Params).length < 2097152000 ∧
    Parallel.dump ((Parallel.State.start.result_set.append
        { a := 7, b := 150, c := 150, d := 150 }).append
        { a := 47, b := 210, c := 210, d := 210 })
      = [some { a := 7, b := 150, c := 150, d := 150 },
         some { a := 47, b := 210, c := 210, d := 210 }] :=
  ⟨by decide,
    ((C18_append_preserves_count_le_capacity [{ a := 7, b := 150, c := 150, d := 150 }]
      { a := 47, b := 210, c := 210, d := 210 } (by decide)).2.2 _ rfl).2.2.2.2.2.2.2.2.2⟩

/-- C19: on a table left by `init_prime_hash_set` and for validated ranges
with `a_max + 6 * d_max ≤ 70000`, the parallel `check_cube` returns the same
boolean as the sequential one on every tuple of the range, so that both
engines select the same matches; whenever the engines complete, the tuples
the parallel engine records are, up to order, those the sequential engine
prints.  A tuple of the range with `b ≤ c ≤ d` has all 27 values in
`[1, a + 6 * d]`, below the table bound, and any other tuple is rejected by
both. -/
theorem C19_check_cube_agrees_below_table_bound (T : Parallel.PrimeTable)
    (hT : Parallel.Initialized T) (r : Ranges) (hv : r.Valid) (hr : r.InRange)
    (hb : r.a_max + 6 * r.d_max ≤ 70000) :
    (∀ p ∈ r.tuples, Parallel.check_cube T p = Sequential.check_cube p) ∧
    r.tuples.filter (Parallel.check_cube T) = r.tuples.filter Sequential.check_cube ∧
    (∀ fuel fuel' L sp sched2 sched4 ss ps, List.Perm sched2 r.slices →
      List.Perm sched4 r.tuples →
      Sequential.main_after_args fuel r = some (Except.ok ss) →
      Parallel.main_after_args fuel' r L sp sched2 sched4 = some (Except.ok ps) →
      ps.result_set = (ps.evaluated.filter Sequential.check_cube).foldl
        Parallel.ResultSet.append Parallel.State.start.result_set ∧
      (ps.evaluated.filter Sequential.check_cube).Perm ss.printed) ∧
    (∀ p ∈ r.tuples, p.b ≤ p.c ∧ p.c ≤ p.d →
      p.a + 6 * p.d ≤ (Parallel.MAX_PRIME_CHECK : Int) ∧
      ∀ t ∈ CUBE_CHECK_ORDER, 1 ≤ cube_value p t ∧ cube_value p t ≤ p.a + 6 * p.d) ∧
    (∀ p ∈ r.tuples, ¬ (p.b ≤ p.c ∧ p.c ≤ p.d) →
      Parallel.check_cube T p = false ∧ Sequential.check_cube p = false) := by
  have hN : (Parallel.MAX_PRIME_CHECK : Int) = 70000 := rfl
  have hagree : ∀ p ∈ r.tuples, Parallel.check_cube T p = Sequential.check_cube p := by
    intro p hp
    have hpt := (mem_tuples r p).1 hp
    exact check_cube_agree hT p (by omega)
  refine ⟨hagree, List.filter_congr hagree, ?_, ?_, ?_⟩
  · intro fuel fuel' L sp sched2 sched4 ss ps h2 h4 hs hp
    obtain ⟨_, hprinted, _, _⟩ := Sequential.seq_main_ok fuel r hv hr ss hs
    obtain ⟨T', hT', hperm, hres, _⟩ :=
      Parallel.par_main_ok fuel' r hv hr L sp sched2 sched4 h2 h4 ps hp
    have hag : ps.evaluated.filter (Parallel.check_cube T')
        = ps.evaluated.filter Sequential.check_cube := by
      apply List.filter_congr
      intro p hpmem
      have hpt := (mem_tuples r p).1 ((hperm.mem_iff).1 hpmem)
      exact check_cube_agree hT' p (by omega)
    rw [hag] at hres
    refine ⟨hres, ?_⟩
    rw [hprinted]
    exact hperm.filter _
  · intro p hp hord
    have hpt := (mem_tuples r p).1 hp
    obtain ⟨⟨ha1, ha2⟩, ⟨hb1, hb2⟩, ⟨hc1, hc2⟩, ⟨hd1, hd2⟩⟩ := hv
    have hpr : p.InRange := by
      unfold Params.InRange InInt32; omega
    refine ⟨by rw [hN]; omega, ?_⟩
    rintro ⟨i, j, k⟩ ht
    obtain ⟨hi, hj, hk⟩ := (mem_CUBE_CHECK_ORDER i j k).1 ht
    rw [cube_value_exact p hpr i j k hi hj hk]
    rcases hi with rfl | rfl | rfl <;> rcases hj with rfl | rfl | rfl <;>
      rcases hk with rfl | rfl | rfl <;> omega
  · intro p _ hord
    have h1 : ¬ Canonical p := fun hc => hord ⟨hc.2.2.2.2.1, hc.2.2.2.2.2⟩
    constructor
    · rw [Bool.eq_false_iff]
      exact fun h => h1 (check_cube_run_canonical _ p h)
    · rw [Bool.eq_false_iff]
      exact fun h => h1 (check_cube_run_canonical _ p h)

/-- C19 at the ranges `a ∈ [7, 7]`, `b, c, d ∈ [150, 150]`. -/
theorem C19_witness :
    Parallel.Initialized Parallel.table_after_init ∧
    (Ranges.single { a := 7, b := 150, c := 150, d := 150 }).Valid ∧
    Parallel.check_cube Parallel.table_after_init { a := 7, b := 150, c := 150, d := 150 }
      = Sequential.check_cube { a := 7, b := 150, c := 150, d := 150 } :=
  ⟨Parallel.table_after_init_initialized, Ranges.single_valid _ (by decide),
    (C19_check_cube_agrees_below_table_bound Parallel.table_after_init
      Parallel.table_after_init_initialized
      (Ranges.single { a := 7, b := 150, c := 150, d := 150 })
      (Ranges.single_valid _ (by decide))
      (Ranges.single_in_range _ (by unfold Params.InRange InInt32; decide))
      (by unfold Ranges.single; decide)).1 _
      (by rw [Ranges.single_tuples]; exact List.mem_singleton.2 rfl)⟩

/-- C20: for positive 32-bit `a, b, c, d` and every permutation `(b', c', d')`
of `(b, c, d)`, the tuples `(a, b, c, d)` and `(a, b', c', d')` have the same
set of 27 values; hence the sequential `check_cube` applied to `a` and the
ascending sort of `(b, c, d)` returns true exactly when all 27 values of the
original tuple are prime. -/
theorem C20_sorting_loses_no_cube (p : Params) (hpos : 1 ≤ p.a ∧ 1 ≤ p.b ∧ 1 ≤ p.c ∧ 1 ≤ p.d)
    (hr : p.InRange) :
    (∀ q : Params, q.a = p.a → List.Perm [q.b, q.c, q.d] [p.b, p.c, p.d] →
      combination_values q = combination_values p ∧
      (AllCombinationsPrime q ↔ AllCombinationsPrime p)) ∧
    List.Perm [(sort3 p.b p.c p.d).1, (sort3 p.b p.c p.d).2.1, (sort3 p.b p.c p.d).2.2]
      [p.b, p.c, p.d] ∧
    (sort3 p.b p.c p.d).1 ≤ (sort3 p.b p.c p.d).2.1 ∧
    (sort3 p.b p.c p.d).2.1 ≤ (sort3 p.b p.c p.d).2.2 ∧
    (Sequential.check_cube (Params.mk p.a (sort3 p.b p.c p.d).1 (sort3 p.b p.c p.d).2.1
      (sort3 p.b p.c p.d).2.2) = true ↔
      ∀ i j k : Int, (i = 0 ∨ i = 1 ∨ i = 2) → (j = 0 ∨ j = 1 ∨ j = 2) →
        (k = 0 ∨ k = 1 ∨ k = 2) → Nat.Prime (p.a + p.b * i + p.c * j + p.d * k).toNat) := by
  have hperm_inv : ∀ q : Params, q.a = p.a → List.Perm [q.b, q.c, q.d] [p.b, p.c, p.d] →
      combination_values q = combination_values p ∧
      (AllCombinationsPrime q ↔ AllCombinationsPrime p) := by
    intro q ha hperm
    have hset := combination_values_perm p q ha hperm
    refine ⟨hset, ?_⟩
    rw [allCombinationsPrime_iff_values, allCombinationsPrime_iff_values, hset]
  obtain ⟨h1, h2, hperm⟩ := sort3_spec p.b p.c p.d
  refine ⟨hperm_inv, hperm, h1, h2, ?_⟩
  have hq := hperm_inv (Params.mk p.a (sort3 p.b p.c p.d).1 (sort3 p.b p.c p.d).2.1
      (sort3 p.b p.c p.d).2.2) rfl hperm
  have hmem : ∀ x ∈ [(sort3 p.b p.c p.d).1, (sort3 p.b p.c p.d).2.1, (sort3 p.b p.c p.d).2.2],
      x = p.b ∨ x = p.c ∨ x = p.d := by
    intro x hx
    have := (hperm.mem_iff).1 hx
    simpa using this
  have m1 := hmem (sort3 p.b p.c p.d).1 (by simp)
  have m2 := hmem (sort3 p.b p.c p.d).2.1 (by simp)
  have m3 := hmem (sort3 p.b p.c p.d).2.2 (by simp)
  obtain ⟨hra, hrb, hrc, hrd⟩ := hr
  have hqr : Params.InRange (Params.mk p.a (sort3 p.b p.c p.d).1 (sort3 p.b p.c p.d).2.1
      (sort3 p.b p.c p.d).2.2) := by
    refine ⟨hra, ?_, ?_, ?_⟩
    · rcases m1 with h | h | h <;> simp only [h] <;> assumption
    · rcases m2 with h | h | h <;> simp only [h] <;> assumption
    · rcases m3 with h | h | h <;> simp only [h] <;> assumption
  rw [Sequential.check_cube_spec _ hqr]
  have hcan : Canonical (Params.mk p.a (sort3 p.b p.c p.d).1 (sort3 p.b p.c p.d).2.1
      (sort3 p.b p.c p.d).2.2) := by
    refine ⟨hpos.1, ?_, ?_, ?_, h1, h2⟩
    · rcases m1 with h | h | h <;> simp only [h] <;> omega
    · rcases m2 with h | h | h <;> simp only [h] <;> omega
    · rcases m3 with h | h | h <;> simp only [h] <;> omega
  constructor
  · intro h; exact hq.2.1 h.2
  · intro h; exact ⟨hcan, hq.2.2 h⟩

/-- C20 at the tuple `(7, 150, 150, 150)`. -/
theorem C20_witness :
    (1 ≤ (7 : Int) ∧ 1 ≤ (150 : Int) ∧ 1 ≤ (150 : Int) ∧ 1 ≤ (150 : Int)) ∧
    Params.InRange { a := 7, b := 150, c := 150, d := 150 } ∧
    List.Perm [(sort3 150 150 150).1, (sort3 150 150 150).2.1, (sort3 150 150 150).2.2]
      [150, 150, 150] :=
  ⟨by decide, by unfold Params.InRange InInt32; decide,
    (C20_sorting_loses_no_cube { a := 7, b := 150, c := 150, d := 150 } (by decide)
      (by unfold Params.InRange InInt32; decide)).2.1⟩

/-- C12, counterexample: on the validated ranges `a ∈ [1, 6]`, `b ∈ [1, 1]`,
`c ∈ [1, 2147483646]`, `d ∈ [1, 1073741824]`, whose combination count exceeds
64 bits so that `batch_start_pos` wraps around, the instrumented mode prints 4
progress lines with log-interval 2305843015656144896 and 5 progress lines with
the larger log-interval 2305843015656144897. -/
theorem C12_counterexample :
    (Ranges.mk 1 6 1 1 1 2147483646 1 1073741824).Valid ∧
    (1 : Int) ≤ 2305843015656144896 ∧
    (2305843015656144896 : Int) ≤ 2305843015656144897 ∧
    ∃ s1 s2,
      Parallel.main_after_args 2147483648 (Ranges.mk 1 6 1 1 1 2147483646 1 1073741824)
        2305843015656144896 true (Ranges.mk 1 6 1 1 1 2147483646 1 1073741824).slices []
          = some (Except.ok s1) ∧
      Parallel.main_after_args 2147483648 (Ranges.mk 1 6 1 1 1 2147483646 1 1073741824)
        2305843015656144897 true (Ranges.mk 1 6 1 1 1 2147483646 1 1073741824).slices []
          = some (Except.ok s2) ∧
      s1.progress.length = 4 ∧ s2.progress.length = 5 := by
  have hv : (Ranges.mk 1 6 1 1 1 2147483646 1 1073741824).Valid := by
    unfold Ranges.Valid; decide
  have hr : (Ranges.mk 1 6 1 1 1 2147483646 1 1073741824).InRange := by
    unfold Ranges.InRange InInt32; decide
  have hb : (Ranges.mk 1 6 1 1 1 2147483646 1 1073741824).BelowIntMax := by
    unfold Ranges.BelowIntMax; decide
  have hf : (Ranges.mk 1 6 1 1 1 2147483646 1 1073741824).FuelEnough 2147483648 := by
    unfold Ranges.FuelEnough; decide
  have hne : (Ranges.mk 1 6 1 1 1 2147483646 1 1073741824).slices ≠ [] := by decide
  have hlines : ∀ (L : Int) (s : Parallel.State),
      Parallel.main_after_args 2147483648 (Ranges.mk 1 6 1 1 1 2147483646 1 1073741824) L true
        (Ranges.mk 1 6 1 1 1 2147483646 1 1073741824).slices [] = some (Except.ok s) →
      s.progress.length
        = ((Ranges.mk 1 6 1 1 1 2147483646 1 1073741824).slices.filter
            (Parallel.reports (Ranges.mk 1 6 1 1 1 2147483646 1 1073741824) L
              (wrap64 (Ranges.mk 1 6 1 1 1 2147483646 1 1073741824).slice_size))).length := by
    intro L s hs
    obtain ⟨⟨gc, gd⟩, T, hT⟩ := Parallel.par_main_instrumented _ _ hv hr L _ _ hne s hs
    obtain ⟨s', hs', hlen⟩ := Parallel.instrumented_progress_length T 2147483648 _ L
      hv.2.2.1 hv.2.2.2 gc gd (Ranges.mk 1 6 1 1 1 2147483646 1 1073741824).slices
      Parallel.State.start
    rw [hT] at hs'
    cases hs'
    rw [hlen]
    exact Nat.zero_add _
  obtain ⟨s1, hs1⟩ := Parallel.par_main_good 2147483648 (by decide) _ hv hb hf
    2305843015656144896 true (Ranges.mk 1 6 1 1 1 2147483646 1 1073741824).slices []
  obtain ⟨s2, hs2⟩ := Parallel.par_main_good 2147483648 (by decide) _ hv hb hf
    2305843015656144897 true (Ranges.mk 1 6 1 1 1 2147483646 1 1073741824).slices []
  refine ⟨hv, by decide, by decide, s1, s2, hs1, hs2, ?_, ?_⟩
  · rw [hlines _ s1 hs1]; decide
  · rw [hlines _ s2 hs2]; decide

/-- C12, amended: for validated ranges of 32-bit bounds whose combination
count fits in 64 bits and log intervals `1 ≤ L1 ≤ L2`, the number of `(a, b)`
slices whose `batch_start_pos / L` differs from
`(batch_start_pos + slice size) / L` is for `L2` at most what it is for `L1`,
and this number is the number of progress lines of every completed run of the
instrumented mode, whatever the schedule. -/
theorem C12_larger_log_interval_fewer_progress_lines (r : Ranges) (hv : r.Valid)
    (hr : r.InRange) (hfit : r.count ≤ 9223372036854775807) (L1 L2 : Int) (h1 : 1 ≤ L1)
    (h12 : L1 ≤ L2) :
    (r.slices.filter (Parallel.reports r L2 r.slice_size)).length
      ≤ (r.slices.filter (Parallel.reports r L1 r.slice_size)).length ∧
    (∀ fuel L sched2 sched4 s, List.Perm sched2 r.slices →
      Parallel.main_after_args fuel r L true sched2 sched4 = some (Except.ok s) →
      s.progress.length = (r.slices.filter (Parallel.reports r L r.slice_size)).length) ∧
    (∀ fuel fuel' sched2 sched2' sched4 sched4' s1 s2, List.Perm sched2 r.slices →
      List.Perm sched2' r.slices →
      Parallel.main_after_args fuel r L1 true sched2 sched4 = some (Except.ok s1) →
      Parallel.main_after_args fuel' r L2 true sched2' sched4' = some (Except.ok s2) →
      s2.progress.length ≤ s1.progress.length) := by
  have hS := slice_size_pos r hv
  have hmono : (r.slices.filter (Parallel.reports r L2 r.slice_size)).length
      ≤ (r.slices.filter (Parallel.reports r L1 r.slice_size)).length := by
    rw [count_reports r hv hr hfit L2 (by omega), count_reports r hv hr hfit L1 h1]
    exact crossings_antitone _ _ _ _ (by omega) (by omega)
  have hsize : r.slice_size ≤ 9223372036854775807 := by
    have h := slices_length_mul r hv
    have hn : (1 : Int) ≤ r.slices.length := by
      by_contra hcon
      have h0 : (r.slices.length : Int) = 0 := by omega
      rw [h0, zero_mul] at h
      have := length_tuples r hv
      have hpos : 0 < r.tuples.length := by
        apply List.length_pos_of_mem
        exact (mem_tuples r ⟨r.a_min, r.b_min, r.c_min, r.d_min⟩).2
          ⟨⟨le_refl _, hv.1.2⟩, ⟨le_refl _, hv.2.1.2⟩, ⟨le_refl _, hv.2.2.1.2⟩,
            ⟨le_refl _, hv.2.2.2.2⟩⟩
      omega
    have hmul := mul_nonneg (by omega : (0 : Int) ≤ r.slices.length - 1)
      (by omega : 0 ≤ r.slice_size)
    have e : ((r.slices.length : Int) - 1) * r.slice_size
        = r.slices.length * r.slice_size - r.slice_size := by ring
    linarith
  have hwS : wrap64 r.slice_size = r.slice_size := wrap64_eq_self (by omega) hsize
  have hlines : ∀ fuel L sched2 sched4 s, List.Perm sched2 r.slices →
      Parallel.main_after_args fuel r L true sched2 sched4 = some (Except.ok s) →
      s.progress.length = (r.slices.filter (Parallel.reports r L r.slice_size)).length := by
    intro fuel L sched2 sched4 s hperm hs
    have hne : sched2 ≠ [] := by
      intro hnil
      rw [hnil] at hperm
      have hmem : (r.a_min, r.b_min) ∈ r.slices :=
        (mem_slices r _).2 ⟨⟨le_refl _, hv.1.2⟩, ⟨le_refl _, hv.2.1.2⟩⟩
      have := (hperm.mem_iff).2 hmem
      simp at this
    obtain ⟨⟨gc, gd⟩, T, hT⟩ := Parallel.par_main_instrumented fuel r hv hr L _ _ hne s hs
    obtain ⟨s', hs', hlen⟩ := Parallel.instrumented_progress_length T fuel r L
      hv.2.2.1 hv.2.2.2 gc gd sched2 Parallel.State.start
    rw [hT] at hs'
    cases hs'
    rw [hlen, hwS, (hperm.filter _).length_eq]
    exact Nat.zero_add _
  refine ⟨hmono, hlines, ?_⟩
  intro fuel fuel' sched2 sched2' sched4 sched4' s1 s2 hp hp' hs1 hs2
  rw [hlines fuel L1 sched2 sched4 s1 hp hs1, hlines fuel' L2 sched2' sched4' s2 hp' hs2]
  exact hmono

/-- C12, amended, at the ranges `a, b, c, d ∈ [1, 5]` and the log intervals
100 and 200. -/
theorem C12_witness :
    (Ranges.uniform 1 5).Valid ∧ (Ranges.uniform 1 5).InRange ∧
    (Ranges.uniform 1 5).count ≤ 9223372036854775807 ∧ (1 : Int) ≤ 100 ∧ (100 : Int) ≤ 200 ∧
    ((Ranges.uniform 1 5).slices.filter
        (Parallel.reports (Ranges.uniform 1 5) 200 (Ranges.uniform 1 5).slice_size)).length
      ≤ ((Ranges.uniform 1 5).slices.filter
        (Parallel.reports (Ranges.uniform 1 5) 100 (Ranges.uniform 1 5).slice_size)).length :=
  ⟨by unfold Ranges.Valid Ranges.uniform; decide,
    by unfold Ranges.InRange Ranges.uniform InInt32; decide,
    by unfold Ranges.count Ranges.uniform; decide, by decide, by decide,
    (C12_larger_log_interval_fewer_progress_lines (Ranges.uniform 1 5)
      (by unfold Ranges.Valid Ranges.uniform; decide)
      (by unfold Ranges.InRange Ranges.uniform InInt32; decide)
      (by unfold Ranges.count Ranges.uniform; decide) 100 200 (by decide) (by decide)).1⟩

/-- C13: in instrumented mode, for validated ranges of 32-bit bounds whose
combination count fits in 64 bits and every order `sched` in which the `(a, b)`
slices complete: the value of `global_checked` after the first `j` merges is
nonnegative and at most its value after the first `k ≥ j` merges, which is at
most `total_combinations`; so the percentage
`global_checked / total_combinations * 100`, of the counter and of every
progress line printed so far, is at most 100.  The states after the first `k`
merges are the intermediate states of the whole run, and they all exist when
the inner loops over `c` and `d` terminate. -/
theorem C13_global_checked_monotone_and_at_most_total (r : Ranges) (hv : r.Valid)
    (hr : r.InRange) (hfit : r.count ≤ 9223372036854775807) (T : Parallel.PrimeTable)
    (fuel : Nat) (L : Int) (sched : List (Int × Int)) (hperm : List.Perm sched r.slices) :
    (∀ j k sj sk, j ≤ k →
      Parallel.instrumented T fuel r L (sched.take j) Parallel.State.start = some sj →
      Parallel.instrumented T fuel r L (sched.take k) Parallel.State.start = some sk →
      0 ≤ sj.global_checked ∧ sj.global_checked ≤ sk.global_checked ∧
      sk.global_checked ≤ total_combinations r ∧
      (sk.global_checked : ℚ) / (total_combinations r : ℚ) * 100 ≤ 100 ∧
      ∀ v ∈ sk.progress, 0 ≤ v ∧ v ≤ total_combinations r ∧
        (v : ℚ) / (total_combinations r : ℚ) * 100 ≤ 100) ∧
    (∀ k, Parallel.instrumented T fuel r L sched Parallel.State.start
      = (Parallel.instrumented T fuel r L (sched.take k) Parallel.State.start).bind
          (Parallel.instrumented T fuel r L (sched.drop k))) ∧
    ((r.c_max < 2147483647 ∧ r.c_max - r.c_min + 1 < fuel) ∧
      (r.d_max < 2147483647 ∧ r.d_max - r.d_min + 1 < fuel) →
      ∀ k, ∃ sk,
        Parallel.instrumented T fuel r L (sched.take k) Parallel.State.start = some sk) := by
  have hS := slice_size_pos r hv
  have hcount := slices_length_mul r hv
  have htot := total_combinations_eq r hv hr hfit
  have hlen : sched.length = r.slices.length := hperm.length_eq
  have hpct : ∀ v : Int, 0 ≤ v → v ≤ total_combinations r →
      (v : ℚ) / (total_combinations r : ℚ) * 100 ≤ 100 := by
    intro v h0 h1
    have hpos : (0 : ℚ) < (total_combinations r : ℚ) := by
      have h2 : (1 : Int) ≤ r.slices.length := by
        have hmem : (r.a_min, r.b_min) ∈ r.slices :=
          (mem_slices r _).2 ⟨⟨le_refl _, hv.1.2⟩, ⟨le_refl _, hv.2.1.2⟩⟩
        have := List.length_pos_of_mem hmem
        omega
      have h3 := mul_le_mul h2 hS (by omega) (by omega)
      have h4 : (0 : Int) < total_combinations r := by omega
      exact_mod_cast h4
    have hle : (v : ℚ) ≤ (total_combinations r : ℚ) := by exact_mod_cast h1
    have h5 : (v : ℚ) / (total_combinations r : ℚ) ≤ 1 := (div_le_one hpos).2 hle
    linarith
  refine ⟨?_, ?_, ?_⟩
  · intro j k sj sk hjk hj hk
    have hlj : (sched.take j).length ≤ r.slices.length := by
      rw [List.length_take]; omega
    have hlk : (sched.take k).length ≤ r.slices.length := by
      rw [List.length_take]; omega
    obtain ⟨gj, _⟩ := Parallel.instrumented_state T fuel r L hv hr hfit _ hlj sj hj
    obtain ⟨gk, pk⟩ := Parallel.instrumented_state T fuel r L hv hr hfit _ hlk sk hk
    have hjk' : ((sched.take j).length : Int) ≤ (sched.take k).length := by
      rw [List.length_take, List.length_take]
      have : min j sched.length ≤ min k sched.length := min_le_min_right _ hjk
      exact_mod_cast this
    have hk' : ((sched.take k).length : Int) ≤ r.slices.length := by exact_mod_cast hlk
    have m1 := mul_le_mul_of_nonneg_right hjk' (by omega : (0 : Int) ≤ r.slice_size)
    have m2 := mul_le_mul_of_nonneg_right hk' (by omega : (0 : Int) ≤ r.slice_size)
    have m0 : (0 : Int) ≤ ((sched.take j).length : Int) * r.slice_size :=
      mul_nonneg (Int.ofNat_nonneg _) (by omega)
    have b0 : 0 ≤ sj.global_checked := by rw [gj]; exact m0
    have b1 : sj.global_checked ≤ sk.global_checked := by rw [gj, gk]; exact m1
    have b2 : sk.global_checked ≤ total_combinations r := by rw [gk, htot, ← hcount]; exact m2
    refine ⟨b0, b1, b2, hpct _ (by omega) b2, ?_⟩
    intro v hvmem
    obtain ⟨v0, v1⟩ := pk v hvmem
    exact ⟨v0, by omega, hpct v v0 (by omega)⟩
  · intro k
    unfold Parallel.instrumented
    rw [← run_list_append, List.take_append_drop]
  · intro hg k
    obtain ⟨s', hs', _⟩ := Parallel.instrumented_progress_length T fuel r L hv.2.2.1 hv.2.2.2
      hg.1 hg.2 (sched.take k) Parallel.State.start
    exact ⟨s', hs'⟩

/-- C13 at the ranges `a, b, c, d ∈ [1, 5]`, the slices taken in loop order:
the states after every number of merges exist. -/
theorem C13_witness :
    (Ranges.uniform 1 5).Valid ∧ (Ranges.uniform 1 5).InRange ∧
    (Ranges.uniform 1 5).count ≤ 9223372036854775807 ∧
    List.Perm (Ranges.uniform 1 5).slices (Ranges.uniform 1 5).slices ∧
    ∀ k, ∃ sk, Parallel.instrumented Parallel.table_after_init 10 (Ranges.uniform 1 5) 100
      ((Ranges.uniform 1 5).slices.take k) Parallel.State.start = some sk :=
  ⟨by unfold Ranges.Valid Ranges.uniform; decide,
    by unfold Ranges.InRange Ranges.uniform InInt32; decide,
    by unfold Ranges.count Ranges.uniform; decide, List.Perm.refl _,
    (C13_global_checked_monotone_and_at_most_total (Ranges.uniform 1 5)
      (by unfold Ranges.Valid Ranges.uniform; decide)
      (by unfold Ranges.InRange Ranges.uniform InInt32; decide)
      (by unfold Ranges.count Ranges.uniform; decide) Parallel.table_after_init 10 100
      (Ranges.uniform 1 5).slices (List.Perm.refl _)).2.2
      (by unfold Ranges.uniform; decide)⟩

/-- C21: for every tuple `(a, b, c, d)` of 32-bit fields on which `check_cube`
returns true, in the sequential engine or in the parallel engine after
`init_prime_hash_set`, `a` is an odd prime with `a ≥ 5` and each of `b`, `c`,
`d` is a positive multiple of 6; consequently, for validated 32-bit ranges
whose `d` maximum is below 6, every search that completes reports no match
(nothing printed or recorded, `found = 0`), in either engine, either mode and
for every schedule; and these searches do complete when no range maximum is
`INT_MAX`. -/
theorem C21_matches_have_prime_a_ge_5_and_bcd_multiples_of_6 :
    (∀ (T : Parallel.PrimeTable) (p : Params), Parallel.Initialized T → p.InRange →
      (Sequential.check_cube p = true ∨ Parallel.check_cube T p = true) →
      (Nat.Prime p.a.toNat ∧ p.a % 2 = 1 ∧ 5 ≤ p.a) ∧ (1 ≤ p.b ∧ 6 ∣ p.b) ∧
        (1 ≤ p.c ∧ 6 ∣ p.c) ∧ (1 ≤ p.d ∧ 6 ∣ p.d)) ∧
    (∀ r : Ranges, r.Valid → r.InRange → r.d_max < 6 →
      (∀ fuel s, Sequential.main_after_args fuel r = some (Except.ok s) →
        s.printed = [] ∧ s.found = 0) ∧
      (∀ fuel L sp sched2 sched4 s, List.Perm sched2 r.slices → List.Perm sched4 r.tuples →
        Parallel.main_after_args fuel r L sp sched2 sched4 = some (Except.ok s) →
        Parallel.dump s.result_set = [] ∧ s.result_set.count = 0 ∧ s.found = 0) ∧
      (r.BelowIntMax → ∀ fuel, Parallel.MAX_PRIME_CHECK + 2 ≤ fuel → r.FuelEnough fuel →
        (∃ s, Sequential.main_after_args fuel r = some (Except.ok s)) ∧
        ∀ L sp sched2 sched4, ∃ s,
          Parallel.main_after_args fuel r L sp sched2 sched4 = some (Except.ok s))) := by
  constructor
  · intro T p hT hp h
    have hboth : Canonical p ∧ AllCombinationsPrime p := by
      rcases h with h | h
      · exact (Sequential.check_cube_spec p hp).1 h
      · exact Parallel.check_cube_all_prime hT p hp h
    obtain ⟨hc, hall⟩ := hboth
    obtain ⟨ha, hb, hc', hd⟩ := all_prime_shape p hc hall
    exact ⟨ha, ⟨hc.2.1, hb⟩, ⟨hc.2.2.1, hc'⟩, ⟨hc.2.2.2.1, hd⟩⟩
  · intro r hv hr hd
    have hw : wrap32 0 = 0 := by decide
    refine ⟨?_, ?_, ?_⟩
    · intro fuel s hs
      obtain ⟨_, hpr, _, hf⟩ := Sequential.seq_main_ok fuel r hv hr s hs
      have hnil := (no_match_below_6 r hv hr hd Parallel.table_after_init
        Parallel.table_after_init_initialized r.tuples (fun _ h => h)).1
      rw [hnil] at hpr hf
      exact ⟨hpr, by rw [hf]; exact hw⟩
    · intro fuel L sp sched2 sched4 s h2 h4 hs
      obtain ⟨T, hT, hperm, hres, hf, _⟩ :=
        Parallel.par_main_ok fuel r hv hr L sp sched2 sched4 h2 h4 s hs
      have hnil := (no_match_below_6 r hv hr hd T hT s.evaluated
        (fun p hp => hperm.mem_iff.1 hp)).2
      rw [hnil] at hres hf
      rw [hres]
      exact ⟨rfl, rfl, by rw [hf]; exact hw⟩
    · intro hb fuel hfuel hf
      refine ⟨⟨_, Sequential.seq_main_good fuel r hv hb hf⟩, ?_⟩
      intro L sp sched2 sched4
      exact Parallel.par_main_good fuel hfuel r hv hb hf L sp sched2 sched4

/-- C21 at the matching tuple `(7, 150, 150, 150)` and at the ranges
`a, b, c, d ∈ [1, 5]`, on which the sequential search completes without a
match. -/
theorem C21_witness :
    Parallel.Initialized Parallel.table_after_init ∧
    Params.InRange { a := 7, b := 150, c := 150, d := 150 } ∧
    Sequential.check_cube { a := 7, b := 150, c := 150, d := 150 } = true ∧
    ((Nat.Prime (7 : Int).toNat ∧ (7 : Int) % 2 = 1 ∧ 5 ≤ (7 : Int)) ∧
      (1 ≤ (150 : Int) ∧ (6 : Int) ∣ 150) ∧ (1 ≤ (150 : Int) ∧ (6 : Int) ∣ 150) ∧
      (1 ≤ (150 : Int) ∧ (6 : Int) ∣ 150)) ∧
    (Ranges.uniform 1 5).Valid ∧ (Ranges.uniform 1 5).InRange ∧
    (Ranges.uniform 1 5).d_max < 6 ∧
    ∃ s, Sequential.main_after_args 70002 (Ranges.uniform 1 5) = some (Except.ok s) ∧
      s.printed = [] ∧ s.found = 0 :=
  ⟨Parallel.table_after_init_initialized,
    by unfold Params.InRange InInt32; decide,
    by decide!,
    C21_matches_have_prime_a_ge_5_and_bcd_multiples_of_6.1 Parallel.table_after_init
      { a := 7, b := 150, c := 150, d := 150 } Parallel.table_after_init_initialized
      (by unfold Params.InRange InInt32; decide) (Or.inl (by decide!)),
    by unfold Ranges.Valid Ranges.uniform; decide,
    by unfold Ranges.InRange Ranges.uniform InInt32; decide,
    by unfold Ranges.uniform; decide,
    _, Sequential.seq_main_good 70002 (Ranges.uniform 1 5)
      (by unfold Ranges.Valid Ranges.uniform; decide)
      (by unfold Ranges.BelowIntMax Ranges.uniform; decide)
      (by unfold Ranges.FuelEnough Ranges.uniform; decide),
    (C21_matches_have_prime_a_ge_5_and_bcd_multiples_of_6.2 (Ranges.uniform 1 5)
      (by unfold Ranges.Valid Ranges.uniform; decide)
      (by unfold Ranges.InRange Ranges.uniform InInt32; decide)
      (by unfold Ranges.uniform; decide)).1 70002 _
      (Sequential.seq_main_good 70002 (Ranges.uniform 1 5)
        (by unfold Ranges.Valid Ranges.uniform; decide)
        (by unfold Ranges.BelowIntMax Ranges.uniform; decide)
        (by unfold Ranges.FuelEnough Ranges.uniform; decide))⟩
